import Mathlib

/-!
# filesync: one-way directory mirroring (`main.go`)

A shallow embedding of the reconciliation core of `main.go`
(`getFiles`, `getDiff`, `copyFiles`, `delFiles`, `exists`, `sync`) over an
explicit model of the file system, followed by the properties proved of it.

The file systems of the model hold no symbolic links: a path denotes the
entry stored at it, and no two paths denote the same entry. What `os.Stat`,
`os.Open`, `os.Create` and `os.RemoveAll` do through a symbolic link is
outside the model, and so is every property of a run that meets one.
-/

namespace Filesync

/-! ## Listings and the differ -/

/-- The kind of a directory entry as `os.FileInfo` reports it: `IsDir()`,
`Mode().IsRegular()`, or neither (device, socket, pipe). -/
inductive Kind where
  | file
  | dir
  | other
  deriving DecidableEq, Repr

/-- The part of `os.FileInfo` the program reads: `Name()` and the kind. -/
structure FileInfo where
  name : String
  kind : Kind
  deriving DecidableEq, Repr

/-- `f.IsDir()`. -/
def FileInfo.IsDir (f : FileInfo) : Bool := f.kind = Kind.dir

/-- `f.Mode().IsRegular()`. -/
def FileInfo.IsRegular (f : FileInfo) : Bool := f.kind = Kind.file

/-- `Skipped`: the names `getFiles` leaves out of the file listing
(`map[string]int{".DS_Store": 1}`; only the keys are ever consulted). -/
def Skipped : List String := [".DS_Store"]

/-- A Go `map[string]int` as an association list with unique keys. -/
abbrev GoMap := List (String × Int)

/-- `_, ok := m[k]`. -/
def mapHas (m : GoMap) (k : String) : Bool := m.any (fun kv => kv.1 = k)

/-- `m[k]`, as an option. -/
def mapGet : GoMap → String → Option Int
  | [], _ => none
  | (k', v') :: rest, k => if k' = k then some v' else mapGet rest k

/-- `m[k] = v`: overwrite the entry of `k` or add one. -/
def mapSet : GoMap → String → Int → GoMap
  | [], k, v => [(k, v)]
  | (k', v') :: rest, k, v =>
      if k' = k then (k, v) :: rest else (k', v') :: mapSet rest k v

/-- The order in which one `for k, v := range m` visits a map. Go leaves it
unspecified, so a range goes through an arbitrary rearrangement of the
entries. -/
structure RangeOrder where
  pick : GoMap → GoMap
  perm : ∀ m, (pick m).Perm m

/-- Visiting the entries in insertion order. -/
def RangeOrder.insertion : RangeOrder := ⟨fun m => m, fun m => List.Perm.refl m⟩

/-- Visiting the entries in reverse insertion order. -/
def RangeOrder.reversed : RangeOrder := ⟨fun m => m.reverse, fun m => List.reverse_perm m⟩

/-- First loop of `getDiff`: every source name gets state `1`. -/
def markSource (sourceFiles : List FileInfo) : GoMap :=
  sourceFiles.foldl (fun m f => mapSet m f.name 1) []

/-- Second loop of `getDiff`: a target name already in the map gets state `0`,
a new one state `-1`. -/
def markTarget (m : GoMap) (targetFiles : List FileInfo) : GoMap :=
  targetFiles.foldl
    (fun m f => if mapHas m f.name then mapSet m f.name 0 else mapSet m f.name (-1)) m

/-- Third loop of `getDiff`: split the entries by state. -/
def partitionStates (entries : GoMap) : List String × List String :=
  entries.foldl
    (fun acc kv =>
      if kv.2 = 1 then (acc.1 ++ [kv.1], acc.2)
      else if kv.2 = -1 then (acc.1, acc.2 ++ [kv.1])
      else acc)
    ([], [])

/-- `getDiff(sourceFiles, targetFiles)`: the names to add and the names to
delete. -/
def getDiff (ord : RangeOrder) (sourceFiles targetFiles : List FileInfo) :
    List String × List String :=
  partitionStates (ord.pick (markTarget (markSource sourceFiles) targetFiles))

/-! ## The file system -/

/-- A path as the list of its components; `path.Join(dir, name)` for a name
that is a single component (as `Readdir` yields them) is `dir ++ [name]`. -/
abbrev Path := List String

/-- What a path holds: a regular file with its bytes, a directory, or
something else that is not a symbolic link (device, socket, pipe). -/
inductive Node where
  | file (data : List Nat)
  | dir
  | other
  deriving DecidableEq, Repr

/-- The kind `Readdir` reports for a node. -/
def Node.kind : Node → Kind
  | Node.file _ => Kind.file
  | Node.dir => Kind.dir
  | Node.other => Kind.other

/-- The system calls the program makes; each can be refused by the
environment (permission denied, input/output error, device full). -/
inductive Sys where
  | stat
  | open
  | readdir
  | mkdir
  | create
  | read
  | write
  | remove
  deriving DecidableEq, Repr

/-- The state of the file system: the node at every occupied path, and the
calls the environment refuses, by path. The refusals never change. -/
structure FS where
  ents : List (Path × Node)
  deny : List (Sys × Path)
  deriving DecidableEq, Repr

/-- `under p q`: the path `q` is `p` itself or lies beneath it. -/
def under : Path → Path → Bool
  | [], _ => true
  | _ :: _, [] => false
  | a :: p, b :: q => decide (a = b) && under p q

/-- The node of the first entry with the given path. -/
def look : List (Path × Node) → Path → Option Node
  | [], _ => none
  | e :: rest, p => if e.1 = p then some e.2 else look rest p

/-- The node at a path, if the path is occupied. -/
def FS.get (fs : FS) (p : Path) : Option Node := look fs.ents p

/-- Whether the environment refuses the call `c` on path `p`. -/
def FS.denied (fs : FS) (c : Sys) (p : Path) : Bool := decide ((c, p) ∈ fs.deny)

/-- A proper ancestor of `p` is occupied by something that is not a
directory, so resolving `p` fails with `ENOTDIR`. -/
def FS.blocked (fs : FS) (p : Path) : Bool :=
  (List.range p.length).any fun k =>
    match fs.get (p.take k) with
    | some Node.dir => false
    | some _ => true
    | none => false

/-- The parent of `p` is a directory (and `p` is not the root). -/
def FS.parentIsDir (fs : FS) (p : Path) : Bool :=
  decide (p ≠ []) && decide (fs.get p.dropLast = some Node.dir)

/-- The name of `q` when `q` is an immediate child of `p`. -/
def childName (p q : Path) : Option String :=
  match q.drop p.length with
  | [n] => if q.take p.length = p then some n else none
  | _ => none

/-- The immediate children of `p`, in the order the file system holds them. -/
def FS.children (fs : FS) (p : Path) : List FileInfo :=
  fs.ents.filterMap fun e => (childName p e.1).map fun n => ⟨n, e.2.kind⟩

/-- Replace the node at `p`. -/
def setNode (p : Path) (n : Node) : List (Path × Node) → List (Path × Node)
  | [] => []
  | e :: rest => (if e.1 = p then (p, n) else e) :: setNode p n rest

/-- `os.Stat(path)` followed by `os.IsNotExist(err)`: the error is "does not
exist" only when resolution stops at a missing component; a refused call and
`ENOTDIR` are other errors. -/
def osStatNotExist (fs : FS) (p : Path) : Bool :=
  !fs.denied Sys.stat p && !fs.blocked p && (fs.get p).isNone

/-- `os.Open(path)` succeeds on any occupied path the environment lets us
open. -/
def osOpen (fs : FS) (p : Path) : Bool :=
  (fs.get p).isSome && !fs.denied Sys.open p

/-- `dir.Readdir(-1)` on a handle opened at `p`: the children of a directory,
an error on anything else. -/
def osReaddir (fs : FS) (p : Path) : Option (List FileInfo) :=
  if fs.get p = some Node.dir ∧ fs.denied Sys.readdir p = false then some (fs.children p)
  else none

/-- `os.Mkdir(path, perm)`: creates the directory when the path is free and
its parent is a directory. -/
def osMkdir (fs : FS) (p : Path) : Option FS :=
  if fs.denied Sys.mkdir p = false ∧ fs.get p = none ∧ fs.parentIsDir p = true then
    some { fs with ents := fs.ents ++ [(p, Node.dir)] }
  else none

/-- `os.Create(path)`: truncates an existing regular file, opens an existing
device or pipe as it is (a socket refuses, through `deny`), fails on a
directory, and creates an empty regular file on a free path whose parent is a
directory. -/
def osCreate (fs : FS) (p : Path) : Option FS :=
  if fs.denied Sys.create p then none
  else
    match fs.get p with
    | some (Node.file _) => some { fs with ents := setNode p (Node.file []) fs.ents }
    | some Node.other => some fs
    | some Node.dir => none
    | none =>
        if fs.parentIsDir p then some { fs with ents := fs.ents ++ [(p, Node.file [])] }
        else none

/-- The result of one `Read` call. -/
inductive ReadResult where
  | data (bytes : List Nat)
  | eof
  | error
  deriving DecidableEq, Repr

/-- `f.Read(buf)` on a handle opened at `p`, at offset `off`, with a buffer of
`size` bytes: `(0, io.EOF)` at the end of a regular file, the next bytes
before it, an error on a directory or when refused. -/
def osRead (fs : FS) (p : Path) (off size : Nat) : ReadResult :=
  if fs.denied Sys.read p then ReadResult.error
  else
    match fs.get p with
    | some (Node.file data) =>
        if (data.drop off).take size = [] then ReadResult.eof
        else ReadResult.data ((data.drop off).take size)
    | _ => ReadResult.error

/-- `f.Write(bytes)` on a handle created at `p` and only written by us: the
bytes go to the end of the regular file; a device or pipe takes them and the
file system stays as it is. -/
def osWrite (fs : FS) (p : Path) (bytes : List Nat) : Option FS :=
  if fs.denied Sys.write p then none
  else
    match fs.get p with
    | some (Node.file data) =>
        some { fs with ents := setNode p (Node.file (data ++ bytes)) fs.ents }
    | some Node.other => some fs
    | _ => none

/-- An entry at or beneath `q` cannot be unlinked, so `q` cannot be removed. -/
def FS.stuck (fs : FS) (q : Path) : Bool :=
  fs.ents.any fun e => under q e.1 && fs.denied Sys.remove e.1

/-- `os.RemoveAll(path)`: removes `path` and everything beneath it that can
be removed. It reports an error when something had to stay or the path
cannot be resolved; a path that does not exist is no error. -/
def osRemoveAll (fs : FS) (p : Path) : Bool × FS :=
  (!fs.stuck p && !fs.blocked p,
   { fs with ents := fs.ents.filter fun e => !under p e.1 || fs.stuck e.1 })

/-! ## The program -/

/-- What the program asks of the file system, in order, with the outcome.
`call` marks an invocation of `sync`. -/
inductive Event where
  | call (source target : Path)
  | stat (p : Path) (found : Bool)
  | open (p : Path) (ok : Bool)
  | readdir (p : Path) (ok : Bool)
  | mkdir (p : Path) (ok : Bool)
  | create (p : Path) (ok : Bool)
  | read (p : Path) (n : Nat) (ok : Bool)
  | write (p : Path) (n : Nat) (ok : Bool)
  | removeAll (p : Path) (ok : Bool)
  deriving DecidableEq, Repr

/-- What a step of the program leaves behind: its value, the file system and
the calls it made. -/
structure Out (α : Type) where
  val : α
  fs : FS
  log : List Event

/-- `exists(path)`. -/
def «exists» (fs : FS) (path : Path) : Bool :=
  if osStatNotExist fs path then false else true

/-- The classification loop of `getFiles`. -/
def classify (list : List FileInfo) : List FileInfo × List FileInfo :=
  list.foldl
    (fun acc f =>
      if f.IsDir then (acc.1, acc.2 ++ [f])
      else if f.IsRegular then
        if mapHas (Skipped.map fun k => (k, 1)) f.name then acc else (acc.1 ++ [f], acc.2)
      else acc)
    ([], [])

/-- `getFiles(path)`: the regular files and the directories of `path`; two
empty listings when it cannot be opened or read. -/
def getFiles (fs : FS) (path : Path) : Out (List FileInfo × List FileInfo) :=
  if osOpen fs path then
    match osReaddir fs path with
    | none => ⟨([], []), fs, [Event.open path true, Event.readdir path false]⟩
    | some list => ⟨classify list, fs, [Event.open path true, Event.readdir path true]⟩
  else ⟨([], []), fs, [Event.open path false]⟩

/-- `BUFFERSIZE`, 20MB. -/
def BUFFERSIZE : Nat := 1024 * 1024 * 20

/-- The transfer loop of `copyFiles` for one file, from offset `off`: whether
it reached the end of the input (`i++`), the file system and the calls. The
first argument bounds the number of iterations. -/
def copyLoop : Nat → FS → Path → Path → Nat → Out Bool
  | 0, fs, _, _, _ => ⟨false, fs, []⟩
  | fuel + 1, fs, sourcePath, targetPath, off =>
      match osRead fs sourcePath off BUFFERSIZE with
      | ReadResult.error => ⟨false, fs, [Event.read sourcePath 0 false]⟩
      | ReadResult.eof => ⟨true, fs, [Event.read sourcePath 0 true]⟩
      | ReadResult.data bytes =>
          match osWrite fs targetPath bytes with
          | none =>
              ⟨false, fs, [Event.read sourcePath bytes.length true,
                Event.write targetPath bytes.length false]⟩
          | some fs1 =>
              let r := copyLoop fuel fs1 sourcePath targetPath (off + bytes.length)
              ⟨r.val, r.fs, Event.read sourcePath bytes.length true ::
                Event.write targetPath bytes.length true :: r.log⟩

/-- The number of bytes of the regular file at `p` (0 for anything else). -/
def FS.size (fs : FS) (p : Path) : Nat :=
  match fs.get p with
  | some (Node.file data) => data.length
  | _ => 0

/-- The loop of `copyFiles` over the names, with the counter `i`. -/
def copyFilesFrom : List String → Path → Path → FS → Nat → Out Nat
  | [], _, _, fs, i => ⟨i, fs, []⟩
  | f :: rest, source, target, fs, i =>
      let sourcePath := source ++ [f]
      let targetPath := target ++ [f]
      if osOpen fs sourcePath then
        match osCreate fs targetPath with
        | none => ⟨0, fs, [Event.open sourcePath true, Event.create targetPath false]⟩
        | some fs1 =>
            let c := copyLoop (fs1.size sourcePath + 1) fs1 sourcePath targetPath 0
            let r := copyFilesFrom rest source target c.fs (if c.val then i + 1 else i)
            ⟨r.val, r.fs,
              Event.open sourcePath true :: Event.create targetPath true :: (c.log ++ r.log)⟩
      else ⟨0, fs, [Event.open sourcePath false]⟩

/-- `copyFiles(added, source, target)`. -/
def copyFiles (added : List String) (source target : Path) (fs : FS) : Out Nat :=
  copyFilesFrom added source target fs 0

/-- The loop of `delFiles` over the names, with the counter `i`. -/
def delFilesFrom : List String → Path → FS → Nat → Out Nat
  | [], _, fs, i => ⟨i, fs, []⟩
  | file :: rest, target, fs, i =>
      let filePath := target ++ [file]
      let rm := osRemoveAll fs filePath
      let r := delFilesFrom rest target rm.2 (if rm.1 then i + 1 else i)
      ⟨r.val, r.fs, Event.removeAll filePath rm.1 :: r.log⟩

/-- `delFiles(deleted, target)`. -/
def delFiles (deleted : List String) (target : Path) (fs : FS) : Out Nat :=
  delFilesFrom deleted target fs 0

/-- Step 5 of `sync`: the loop over `sourceDirs`, given the function for the
recursive call. `none` when a recursive call does not return. -/
def forDirs (recur : Path → Path → Int → FS → Option (Out (Nat × Nat)))
    (source target : Path) (level : Int) :
    List FileInfo → FS → Nat × Nat → Option (Out (Nat × Nat))
  | [], fs, counts => some ⟨counts, fs, []⟩
  | dir :: rest, fs, counts =>
      match recur (source ++ [dir.name]) (target ++ [dir.name]) (level + 1) fs with
      | none => none
      | some r =>
          match forDirs recur source target level rest r.fs
              (counts.1 + r.val.1, counts.2 + r.val.2) with
          | none => none
          | some r2 => some ⟨r2.val, r2.fs, r.log ++ r2.log⟩

/-- Step 2 of `sync`: `if !exists(target) { os.Mkdir(target, os.ModePerm) }`;
the error of `Mkdir` is dropped. -/
def ensureTarget (fs : FS) (target : Path) : FS × List Event :=
  if «exists» fs target then (fs, [Event.stat target true])
  else
    match osMkdir fs target with
    | some fs1 => (fs1, [Event.stat target false, Event.mkdir target true])
    | none => (fs, [Event.stat target false, Event.mkdir target false])

/-- `sync(source, target, level)`. The first argument bounds the depth of the
recursion: `none` when it is used up. `ord source b` is the order of the range
over the map in the `getDiff` of the files (`b = false`) and of the
directories (`b = true`) of this level. `level` only indents the progress
line, which is not modelled, like the elapsed time. -/
def sync : Nat → (Path → Bool → RangeOrder) → Path → Path → Int → FS →
    Option (Out (Nat × Nat))
  | 0, _, _, _, _, _ => none
  | fuel + 1, ord, source, target, level, fs =>
      let src := getFiles fs source
      if «exists» fs source then
        let mk := ensureTarget fs target
        let tgt := getFiles mk.1 target
        let files := getDiff (ord source false) src.val.1 tgt.val.1
        let dirs := getDiff (ord source true) src.val.2 tgt.val.2
        let c := copyFiles files.1 source target mk.1
        let d := delFiles files.2 target c.fs
        let dd := delFiles dirs.2 target d.fs
        match forDirs (sync fuel ord) source target level src.val.2 dd.fs (c.val, d.val) with
        | none => none
        | some r =>
            some ⟨r.val, r.fs,
              Event.call source target :: (src.log ++ [Event.stat source true] ++ mk.2 ++
                tgt.log ++ c.log ++ d.log ++ dd.log ++ r.log)⟩
      else some ⟨(0, 0), fs, Event.call source target :: (src.log ++ [Event.stat source false])⟩

/-- Step 3 of `sync` on the files: the `added` and `deleted` lists of the
level, from a state `fs` in which the level starts. -/
def levelFiles (ord : Path → Bool → RangeOrder) (fs : FS) (source target : Path) :
    List String × List String :=
  getDiff (ord source false) (getFiles fs source).val.1
    (getFiles (ensureTarget fs target).1 target).val.1

/-- Step 3 of `sync` on the directories: the second list is `deletedDirs`. -/
def levelDirs (ord : Path → Bool → RangeOrder) (fs : FS) (source target : Path) :
    List String × List String :=
  getDiff (ord source true) (getFiles fs source).val.2
    (getFiles (ensureTarget fs target).1 target).val.2

/-- The `copyFiles(added, source, target)` of the level. -/
def levelCopy (ord : Path → Bool → RangeOrder) (fs : FS) (source target : Path) : Out Nat :=
  copyFiles (levelFiles ord fs source target).1 source target (ensureTarget fs target).1

/-- The `delFiles(deleted, target)` of the level. -/
def levelDel (ord : Path → Bool → RangeOrder) (fs : FS) (source target : Path) : Out Nat :=
  delFiles (levelFiles ord fs source target).2 target (levelCopy ord fs source target).fs

/-- The `delFiles(deletedDirs, target)` of the level. -/
def levelDelDirs (ord : Path → Bool → RangeOrder) (fs : FS) (source target : Path) : Out Nat :=
  delFiles (levelDirs ord fs source target).2 target (levelDel ord fs source target).fs

/-- The calls of one level of `sync` whose source exists, before the
recursion. -/
def levelLog (ord : Path → Bool → RangeOrder) (fs : FS) (source target : Path) : List Event :=
  Event.call source target :: ((getFiles fs source).log ++ [Event.stat source true] ++
    (ensureTarget fs target).2 ++ (getFiles (ensureTarget fs target).1 target).log ++
    (levelCopy ord fs source target).log ++ (levelDel ord fs source target).log ++
    (levelDelDirs ord fs source target).log)

/-- The initial call of `main`, with the insertion order for every range. -/
def run (fuel : Nat) (source target : Path) (fs : FS) : Option (Out (Nat × Nat)) :=
  sync fuel (fun _ _ => RangeOrder.insertion) source target 0 fs

/-! ## Vocabulary of the statements -/

/-- The paths at which a call may have changed the file system: the path of
a successful `Mkdir`, `Create` or `Write`, and every path at or beneath that
of a `RemoveAll`. -/
def Event.touches : Event → Path → Bool
  | Event.mkdir p true, q => decide (q = p)
  | Event.create p true, q => decide (q = p)
  | Event.write p _ true, q => decide (q = p)
  | Event.removeAll p _, q => under p q
  | _, _ => false

/-- The path of a `Mkdir`, `Create`, `Write` or `RemoveAll`, whatever its
outcome. -/
def Event.attempts : Event → Option Path
  | Event.mkdir p _ => some p
  | Event.create p _ => some p
  | Event.write p _ _ => some p
  | Event.removeAll p _ => some p
  | _ => none

/-- The calls of `log` change nothing at the paths selected by `g`. -/
def Untouched (g : Path → Bool) (log : List Event) : Prop :=
  ∀ e ∈ log, ∀ q, e.touches q = true → g q = false

/-- The event is a call that `sync(source, target, _)` is entitled to: it
creates, writes and removes strictly beneath `target` (or creates `target`
itself), and otherwise only stats, lists and reads beneath `source` or
`target`. -/
def Event.confined (source target : Path) : Event → Bool
  | Event.call s t => under source s && under target t
  | Event.stat p _ => under source p || under target p
  | Event.open p _ => under source p || under target p
  | Event.readdir p _ => under source p || under target p
  | Event.read p _ _ => under source p
  | Event.mkdir p _ => under target p
  | Event.create p _ => under target p && decide (target.length < p.length)
  | Event.write p _ _ => under target p && decide (target.length < p.length)
  | Event.removeAll p _ => under target p && decide (target.length < p.length)

/-- Neither path lies at or beneath the other. -/
def Separate (s t : Path) : Prop := under s t = false ∧ under t s = false

/-- No two entries of the file system share a path. -/
def FS.NodupKeys (fs : FS) : Prop := (fs.ents.map Prod.fst).Nodup

/-- Every entry other than the root lies in a directory. -/
def FS.Closed (fs : FS) : Prop :=
  ∀ e ∈ fs.ents, e.1 ≠ [] → fs.get e.1.dropLast = some Node.dir

/-- The file system is a tree: paths are unique and every entry other than
the root lies in a directory. -/
def FS.WellFormed (fs : FS) : Prop := fs.NodupKeys ∧ fs.Closed

/-- The environment refuses no call. -/
def FS.FaultFree (fs : FS) : Prop := fs.deny = []

/-- The environment refuses no `os.Open` and no `Readdir`: every directory
can be listed. -/
def FS.Listable (fs : FS) : Prop :=
  ∀ p, fs.denied Sys.open p = false ∧ fs.denied Sys.readdir p = false

/-- The path holds a regular file. -/
def FS.isFile (fs : FS) (p : Path) : Bool :=
  match fs.get p with
  | some (Node.file _) => true
  | _ => false

/-- The path holds a directory. -/
def FS.isDir (fs : FS) (p : Path) : Bool :=
  match fs.get p with
  | some Node.dir => true
  | _ => false

/-- The last component of the path is a name of `Skipped`. -/
def ignoredName (x : Path) : Bool :=
  match x.getLast? with
  | some n => decide (n ∈ Skipped)
  | none => false

/-- The length of the longest path of the file system. -/
def FS.maxLen (fs : FS) : Nat := (fs.ents.map fun e => e.1.length).foldr max 0

/-- The entries at the paths selected by `g`, in order. -/
def FS.restrict (fs : FS) (g : Path → Bool) : List (Path × Node) :=
  fs.ents.filter fun e => g e.1

/-- The path a call is made on (the target, for an invocation of `sync`). -/
def Event.path : Event → Path
  | Event.call _ t => t
  | Event.stat p _ => p
  | Event.open p _ => p
  | Event.readdir p _ => p
  | Event.mkdir p _ => p
  | Event.create p _ => p
  | Event.read p _ _ => p
  | Event.write p _ _ => p
  | Event.removeAll p _ => p

/-- A failed `os.Open` or `os.Create`. -/
def Event.refused : Event → Bool
  | Event.open _ false => true
  | Event.create _ false => true
  | _ => false

/-- A `Read` that returned `(0, io.EOF)`: the end of the input was reached. -/
def Event.endOfInput : Event → Bool
  | Event.read _ 0 true => true
  | _ => false

/-- The path of an `os.Open`. -/
def Event.opened : Event → Option Path
  | Event.open p _ => some p
  | _ => none

/-- The path of an `os.Create`. -/
def Event.created : Event → Option Path
  | Event.create p _ => some p
  | _ => none

/-- The path and outcome of an `os.RemoveAll`. -/
def Event.removal : Event → Option (Path × Bool)
  | Event.removeAll p ok => some (p, ok)
  | _ => none

/-- A successful `os.RemoveAll`. -/
def Event.removed : Event → Bool
  | Event.removeAll _ true => true
  | _ => false

/-- A call that `copyFiles` makes on the files it copies: `Create`, `Read`
or `Write`. -/
def Event.copies : Event → Bool
  | Event.create _ _ => true
  | Event.read _ _ _ => true
  | Event.write _ _ _ => true
  | _ => false

/-- An invocation of `sync`. -/
def Event.isCall : Event → Bool
  | Event.call _ _ => true
  | _ => false

/-! ## Example file systems -/

/-- The scenario of the specification: `s` holds `a.txt`, `b.txt` and a
directory `sub` with `x.txt`; `t` holds `b.txt` (other bytes) and `c.txt`. -/
def fsA : FS :=
  { ents := [([], Node.dir), (["s"], Node.dir), (["t"], Node.dir),
      (["s", "a.txt"], Node.file [1, 2]), (["s", "b.txt"], Node.file [3]),
      (["t", "b.txt"], Node.file [9]), (["t", "c.txt"], Node.file [4]),
      (["s", "sub"], Node.dir), (["s", "sub", "x.txt"], Node.file [7])],
    deny := [] }

/-- The name `a` is a regular file in the source and a directory in the
target. -/
def fsClash : FS :=
  { ents := [([], Node.dir), (["s"], Node.dir), (["t"], Node.dir),
      (["s", "a"], Node.file [1]), (["t", "a"], Node.dir)],
    deny := [] }

/-- A source with a directory named `.DS_Store`. -/
def fsDotDir : FS :=
  { ents := [([], Node.dir), (["s"], Node.dir), (["t"], Node.dir),
      (["s", ".DS_Store"], Node.dir), (["s", ".DS_Store", "x"], Node.file [1])],
    deny := [] }

/-- A target with a directory named `.DS_Store` that the source does not
have. -/
def fsDotDirTarget : FS :=
  { ents := [([], Node.dir), (["s"], Node.dir), (["t"], Node.dir),
      (["t", ".DS_Store"], Node.dir), (["t", ".DS_Store", "y"], Node.file [2])],
    deny := [] }

/-- A target with two regular files named `.DS_Store`: one in the target
directory itself, one in a directory `old` that the source does not have. -/
def fsSkipTarget : FS :=
  { ents := [([], Node.dir), (["s"], Node.dir), (["t"], Node.dir),
      (["s", "a"], Node.file [1]), (["t", ".DS_Store"], Node.file [5]),
      (["t", "old"], Node.dir), (["t", "old", ".DS_Store"], Node.file [6])],
    deny := [] }

/-- The regular file `sub/f` is on both sides with different bytes, and the
environment refuses to open `s/sub`. -/
def fsRefused : FS :=
  { ents := [([], Node.dir), (["s"], Node.dir), (["t"], Node.dir),
      (["s", "sub"], Node.dir), (["s", "sub", "f"], Node.file [1]),
      (["t", "sub"], Node.dir), (["t", "sub", "f"], Node.file [2])],
    deny := [(Sys.open, ["s", "sub"])] }

/-- The target `s/t` lies inside the source `s`; the regular file `t/f` is on
both sides, as `s/t/f` and as `s/t/t/f`. -/
def fsNested : FS :=
  { ents := [([], Node.dir), (["s"], Node.dir), (["s", "t"], Node.dir),
      (["s", "t", "f"], Node.file [1]), (["s", "t", "t"], Node.dir),
      (["s", "t", "t", "f"], Node.file [2])],
    deny := [] }

/-- As `fsA`, but the environment refuses `os.Stat` on the path `nope`, which
nothing occupies. -/
def fsStatRefused : FS :=
  { fsA with deny := [(Sys.stat, ["nope"])] }

/-- The source path is a regular file; the target holds a file and a
directory with a file. -/
def fsSourceFile : FS :=
  { ents := [([], Node.dir), (["s"], Node.file [1]), (["t"], Node.dir),
      (["t", "a"], Node.file [1]), (["t", "d"], Node.dir), (["t", "d", "x"], Node.file [])],
    deny := [] }

/-- As `fsA`, but `t/c.txt` cannot be unlinked. -/
def fsLocked : FS :=
  { fsA with deny := [(Sys.remove, ["t", "c.txt"])] }

/-! ## The differ -/

theorem mapGet_mapSet (m : GoMap) (k k' : String) (v : Int) :
    mapGet (mapSet m k v) k' = if k = k' then some v else mapGet m k' := by
  induction m with
  | nil => simp [mapSet, mapGet]
  | cons e rest ih =>
    obtain ⟨a, b⟩ := e
    by_cases h : a = k
    · subst h
      by_cases h2 : a = k' <;> simp [mapSet, mapGet, h2]
    · by_cases h2 : a = k'
      · subst h2
        have h3 : ¬ k = a := fun h' => h h'.symm
        simp [mapSet, mapGet, h, h3]
      · simp [mapSet, mapGet, h, h2, ih]

theorem mapHas_eq_isSome (m : GoMap) (k : String) : mapHas m k = (mapGet m k).isSome := by
  induction m with
  | nil => simp [mapHas, mapGet]
  | cons e rest ih =>
    obtain ⟨a, b⟩ := e
    by_cases h : a = k
    · simp [mapHas, mapGet, h]
    · simp only [mapHas] at ih
      simp [mapHas, mapGet, h, ih]

theorem mapSet_keys_mem (m : GoMap) (k : String) (v : Int) (a : String) :
    a ∈ (mapSet m k v).map Prod.fst ↔ a = k ∨ a ∈ m.map Prod.fst := by
  induction m with
  | nil => simp [mapSet]
  | cons e rest ih =>
    obtain ⟨x, y⟩ := e
    by_cases h : x = k
    · subst h
      simp [mapSet]
    · simp only [mapSet, h, if_false, List.map_cons, List.mem_cons, ih]
      tauto

theorem mapSet_keys_nodup (m : GoMap) (k : String) (v : Int)
    (h : (m.map Prod.fst).Nodup) : ((mapSet m k v).map Prod.fst).Nodup := by
  induction m with
  | nil => simp [mapSet]
  | cons e rest ih =>
    obtain ⟨x, y⟩ := e
    simp only [List.map_cons, List.nodup_cons] at h
    by_cases hx : x = k
    · subst hx
      simp only [mapSet, if_true, List.map_cons, List.nodup_cons]
      exact h
    · simp only [mapSet, hx, if_false, List.map_cons, List.nodup_cons, mapSet_keys_mem]
      refine ⟨?_, ih h.2⟩
      intro h1
      rcases h1 with h1 | h1
      · exact h1.elim
      · exact h.1 h1

theorem mem_iff_mapGet (m : GoMap) (h : (m.map Prod.fst).Nodup) (k : String) (v : Int) :
    (k, v) ∈ m ↔ mapGet m k = some v := by
  induction m with
  | nil => simp [mapGet]
  | cons e rest ih =>
    obtain ⟨x, y⟩ := e
    simp only [List.map_cons, List.nodup_cons] at h
    by_cases hx : x = k
    · subst hx
      simp only [List.mem_cons, Prod.mk.injEq, true_and, mapGet, if_true, Option.some.injEq]
      constructor
      · rintro (h1 | h1)
        · exact h1.symm
        · exact absurd (List.mem_map_of_mem Prod.fst h1) h.1
      · intro h1
        exact Or.inl h1.symm
    · have hx' : ¬ k = x := fun h' => hx h'.symm
      simp [mapGet, hx, hx', ih h.2]

theorem partitionStates_fold_fst (l : GoMap) (acc : List String × List String) (k : String) :
    k ∈ (l.foldl
      (fun acc kv =>
        if kv.2 = 1 then (acc.1 ++ [kv.1], acc.2)
        else if kv.2 = -1 then (acc.1, acc.2 ++ [kv.1])
        else acc) acc).1 ↔ k ∈ acc.1 ∨ (k, (1 : Int)) ∈ l := by
  induction l generalizing acc with
  | nil => simp
  | cons e rest ih =>
    obtain ⟨x, y⟩ := e
    simp only [List.foldl_cons, ih, List.mem_cons, Prod.mk.injEq]
    by_cases h1 : y = 1
    · subst h1
      simp only [if_true, List.mem_append, List.mem_singleton]
      tauto
    · by_cases h2 : y = -1
      · have : ¬ (1 : Int) = y := fun h => h1 h.symm
        simp only [h1, h2, if_false, if_true]
        subst h2
        simp
      · have : ¬ (1 : Int) = y := fun h => h1 h.symm
        simp only [h1, h2, if_false]
        tauto

theorem partitionStates_fold_snd (l : GoMap) (acc : List String × List String) (k : String) :
    k ∈ (l.foldl
      (fun acc kv =>
        if kv.2 = 1 then (acc.1 ++ [kv.1], acc.2)
        else if kv.2 = -1 then (acc.1, acc.2 ++ [kv.1])
        else acc) acc).2 ↔ k ∈ acc.2 ∨ (k, (-1 : Int)) ∈ l := by
  induction l generalizing acc with
  | nil => simp
  | cons e rest ih =>
    obtain ⟨x, y⟩ := e
    simp only [List.foldl_cons, ih, List.mem_cons, Prod.mk.injEq]
    by_cases h1 : y = 1
    · subst h1
      simp only [if_true]
      have : ¬ (-1 : Int) = 1 := by decide
      tauto
    · by_cases h2 : y = -1
      · subst h2
        simp only [h1, if_false, if_true, List.mem_append, List.mem_singleton]
        tauto
      · have : ¬ (-1 : Int) = y := fun h => h2 h.symm
        simp only [h1, h2, if_false]
        tauto

theorem mem_partitionStates_fst (l : GoMap) (k : String) :
    k ∈ (partitionStates l).1 ↔ (k, (1 : Int)) ∈ l := by
  simp [partitionStates, partitionStates_fold_fst]

theorem mem_partitionStates_snd (l : GoMap) (k : String) :
    k ∈ (partitionStates l).2 ↔ (k, (-1 : Int)) ∈ l := by
  simp [partitionStates, partitionStates_fold_snd]

theorem markSource_fold (S : List FileInfo) (m : GoMap) (h : (m.map Prod.fst).Nodup) :
    ((S.foldl (fun m f => mapSet m f.name 1) m).map Prod.fst).Nodup ∧
    ∀ k, mapGet (S.foldl (fun m f => mapSet m f.name 1) m) k =
      if k ∈ S.map FileInfo.name then some 1 else mapGet m k := by
  induction S generalizing m with
  | nil => simp [h]
  | cons f rest ih =>
    have h' := mapSet_keys_nodup m f.name 1 h
    refine ⟨(ih _ h').1, fun k => ?_⟩
    simp only [List.foldl_cons, (ih _ h').2, mapGet_mapSet, List.map_cons, List.mem_cons]
    by_cases h1 : k ∈ rest.map FileInfo.name
    · simp [h1]
    · by_cases h2 : f.name = k
      · simp [h2]
      · have : ¬ k = f.name := fun h => h2 h.symm
        simp [h1, h2, this]

theorem markTarget_fold (T : List FileInfo) (hT : (T.map FileInfo.name).Nodup) (m : GoMap)
    (h : (m.map Prod.fst).Nodup) :
    ((markTarget m T).map Prod.fst).Nodup ∧
    ∀ k, mapGet (markTarget m T) k =
      if k ∈ T.map FileInfo.name then (if (mapGet m k).isSome then some 0 else some (-1))
      else mapGet m k := by
  induction T generalizing m with
  | nil => simp [markTarget, h]
  | cons f rest ih =>
    simp only [List.map_cons, List.nodup_cons] at hT
    have h' : ((if mapHas m f.name then mapSet m f.name 0 else mapSet m f.name (-1)).map
        Prod.fst).Nodup := by
      split
      · exact mapSet_keys_nodup m f.name 0 h
      · exact mapSet_keys_nodup m f.name (-1) h
    have ih' := ih hT.2 _ h'
    simp only [markTarget] at ih' ⊢
    refine ⟨ih'.1, fun k => ?_⟩
    simp only [List.foldl_cons, ih'.2, List.map_cons, List.mem_cons]
    by_cases h1 : k ∈ rest.map FileInfo.name
    · have h2 : ¬ f.name = k := fun h => hT.1 (h ▸ h1)
      simp only [h1, if_true, or_true]
      split <;> simp [mapGet_mapSet, h2]
    · by_cases h2 : f.name = k
      · subst h2
        simp only [h1, if_false, true_or, if_true, mapHas_eq_isSome]
        split <;> simp [mapGet_mapSet]
      · have : ¬ k = f.name := fun h => h2 h.symm
        simp only [h1, if_false, this, or_self]
        split <;> simp [mapGet_mapSet, h2]

theorem getDiff_spec (ord : RangeOrder) (S T : List FileInfo)
    (hT : (T.map FileInfo.name).Nodup) (k : String) :
    (k ∈ (getDiff ord S T).1 ↔ k ∈ S.map FileInfo.name ∧ k ∉ T.map FileInfo.name) ∧
    (k ∈ (getDiff ord S T).2 ↔ k ∈ T.map FileInfo.name ∧ k ∉ S.map FileInfo.name) := by
  have hs := markSource_fold S [] (by simp)
  have ht := markTarget_fold T hT (markSource S) hs.1
  have hp := ord.perm (markTarget (markSource S) T)
  simp only [getDiff, mem_partitionStates_fst, mem_partitionStates_snd, hp.mem_iff,
    mem_iff_mapGet _ ht.1, ht.2]
  simp only [markSource, hs.2, mapGet]
  by_cases h1 : k ∈ T.map FileInfo.name <;> by_cases h2 : k ∈ S.map FileInfo.name <;>
    simp [h1, h2]

/-- C1. For a source listing and a target listing, each with pairwise
distinct names, and whatever the order in which the map is ranged over:
`added` holds exactly the source names that are not target names, `deleted`
exactly the target names that are not source names, no name is in both, and a
name that is on both sides is in neither list. -/
theorem getDiff_symmetric_difference (ord : RangeOrder) (sourceFiles targetFiles : List FileInfo)
    (hS : (sourceFiles.map FileInfo.name).Nodup) (hT : (targetFiles.map FileInfo.name).Nodup) :
    (∀ k, k ∈ (getDiff ord sourceFiles targetFiles).1 ↔
      k ∈ sourceFiles.map FileInfo.name ∧ k ∉ targetFiles.map FileInfo.name) ∧
    (∀ k, k ∈ (getDiff ord sourceFiles targetFiles).2 ↔
      k ∈ targetFiles.map FileInfo.name ∧ k ∉ sourceFiles.map FileInfo.name) ∧
    (∀ k, ¬ (k ∈ (getDiff ord sourceFiles targetFiles).1 ∧
      k ∈ (getDiff ord sourceFiles targetFiles).2)) ∧
    (∀ k, k ∈ sourceFiles.map FileInfo.name → k ∈ targetFiles.map FileInfo.name →
      k ∉ (getDiff ord sourceFiles targetFiles).1 ∧
      k ∉ (getDiff ord sourceFiles targetFiles).2) := by
  have _ := hS
  refine ⟨fun k => (getDiff_spec ord _ _ hT k).1, fun k => (getDiff_spec ord _ _ hT k).2,
    fun k => ?_, fun k h1 h2 => ?_⟩
  · rw [(getDiff_spec ord _ _ hT k).1, (getDiff_spec ord _ _ hT k).2]
    tauto
  · rw [(getDiff_spec ord _ _ hT k).1, (getDiff_spec ord _ _ hT k).2]
    tauto

/-! ## Paths -/

theorem under_iff (p q : Path) : under p q = true ↔ p <+: q := by
  induction p generalizing q with
  | nil => simp [under]
  | cons a p ih =>
    cases q with
    | nil => simp [under]
    | cons b q =>
      simp only [under, Bool.and_eq_true, decide_eq_true_eq, ih, List.cons_prefix_cons]

theorem under_refl (p : Path) : under p p = true := (under_iff p p).2 (List.prefix_refl p)

theorem under_append (p r : Path) : under p (p ++ r) = true :=
  (under_iff _ _).2 (List.prefix_append p r)

theorem under_trans {p q r : Path} (h1 : under p q = true) (h2 : under q r = true) :
    under p r = true :=
  (under_iff _ _).2 (((under_iff _ _).1 h1).trans ((under_iff _ _).1 h2))

theorem under_length {p q : Path} (h : under p q = true) : p.length ≤ q.length :=
  ((under_iff _ _).1 h).length_le

theorem under_eq_of_length {p q : Path} (h : under p q = true) (hl : q.length ≤ p.length) :
    p = q :=
  ((under_iff _ _).1 h).eq_of_length_le hl

theorem under_comparable {p q r : Path} (h1 : under p r = true) (h2 : under q r = true) :
    under p q = true ∨ under q p = true := by
  rcases Nat.le_total p.length q.length with h | h
  · exact Or.inl ((under_iff _ _).2
      (List.prefix_of_prefix_length_le ((under_iff _ _).1 h1) ((under_iff _ _).1 h2) h))
  · exact Or.inr ((under_iff _ _).2
      (List.prefix_of_prefix_length_le ((under_iff _ _).1 h2) ((under_iff _ _).1 h1) h))

theorem under_snoc {p q : Path} {n : String} (h : under p (q ++ [n]) = true) :
    under p q = true ∨ p = q ++ [n] := by
  rcases Nat.lt_or_ge q.length p.length with hl | hl
  · right
    exact under_eq_of_length h (by simp; omega)
  · left
    exact (under_iff _ _).2
      (List.prefix_of_prefix_length_le ((under_iff _ _).1 h) (List.prefix_append q [n]) hl)

theorem not_under_snoc_self (p : Path) (n : String) : under (p ++ [n]) p = false := by
  cases h : under (p ++ [n]) p with
  | false => rfl
  | true =>
    have := under_length h
    simp at this

theorem snoc_inj {p q : Path} {a b : String} (h : p ++ [a] = q ++ [b]) : p = q ∧ a = b := by
  have := List.append_inj' h rfl
  simpa using this

theorem under_snoc_snoc {p q : Path} {a b : String} (h : under (p ++ [a]) (q ++ [b]) = true) :
    under (p ++ [a]) q = true ∨ (p = q ∧ a = b) := by
  rcases under_snoc h with h1 | h1
  · exact Or.inl h1
  · exact Or.inr (snoc_inj h1)

/-- Two paths that do not lie beneath one another have no common descendant. -/
theorem disjoint_under {s t q : Path} (h1 : under s t = false) (h2 : under t s = false)
    (hs : under s q = true) : under t q = false := by
  cases h : under t q with
  | false => rfl
  | true =>
    rcases under_comparable hs h with h3 | h3
    · rw [h3] at h1; cases h1
    · rw [h3] at h2; cases h2

theorem disjoint_snoc {s t : Path} (h1 : under s t = false) (h2 : under t s = false)
    (a b : String) : under (s ++ [a]) (t ++ [b]) = false ∧ under (t ++ [b]) (s ++ [a]) = false := by
  constructor
  · cases h : under (s ++ [a]) (t ++ [b]) with
    | false => rfl
    | true =>
      rcases under_snoc_snoc h with h3 | ⟨h3, _⟩
      · have := under_trans (under_append s [a]) h3
        rw [this] at h1; cases h1
      · subst h3
        rw [under_refl] at h1; cases h1
  · cases h : under (t ++ [b]) (s ++ [a]) with
    | false => rfl
    | true =>
      rcases under_snoc_snoc h with h3 | ⟨h3, _⟩
      · have := under_trans (under_append t [b]) h3
        rw [this] at h2; cases h2
      · subst h3
        rw [under_refl] at h2; cases h2

theorem childName_eq_some (p q : Path) (n : String) :
    childName p q = some n ↔ q = p ++ [n] := by
  unfold childName
  constructor
  · intro h
    split at h
    · rename_i m hm
      split at h
      · rename_i ht
        cases h
        have := List.take_append_drop p.length q
        rw [hm, ht] at this
        exact this.symm
      · cases h
    · cases h
  · intro h
    subst h
    simp

theorem childName_snoc (p : Path) (n : String) : childName p (p ++ [n]) = some n :=
  (childName_eq_some _ _ _).2 rfl

/-! ## Lookup -/

theorem look_append (l : List (Path × Node)) (p q : Path) (n : Node) :
    look (l ++ [(p, n)]) q =
      match look l q with
      | some x => some x
      | none => if p = q then some n else none := by
  induction l with
  | nil => simp [look]
  | cons e rest ih =>
    by_cases h : e.1 = q
    · simp [look, h]
    · simp [look, h, ih]

theorem look_filter (l : List (Path × Node)) (f : Path → Bool) (q : Path) :
    look (l.filter fun e => f e.1) q = if f q then look l q else none := by
  induction l with
  | nil => simp [look]
  | cons e rest ih =>
    by_cases h : e.1 = q
    · subst h
      by_cases hf : f e.1 = true
      · simp [List.filter_cons, look, hf]
      · simp only [Bool.not_eq_true] at hf
        simp [List.filter_cons, hf, ih]
    · by_cases hf : f e.1 = true
      · simp [List.filter_cons, look, hf, h, ih]
      · simp only [Bool.not_eq_true] at hf
        simp [List.filter_cons, look, hf, h, ih]

theorem look_setNode (l : List (Path × Node)) (p q : Path) (n : Node) :
    look (setNode p n l) q = if q = p then (look l p).map (fun _ => n) else look l q := by
  induction l with
  | nil => simp [look, setNode]
  | cons e rest ih =>
    by_cases h : e.1 = p
    · by_cases hq : q = p
      · subst hq
        simp [look, setNode, h]
      · have hq2 : ¬ p = q := fun h => hq h.symm
        have hq3 : ¬ e.1 = q := fun h2 => hq (h2.symm.trans h)
        simp [look, setNode, h, hq, hq2, hq3, ih]
    · by_cases hq : q = p
      · subst hq
        simp [look, setNode, h, ih]
      · by_cases h3 : e.1 = q
        · simp [look, setNode, h, hq, h3]
        · simp [look, setNode, h, hq, h3, ih]

theorem setNode_keys (l : List (Path × Node)) (p : Path) (n : Node) :
    (setNode p n l).map Prod.fst = l.map Prod.fst := by
  induction l with
  | nil => simp [setNode]
  | cons e rest ih =>
    by_cases h : e.1 = p
    · simp [setNode, h, ih]
    · simp [setNode, h, ih]

theorem look_eq_none (l : List (Path × Node)) (q : Path) :
    look l q = none ↔ q ∉ l.map Prod.fst := by
  induction l with
  | nil => simp [look]
  | cons e rest ih =>
    by_cases h : e.1 = q
    · simp only [look, h, if_true, List.map_cons, List.mem_cons, true_or, not_true_eq_false,
        iff_false]
      exact fun h2 => Option.noConfusion h2
    · have h2 : ¬ q = e.1 := fun h3 => h h3.symm
      simp only [look, h, if_false, ih, List.map_cons, List.mem_cons, h2, false_or]

theorem mem_of_look {l : List (Path × Node)} {q : Path} {n : Node} (h : look l q = some n) :
    (q, n) ∈ l := by
  induction l with
  | nil => simp [look] at h
  | cons e rest ih =>
    by_cases h2 : e.1 = q
    · simp only [look, h2, if_true, Option.some.injEq] at h
      subst h2; subst h
      simp
    · simp only [look, h2, if_false] at h
      exact List.mem_cons_of_mem _ (ih h)

theorem look_of_mem {l : List (Path × Node)} (hn : (l.map Prod.fst).Nodup) {q : Path} {n : Node}
    (h : (q, n) ∈ l) : look l q = some n := by
  induction l with
  | nil => simp at h
  | cons e rest ih =>
    simp only [List.map_cons, List.nodup_cons] at hn
    rcases List.mem_cons.1 h with h1 | h1
    · subst h1
      simp [look]
    · have : ¬ e.1 = q := by
        intro h2
        apply hn.1
        rw [h2]
        exact List.mem_map_of_mem Prod.fst h1
      simp only [look, this, if_false]
      exact ih hn.2 h1

/-! ## Footprint of the system calls -/

theorem untouched_nil (g : Path → Bool) : Untouched g [] := by
  intro e he
  cases he

theorem untouched_append (g : Path → Bool) (l1 l2 : List Event) :
    Untouched g (l1 ++ l2) ↔ Untouched g l1 ∧ Untouched g l2 := by
  unfold Untouched
  constructor
  · intro h
    exact ⟨fun e he => h e (List.mem_append_left _ he),
      fun e he => h e (List.mem_append_right _ he)⟩
  · rintro ⟨h1, h2⟩ e he
    rcases List.mem_append.1 he with h | h
    · exact h1 e h
    · exact h2 e h

theorem untouched_cons (g : Path → Bool) (e : Event) (l : List Event) :
    Untouched g (e :: l) ↔
      (∀ q, e.touches q = true → g q = false) ∧ Untouched g l := by
  unfold Untouched
  constructor
  · intro h
    exact ⟨h e (List.mem_cons_self _ _), fun e2 he => h e2 (List.mem_cons_of_mem _ he)⟩
  · rintro ⟨h1, h2⟩ e2 he
    rcases List.mem_cons.1 he with h | h
    · subst h
      exact h1
    · exact h2 e2 h

theorem filter_setNode (l : List (Path × Node)) (p : Path) (n : Node) (g : Path → Bool)
    (h : g p = false) :
    (setNode p n l).filter (fun e => g e.1) = l.filter (fun e => g e.1) := by
  induction l with
  | nil => simp [setNode]
  | cons e rest ih =>
    by_cases he : e.1 = p
    · have h2 : g e.1 = false := by rw [he]; exact h
      simp [setNode, he, List.filter_cons, h, ih]
    · simp [setNode, he, List.filter_cons, ih]

theorem osMkdir_restrict {fs fs1 : FS} {p : Path} (h : osMkdir fs p = some fs1)
    (g : Path → Bool) (hg : g p = false) :
    fs1.restrict g = fs.restrict g ∧ fs1.deny = fs.deny := by
  unfold osMkdir at h
  split at h
  · cases h
    simp [FS.restrict, List.filter_append, hg]
  · cases h

theorem osCreate_restrict {fs fs1 : FS} {p : Path} (h : osCreate fs p = some fs1)
    (g : Path → Bool) (hg : g p = false) :
    fs1.restrict g = fs.restrict g ∧ fs1.deny = fs.deny := by
  unfold osCreate at h
  split at h
  · cases h
  · split at h
    · cases h
      simp [FS.restrict, filter_setNode _ _ _ _ hg]
    · cases h
      exact ⟨rfl, rfl⟩
    · cases h
    · split at h
      · cases h
        simp [FS.restrict, List.filter_append, hg]
      · cases h

theorem osWrite_restrict {fs fs1 : FS} {p : Path} {bytes : List Nat}
    (h : osWrite fs p bytes = some fs1) (g : Path → Bool) (hg : g p = false) :
    fs1.restrict g = fs.restrict g ∧ fs1.deny = fs.deny := by
  unfold osWrite at h
  split at h
  · cases h
  · split at h
    · cases h
      simp [FS.restrict, filter_setNode _ _ _ _ hg]
    · cases h
      exact ⟨rfl, rfl⟩
    · cases h

theorem osRemoveAll_restrict (fs : FS) (p : Path) (g : Path → Bool)
    (hg : ∀ q, under p q = true → g q = false) :
    (osRemoveAll fs p).2.restrict g = fs.restrict g ∧ (osRemoveAll fs p).2.deny = fs.deny := by
  refine ⟨?_, rfl⟩
  simp only [osRemoveAll, FS.restrict, List.filter_filter]
  apply List.filter_congr
  intro e _
  cases hu : under p e.1 with
  | false => simp
  | true => simp [hg e.1 hu]

/-! ## Footprint of the program -/

theorem getFiles_fs (fs : FS) (path : Path) : (getFiles fs path).fs = fs := by
  unfold getFiles
  split
  · split <;> rfl
  · rfl

theorem copyLoop_footprint (g : Path → Bool) (fuel : Nat) (fs : FS) (sp tp : Path) (off : Nat)
    (h : Untouched g (copyLoop fuel fs sp tp off).log) :
    (copyLoop fuel fs sp tp off).fs.restrict g = fs.restrict g ∧
    (copyLoop fuel fs sp tp off).fs.deny = fs.deny := by
  induction fuel generalizing fs off with
  | zero => simp [copyLoop]
  | succ fuel ih =>
    unfold copyLoop at h ⊢
    split
    · simp
    · simp
    · rename_i bytes hr
      simp only [hr] at h
      split
      · simp
      · rename_i fs1 hw
        simp only [hw] at h
        have h1 := (untouched_cons _ _ _).1 h
        have h2 := (untouched_cons _ _ _).1 h1.2
        have hg : g tp = false := h2.1 tp (by simp [Event.touches])
        have h3 := ih fs1 _ h2.2
        have h4 := osWrite_restrict hw g hg
        exact ⟨h3.1.trans h4.1, h3.2.trans h4.2⟩

theorem copyFilesFrom_footprint (g : Path → Bool) (names : List String) (source target : Path)
    (fs : FS) (i : Nat) (h : Untouched g (copyFilesFrom names source target fs i).log) :
    (copyFilesFrom names source target fs i).fs.restrict g = fs.restrict g ∧
    (copyFilesFrom names source target fs i).fs.deny = fs.deny := by
  induction names generalizing fs i with
  | nil => simp [copyFilesFrom]
  | cons f rest ih =>
    unfold copyFilesFrom at h ⊢
    simp only at h ⊢
    split
    · rename_i ho
      simp only [ho, if_true] at h
      split
      · simp
      · rename_i fs1 hc
        simp only [hc] at h
        have h1 := (untouched_cons _ _ _).1 h
        have h2 := (untouched_cons _ _ _).1 h1.2
        have h3 := (untouched_append _ _ _).1 h2.2
        have hg : g (target ++ [f]) = false := h2.1 _ (by simp [Event.touches])
        have h4 := osCreate_restrict hc g hg
        have h5 := copyLoop_footprint g _ fs1 (source ++ [f]) (target ++ [f]) 0 h3.1
        have h6 := ih _ _ h3.2
        exact ⟨h6.1.trans (h5.1.trans h4.1), h6.2.trans (h5.2.trans h4.2)⟩
    · simp

theorem delFilesFrom_footprint (g : Path → Bool) (names : List String) (target : Path)
    (fs : FS) (i : Nat) (h : Untouched g (delFilesFrom names target fs i).log) :
    (delFilesFrom names target fs i).fs.restrict g = fs.restrict g ∧
    (delFilesFrom names target fs i).fs.deny = fs.deny := by
  induction names generalizing fs i with
  | nil => simp [delFilesFrom]
  | cons f rest ih =>
    unfold delFilesFrom at h ⊢
    simp only at h ⊢
    have h1 := (untouched_cons _ _ _).1 h
    have h2 := osRemoveAll_restrict fs (target ++ [f]) g (fun q hq => h1.1 q hq)
    have h3 := ih _ _ h1.2
    exact ⟨h3.1.trans h2.1, h3.2.trans h2.2⟩

theorem ensureTarget_footprint (g : Path → Bool) (fs : FS) (target : Path)
    (h : Untouched g (ensureTarget fs target).2) :
    (ensureTarget fs target).1.restrict g = fs.restrict g ∧
    (ensureTarget fs target).1.deny = fs.deny := by
  unfold ensureTarget at h ⊢
  split
  · simp
  · split
    · rename_i fs1 hm
      simp only [hm] at h
      rw [if_neg (by assumption)] at h
      have h1 := (untouched_cons _ _ _).1 h
      have h2 := (untouched_cons _ _ _).1 h1.2
      exact osMkdir_restrict hm g (h2.1 _ (by simp [Event.touches]))
    · simp

theorem forDirs_footprint (g : Path → Bool)
    (recur : Path → Path → Int → FS → Option (Out (Nat × Nat)))
    (hrec : ∀ s t l fs r, recur s t l fs = some r → Untouched g r.log →
      r.fs.restrict g = fs.restrict g ∧ r.fs.deny = fs.deny)
    (source target : Path) (level : Int) (dirs : List FileInfo) (fs : FS) (counts : Nat × Nat)
    (r : Out (Nat × Nat)) (h : forDirs recur source target level dirs fs counts = some r)
    (hu : Untouched g r.log) :
    r.fs.restrict g = fs.restrict g ∧ r.fs.deny = fs.deny := by
  induction dirs generalizing fs counts r with
  | nil =>
    simp only [forDirs, Option.some.injEq] at h
    subst h
    simp
  | cons d rest ih =>
    unfold forDirs at h
    split at h
    · cases h
    · rename_i r1 h1
      split at h
      · cases h
      · rename_i r2 h2
        cases h
        simp only at hu ⊢
        have hu2 := (untouched_append _ _ _).1 hu
        have e1 := hrec _ _ _ _ _ h1 hu2.1
        have e2 := ih _ _ _ h2 hu2.2
        exact ⟨e2.1.trans e1.1, e2.2.trans e1.2⟩

theorem sync_footprint (g : Path → Bool) (fuel : Nat) (ord : Path → Bool → RangeOrder)
    (source target : Path) (level : Int) (fs : FS) (r : Out (Nat × Nat))
    (h : sync fuel ord source target level fs = some r) (hu : Untouched g r.log) :
    r.fs.restrict g = fs.restrict g ∧ r.fs.deny = fs.deny := by
  induction fuel generalizing source target level fs r with
  | zero => simp [sync] at h
  | succ fuel ih =>
    unfold sync at h
    simp only at h
    split at h
    · split at h
      · cases h
      · rename_i r1 h1
        cases h
        simp only at hu ⊢
        have hu1 := (untouched_cons _ _ _).1 hu
        simp only [List.append_assoc] at hu1
        have a1 := (untouched_append _ _ _).1 hu1.2
        have a2 := (untouched_append _ _ _).1 a1.2
        have a3 := (untouched_append _ _ _).1 a2.2
        have a4 := (untouched_append _ _ _).1 a3.2
        have a5 := (untouched_append _ _ _).1 a4.2
        have a6 := (untouched_append _ _ _).1 a5.2
        have a7 := (untouched_append _ _ _).1 a6.2
        have e1 := ensureTarget_footprint g fs target a3.1
        have e2 := copyFilesFrom_footprint g _ source target _ 0 a5.1
        have e3 := delFilesFrom_footprint g _ target _ 0 a6.1
        have e4 := delFilesFrom_footprint g _ target _ 0 a7.1
        have e5 := forDirs_footprint g (sync fuel ord)
          (fun s t l fs r hr hur => ih s t l fs r hr hur) _ _ _ _ _ _ _ h1 a7.2
        simp only [copyFiles, delFiles] at e5 ⊢
        exact ⟨e5.1.trans (e4.1.trans (e3.1.trans (e2.1.trans e1.1))),
          e5.2.trans (e4.2.trans (e3.2.trans (e2.2.trans e1.2)))⟩
    · cases h
      simp

/-! ## Listings -/

theorem mapHas_skipped (n : String) :
    mapHas (Skipped.map fun k => (k, (1 : Int))) n = decide (n ∈ Skipped) := by
  simp [mapHas, Skipped]
  by_cases h : n = ".DS_Store"
  · simp [h]
  · have h2 : ¬ ".DS_Store" = n := fun h3 => h h3.symm
    simp [h, h2]

theorem classify_fold (list : List FileInfo) (acc : List FileInfo × List FileInfo) :
    list.foldl
      (fun acc f =>
        if f.IsDir then (acc.1, acc.2 ++ [f])
        else if f.IsRegular then
          if mapHas (Skipped.map fun k => (k, 1)) f.name then acc else (acc.1 ++ [f], acc.2)
        else acc) acc =
    (acc.1 ++ list.filter (fun f => decide (f.kind = Kind.file) && !decide (f.name ∈ Skipped)),
     acc.2 ++ list.filter (fun f => decide (f.kind = Kind.dir))) := by
  induction list generalizing acc with
  | nil => simp
  | cons f rest ih =>
    rw [List.foldl_cons, ih]
    cases hk : f.kind <;> by_cases hs : f.name ∈ Skipped <;>
      simp [List.filter_cons, hk, hs, mapHas_skipped, FileInfo.IsDir, FileInfo.IsRegular]

theorem classify_eq (list : List FileInfo) :
    classify list =
      (list.filter (fun f => decide (f.kind = Kind.file) && !decide (f.name ∈ Skipped)),
       list.filter (fun f => decide (f.kind = Kind.dir))) := by
  unfold classify
  rw [classify_fold]
  simp

theorem mem_children (fs : FS) (p : Path) (f : FileInfo) :
    f ∈ fs.children p ↔ ∃ e ∈ fs.ents, e.1 = p ++ [f.name] ∧ e.2.kind = f.kind := by
  unfold FS.children
  simp only [List.mem_filterMap, Option.map_eq_some', childName_eq_some]
  constructor
  · rintro ⟨e, he, n, hn, hf⟩
    subst hf
    exact ⟨e, he, hn, rfl⟩
  · rintro ⟨e, he, h1, h2⟩
    refine ⟨e, he, f.name, h1, ?_⟩
    cases f
    simp at h2 ⊢
    exact h2

theorem children_names (fs : FS) (p : Path) :
    (fs.children p).map FileInfo.name = (fs.ents.map Prod.fst).filterMap (childName p) := by
  unfold FS.children
  induction fs.ents with
  | nil => simp
  | cons e rest ih =>
    cases h : childName p e.1 with
    | none => simp [List.filterMap_cons, h, ih]
    | some n => simp [List.filterMap_cons, h, ih]

theorem children_names_nodup (fs : FS) (h : fs.NodupKeys) (p : Path) :
    ((fs.children p).map FileInfo.name).Nodup := by
  rw [children_names]
  apply List.Nodup.filterMap _ h
  intro a b n ha hb
  have h1 := (childName_eq_some p a n).1 (by simpa using ha)
  have h2 := (childName_eq_some p b n).1 (by simpa using hb)
  rw [h1, h2]

theorem mem_children_iff_get (fs : FS) (h : fs.NodupKeys) (p : Path) (f : FileInfo) :
    f ∈ fs.children p ↔ ∃ node, fs.get (p ++ [f.name]) = some node ∧ node.kind = f.kind := by
  rw [mem_children]
  constructor
  · rintro ⟨e, he, h1, h2⟩
    refine ⟨e.2, ?_, h2⟩
    unfold FS.get
    apply look_of_mem h
    rw [← h1]
    exact he
  · rintro ⟨node, h1, h2⟩
    exact ⟨(p ++ [f.name], node), mem_of_look h1, rfl, h2⟩

theorem getFiles_val_cases (fs : FS) (path : Path) :
    (getFiles fs path).val = classify (fs.children path) ∨ (getFiles fs path).val = ([], []) := by
  unfold getFiles
  split
  · split
    · exact Or.inr rfl
    · rename_i list hl
      unfold osReaddir at hl
      split at hl
      · cases hl
        exact Or.inl rfl
      · cases hl
  · exact Or.inr rfl

theorem getFiles_val_ok (fs : FS) (path : Path) (h1 : fs.get path = some Node.dir)
    (h2 : fs.denied Sys.open path = false) (h3 : fs.denied Sys.readdir path = false) :
    (getFiles fs path).val = classify (fs.children path) := by
  unfold getFiles osOpen osReaddir
  simp [h1, h2, h3]

theorem getFiles_val_failed (fs : FS) (path : Path)
    (h : osOpen fs path = false ∨ osReaddir fs path = none) :
    (getFiles fs path).val = ([], []) := by
  unfold getFiles
  rcases h with h | h
  · simp [h]
  · split
    · simp [h]
    · rfl

theorem mem_getFiles_files {fs : FS} {path : Path} {f : FileInfo}
    (h : f ∈ (getFiles fs path).val.1) :
    f ∈ fs.children path ∧ f.kind = Kind.file ∧ f.name ∉ Skipped := by
  rcases getFiles_val_cases fs path with h1 | h1
  · rw [h1, classify_eq] at h
    simpa using h
  · rw [h1] at h
    cases h

theorem mem_getFiles_dirs {fs : FS} {path : Path} {f : FileInfo}
    (h : f ∈ (getFiles fs path).val.2) :
    f ∈ fs.children path ∧ f.kind = Kind.dir := by
  rcases getFiles_val_cases fs path with h1 | h1
  · rw [h1, classify_eq] at h
    simpa using h
  · rw [h1] at h
    cases h

theorem getFiles_files_nodup (fs : FS) (h : fs.NodupKeys) (path : Path) :
    ((getFiles fs path).val.1.map FileInfo.name).Nodup := by
  rcases getFiles_val_cases fs path with h1 | h1
  · rw [h1, classify_eq]
    exact ((children_names_nodup fs h path).sublist ((List.filter_sublist _).map _))
  · rw [h1]
    simp

theorem getFiles_dirs_nodup (fs : FS) (h : fs.NodupKeys) (path : Path) :
    ((getFiles fs path).val.2.map FileInfo.name).Nodup := by
  rcases getFiles_val_cases fs path with h1 | h1
  · rw [h1, classify_eq]
    exact ((children_names_nodup fs h path).sublist ((List.filter_sublist _).map _))
  · rw [h1]
    simp

theorem getFiles_log_cases (fs : FS) (path : Path) :
    ∀ e ∈ (getFiles fs path).log, ∃ b, e = Event.open path b ∨ e = Event.readdir path b := by
  unfold getFiles
  intro e he
  split at he
  · split at he
    · simp at he
      rcases he with h | h
      · exact ⟨true, Or.inl h⟩
      · exact ⟨false, Or.inr h⟩
    · simp at he
      rcases he with h | h
      · exact ⟨true, Or.inl h⟩
      · exact ⟨true, Or.inr h⟩
  · simp at he
    exact ⟨false, Or.inl he⟩

/-! ## The calls of the program -/

theorem copyLoop_log (fuel : Nat) (fs : FS) (sp tp : Path) (off : Nat) :
    ∀ e ∈ (copyLoop fuel fs sp tp off).log,
      ∃ n b, e = Event.read sp n b ∨ e = Event.write tp n b := by
  induction fuel generalizing fs off with
  | zero => simp [copyLoop]
  | succ fuel ih =>
    intro e he
    unfold copyLoop at he
    split at he
    · simp at he
      exact ⟨0, false, Or.inl he⟩
    · simp at he
      exact ⟨0, true, Or.inl he⟩
    · rename_i bytes hr
      split at he
      · simp at he
        rcases he with h | h
        · exact ⟨_, true, Or.inl h⟩
        · exact ⟨_, false, Or.inr h⟩
      · simp only [List.mem_cons] at he
        rcases he with h | h | h
        · exact ⟨_, true, Or.inl h⟩
        · exact ⟨_, true, Or.inr h⟩
        · exact ih _ _ e h

theorem copyFilesFrom_log (names : List String) (source target : Path) (fs : FS) (i : Nat) :
    ∀ e ∈ (copyFilesFrom names source target fs i).log, ∃ f ∈ names, ∃ n b,
      e = Event.open (source ++ [f]) b ∨ e = Event.create (target ++ [f]) b ∨
      e = Event.read (source ++ [f]) n b ∨ e = Event.write (target ++ [f]) n b := by
  induction names generalizing fs i with
  | nil => simp [copyFilesFrom]
  | cons f rest ih =>
    intro e he
    unfold copyFilesFrom at he
    simp only at he
    split at he
    · split at he
      · simp at he
        rcases he with h | h
        · exact ⟨f, List.mem_cons_self _ _, 0, true, Or.inl h⟩
        · exact ⟨f, List.mem_cons_self _ _, 0, false, Or.inr (Or.inl h)⟩
      · simp only [List.mem_cons, List.mem_append] at he
        rcases he with h | h | h | h
        · exact ⟨f, List.mem_cons_self _ _, 0, true, Or.inl h⟩
        · exact ⟨f, List.mem_cons_self _ _, 0, true, Or.inr (Or.inl h)⟩
        · obtain ⟨n, b, h2⟩ := copyLoop_log _ _ _ _ _ e h
          exact ⟨f, List.mem_cons_self _ _, n, b, Or.inr (Or.inr h2)⟩
        · obtain ⟨g, hg, h2⟩ := ih _ _ e h
          exact ⟨g, List.mem_cons_of_mem _ hg, h2⟩
    · simp at he
      exact ⟨f, List.mem_cons_self _ _, 0, false, Or.inl he⟩

theorem delFilesFrom_log (names : List String) (target : Path) (fs : FS) (i : Nat) :
    ∀ e ∈ (delFilesFrom names target fs i).log, ∃ f ∈ names, ∃ b,
      e = Event.removeAll (target ++ [f]) b := by
  induction names generalizing fs i with
  | nil => simp [delFilesFrom]
  | cons f rest ih =>
    intro e he
    unfold delFilesFrom at he
    simp only [List.mem_cons] at he
    rcases he with h | h
    · exact ⟨f, List.mem_cons_self _ _, _, h⟩
    · obtain ⟨g, hg, h2⟩ := ih _ _ e h
      exact ⟨g, List.mem_cons_of_mem _ hg, h2⟩

theorem ensureTarget_log (fs : FS) (target : Path) :
    ∀ e ∈ (ensureTarget fs target).2, ∃ b, e = Event.stat target b ∨ e = Event.mkdir target b := by
  intro e he
  unfold ensureTarget at he
  split at he
  · simp at he
    exact ⟨true, Or.inl he⟩
  · split at he
    · simp at he
      rcases he with h | h
      · exact ⟨false, Or.inl h⟩
      · exact ⟨true, Or.inr h⟩
    · simp at he
      rcases he with h | h
      · exact ⟨false, Or.inl h⟩
      · exact ⟨false, Or.inr h⟩

theorem confined_mono {s t s2 t2 : Path} (hs : under s s2 = true) (ht : under t t2 = true)
    {e : Event} (h : e.confined s2 t2 = true) : e.confined s t = true := by
  have hl := under_length ht
  cases e with
  | call a b =>
    simp only [Event.confined, Bool.and_eq_true] at h ⊢
    exact ⟨under_trans hs h.1, under_trans ht h.2⟩
  | stat p b =>
    simp only [Event.confined, Bool.or_eq_true] at h ⊢
    exact h.imp (under_trans hs) (under_trans ht)
  | «open» p b =>
    simp only [Event.confined, Bool.or_eq_true] at h ⊢
    exact h.imp (under_trans hs) (under_trans ht)
  | readdir p b =>
    simp only [Event.confined, Bool.or_eq_true] at h ⊢
    exact h.imp (under_trans hs) (under_trans ht)
  | mkdir p b =>
    simp only [Event.confined] at h ⊢
    exact under_trans ht h
  | create p b =>
    simp only [Event.confined, Bool.and_eq_true, decide_eq_true_eq] at h ⊢
    exact ⟨under_trans ht h.1, by omega⟩
  | read p n b =>
    simp only [Event.confined] at h ⊢
    exact under_trans hs h
  | write p n b =>
    simp only [Event.confined, Bool.and_eq_true, decide_eq_true_eq] at h ⊢
    exact ⟨under_trans ht h.1, by omega⟩
  | removeAll p b =>
    simp only [Event.confined, Bool.and_eq_true, decide_eq_true_eq] at h ⊢
    exact ⟨under_trans ht h.1, by omega⟩

theorem forDirs_confined (recur : Path → Path → Int → FS → Option (Out (Nat × Nat)))
    (hrec : ∀ s t l fs r, recur s t l fs = some r → ∀ e ∈ r.log, e.confined s t = true)
    (source target : Path) (level : Int) (dirs : List FileInfo) (fs : FS) (counts : Nat × Nat)
    (r : Out (Nat × Nat)) (h : forDirs recur source target level dirs fs counts = some r) :
    ∀ e ∈ r.log, e.confined source target = true := by
  induction dirs generalizing fs counts r with
  | nil =>
    simp only [forDirs, Option.some.injEq] at h
    subst h
    simp
  | cons d rest ih =>
    unfold forDirs at h
    split at h
    · cases h
    · rename_i r1 h1
      split at h
      · cases h
      · rename_i r2 h2
        cases h
        intro e he
        simp only [List.mem_append] at he
        rcases he with he | he
        · exact confined_mono (under_append _ _) (under_append _ _) (hrec _ _ _ _ _ h1 e he)
        · exact ih _ _ _ h2 e he

theorem sync_confined (fuel : Nat) (ord : Path → Bool → RangeOrder)
    (source target : Path) (level : Int) (fs : FS) (r : Out (Nat × Nat))
    (h : sync fuel ord source target level fs = some r) :
    ∀ e ∈ r.log, e.confined source target = true := by
  induction fuel generalizing source target level fs r with
  | zero => simp [sync] at h
  | succ fuel ih =>
    have hsrc : ∀ e ∈ (getFiles fs source).log, e.confined source target = true := by
      intro e he
      obtain ⟨b, h1 | h1⟩ := getFiles_log_cases fs source e he <;>
        (subst h1; simp [Event.confined, under_refl])
    unfold sync at h
    simp only at h
    split at h
    · split at h
      · cases h
      · rename_i r1 h1
        cases h
        intro e he
        simp only [List.mem_cons, List.mem_append, List.mem_singleton, List.not_mem_nil,
          or_false] at he
        rcases he with he | ((((((he | he) | he) | he) | he) | he) | he) | he
        · subst he
          simp [Event.confined, under_refl]
        · exact hsrc e he
        · subst he
          simp [Event.confined, under_refl]
        · obtain ⟨b, h1 | h1⟩ := ensureTarget_log fs target e he <;>
            (subst h1; simp [Event.confined, under_refl])
        · obtain ⟨b, h1 | h1⟩ := getFiles_log_cases _ target e he <;>
            (subst h1; simp [Event.confined, under_refl])
        · obtain ⟨f, _, n, b, h1 | h1 | h1 | h1⟩ := copyFilesFrom_log _ _ _ _ _ e he <;>
            (subst h1; simp [Event.confined, under_append])
        · obtain ⟨f, _, b, h1⟩ := delFilesFrom_log _ _ _ _ e he
          subst h1
          simp [Event.confined, under_append]
        · obtain ⟨f, _, b, h1⟩ := delFilesFrom_log _ _ _ _ e he
          subst h1
          simp [Event.confined, under_append]
        · exact forDirs_confined (sync fuel ord) (fun s t l fs r hr => ih s t l fs r hr)
            _ _ _ _ _ _ _ h1 e he
    · cases h
      intro e he
      simp only [List.mem_cons, List.mem_append, List.mem_singleton, List.not_mem_nil,
        or_false] at he
      rcases he with he | he | he
      · subst he
        simp [Event.confined, under_refl]
      · exact hsrc e he
      · subst he
        simp [Event.confined, under_refl]

theorem touches_attempts {e : Event} {q : Path} (h : e.touches q = true) :
    ∃ p, e.attempts = some p ∧ under p q = true := by
  cases e with
  | call a b => cases h
  | stat p b => cases h
  | «open» p b => cases h
  | readdir p b => cases h
  | read p n b => cases h
  | mkdir p b =>
    cases b
    · cases h
    · simp only [Event.touches, decide_eq_true_eq] at h
      subst h
      exact ⟨_, rfl, under_refl _⟩
  | create p b =>
    cases b
    · cases h
    · simp only [Event.touches, decide_eq_true_eq] at h
      subst h
      exact ⟨_, rfl, under_refl _⟩
  | write p n b =>
    cases b
    · cases h
    · simp only [Event.touches, decide_eq_true_eq] at h
      subst h
      exact ⟨_, rfl, under_refl _⟩
  | removeAll p b => exact ⟨p, rfl, h⟩

theorem confined_attempts {s t : Path} {e : Event} {p : Path} (h : e.confined s t = true)
    (hw : e.attempts = some p) : under t p = true := by
  cases e with
  | call a b => cases hw
  | stat p b => cases hw
  | «open» p b => cases hw
  | readdir p b => cases hw
  | read p n b => cases hw
  | mkdir q b =>
    cases hw
    exact h
  | create q b =>
    cases hw
    simp only [Event.confined, Bool.and_eq_true] at h
    exact h.1
  | write q n b =>
    cases hw
    simp only [Event.confined, Bool.and_eq_true] at h
    exact h.1
  | removeAll q b =>
    cases hw
    simp only [Event.confined, Bool.and_eq_true] at h
    exact h.1

theorem confined_touches {s t : Path} {e : Event} {q : Path} (h : e.confined s t = true)
    (hw : e.touches q = true) : under t q = true := by
  obtain ⟨p, hp, hu⟩ := touches_attempts hw
  exact under_trans (confined_attempts h hp) hu

theorem confined_untouched_outside {s t : Path} {log : List Event}
    (h : ∀ e ∈ log, e.confined s t = true) : Untouched (fun q => !under t q) log := by
  intro e he q hq
  have := confined_touches (h e he) hq
  simp [this]

theorem confined_untouched_source {s t : Path} (hst : Separate s t) {log : List Event}
    (h : ∀ e ∈ log, e.confined s t = true) : Untouched (under s) log := by
  intro e he q hq
  exact disjoint_under hst.2 hst.1 (confined_touches (h e he) hq)

theorem separate_snoc {s t : Path} (h : Separate s t) (a b : String) :
    Separate (s ++ [a]) (t ++ [b]) :=
  disjoint_snoc h.1 h.2 a b

/-! ## Termination -/

theorem forDirs_some (recur : Path → Path → Int → FS → Option (Out (Nat × Nat)))
    (Inv : FS → Prop) (source target : Path) (level : Int) (dirs : List FileInfo)
    (hrec : ∀ d ∈ dirs, ∀ fs, Inv fs →
      ∃ r, recur (source ++ [d.name]) (target ++ [d.name]) (level + 1) fs = some r ∧ Inv r.fs)
    (fs : FS) (counts : Nat × Nat) (h : Inv fs) :
    ∃ r, forDirs recur source target level dirs fs counts = some r ∧ Inv r.fs := by
  induction dirs generalizing fs counts with
  | nil => exact ⟨_, rfl, h⟩
  | cons d rest ih =>
    obtain ⟨r1, h1, hi1⟩ := hrec d (List.mem_cons_self _ _) fs h
    obtain ⟨r2, h2, hi2⟩ := ih (fun d2 hd2 => hrec d2 (List.mem_cons_of_mem _ hd2)) r1.fs
      (counts.1 + r1.val.1, counts.2 + r1.val.2) hi1
    refine ⟨⟨r2.val, r2.fs, r1.log ++ r2.log⟩, ?_, hi2⟩
    unfold forDirs
    simp only [h1, h2]

theorem le_maxLen (fs : FS) : ∀ e ∈ fs.ents, e.1.length ≤ fs.maxLen := by
  unfold FS.maxLen
  induction fs.ents with
  | nil => simp
  | cons a rest ih =>
    intro e he
    simp only [List.map_cons, List.foldr_cons]
    rcases List.mem_cons.1 he with h | h
    · subst h
      exact Nat.le_max_left _ _
    · exact (ih e h).trans (Nat.le_max_right _ _)

theorem mem_restrict {fs : FS} {g : Path → Bool} {e : Path × Node} :
    e ∈ fs.restrict g ↔ e ∈ fs.ents ∧ g e.1 = true := by
  simp [FS.restrict]

theorem level_source_inv (source target : Path) (fs : FS)
    (g : Path → Bool)
    (hg : ∀ log : List Event, (∀ e ∈ log, e.confined source target = true) → Untouched g log)
    (a d dd : List String) :
    (delFiles dd target (delFiles d target
      (copyFiles a source target (ensureTarget fs target).1).fs).fs).fs.restrict g
      = fs.restrict g := by
  have e1 := ensureTarget_footprint g fs target (hg _ (by
    intro e he
    obtain ⟨b, h1 | h1⟩ := ensureTarget_log fs target e he <;>
      (subst h1; simp [Event.confined, under_refl])))
  have e2 := copyFilesFrom_footprint g a source target (ensureTarget fs target).1 0 (hg _ (by
    intro e he
    obtain ⟨f, _, n, b, h1 | h1 | h1 | h1⟩ := copyFilesFrom_log _ _ _ _ _ e he <;>
      (subst h1; simp [Event.confined, under_append])))
  have e3 := delFilesFrom_footprint g d target
    (copyFiles a source target (ensureTarget fs target).1).fs 0 (hg _ (by
    intro e he
    obtain ⟨f, _, b, h1⟩ := delFilesFrom_log _ _ _ _ e he
    subst h1
    simp [Event.confined, under_append]))
  have e4 := delFilesFrom_footprint g dd target
    (delFiles d target (copyFiles a source target (ensureTarget fs target).1).fs).fs 0 (hg _ (by
    intro e he
    obtain ⟨f, _, b, h1⟩ := delFilesFrom_log _ _ _ _ e he
    subst h1
    simp [Event.confined, under_append]))
  simp only [copyFiles, delFiles] at e2 e3 e4 ⊢
  exact e4.1.trans (e3.1.trans (e2.1.trans e1.1))

theorem sync_terminates (ord : Path → Bool → RangeOrder) (k : Nat) (source target : Path)
    (level : Int) (fs : FS) (hst : Separate source target)
    (hb : ∀ e ∈ fs.ents, under source e.1 = true → e.1.length ≤ source.length + k) :
    ∃ r, sync (k + 1) ord source target level fs = some r := by
  induction k generalizing source target level fs with
  | zero =>
    have hd : (getFiles fs source).val.2 = [] := by
      cases hl : (getFiles fs source).val.2 with
      | nil => rfl
      | cons d rest =>
        have hm : d ∈ (getFiles fs source).val.2 := by rw [hl]; exact List.mem_cons_self _ _
        obtain ⟨e, he, h1, _⟩ := (mem_children fs source d).1 (mem_getFiles_dirs hm).1
        have := hb e he (by rw [h1]; exact under_append _ _)
        rw [h1] at this
        simp at this
    unfold sync
    simp only [hd, forDirs]
    split
    · exact ⟨_, rfl⟩
    · exact ⟨_, rfl⟩
  | succ k ih =>
    unfold sync
    simp only
    split
    · have hinv := level_source_inv source target fs (under source)
        (fun log h => confined_untouched_source hst h)
        (getDiff (ord source false) (getFiles fs source).val.1
          (getFiles (ensureTarget fs target).1 target).val.1).1
        (getDiff (ord source false) (getFiles fs source).val.1
          (getFiles (ensureTarget fs target).1 target).val.1).2
        (getDiff (ord source true) (getFiles fs source).val.2
          (getFiles (ensureTarget fs target).1 target).val.2).2
      obtain ⟨r, hr, _⟩ := forDirs_some (sync (k + 1) ord)
        (fun fs2 => fs2.restrict (under source) = fs.restrict (under source))
        source target level (getFiles fs source).val.2
        (by
          intro d _ fs2 hi
          have hsep := separate_snoc hst d.name d.name
          obtain ⟨r, hr⟩ := ih (source ++ [d.name]) (target ++ [d.name]) (level + 1) fs2 hsep
            (by
              intro e he hu
              have hu2 := under_trans (under_append source [d.name]) hu
              have : e ∈ fs2.restrict (under source) := mem_restrict.2 ⟨he, hu2⟩
              rw [hi] at this
              have := hb e (mem_restrict.1 this).1 hu2
              simp only [List.length_append, List.length_singleton]
              omega)
          refine ⟨r, hr, ?_⟩
          have hc := sync_confined _ _ _ _ _ _ _ hr
          have hu : Untouched (under source) r.log :=
            confined_untouched_source hst
              (fun e he => confined_mono (under_append _ _) (under_append _ _) (hc e he))
          exact ((sync_footprint _ _ _ _ _ _ _ _ hr hu).1).trans hi)
        _ _ hinv
      rw [hr]
      exact ⟨_, rfl⟩
    · exact ⟨_, rfl⟩

theorem get_of_restrict {fs1 fs2 : FS} {g : Path → Bool} (h : fs1.restrict g = fs2.restrict g)
    {q : Path} (hq : g q = true) : fs1.get q = fs2.get q := by
  have h1 := look_filter fs1.ents g q
  have h2 := look_filter fs2.ents g q
  simp only [hq, if_true] at h1 h2
  unfold FS.get
  rw [← h1, ← h2]
  exact congrArg (fun l => look l q) h

/-! ## Well-formedness is preserved -/

theorem osRemoveAll_sub (fs : FS) (p : Path) :
    ∀ e ∈ (osRemoveAll fs p).2.ents, e ∈ fs.ents := by
  intro e he
  simp only [osRemoveAll, List.mem_filter] at he
  exact he.1

theorem osRemoveAll_gone (fs : FS) (p : Path) (h : (osRemoveAll fs p).1 = true) :
    ∀ e ∈ (osRemoveAll fs p).2.ents, under p e.1 = false := by
  intro e he
  simp only [osRemoveAll, Bool.and_eq_true, Bool.not_eq_true'] at h
  simp only [osRemoveAll, List.mem_filter, Bool.or_eq_true, Bool.not_eq_true'] at he
  rcases he.2 with h1 | h1
  · exact h1
  · cases hu : under p e.1 with
    | false => rfl
    | true =>
      exfalso
      have hs := h.1
      simp only [FS.stuck, List.any_eq_true, Bool.and_eq_true] at h1
      obtain ⟨e2, he2, hu2, hd2⟩ := h1
      have : fs.stuck p = true := by
        simp only [FS.stuck, List.any_eq_true, Bool.and_eq_true]
        exact ⟨e2, he2, under_trans hu hu2, hd2⟩
      rw [this] at hs
      cases hs

theorem delFilesFrom_sub (names : List String) (target : Path) (fs : FS) (i : Nat) :
    ∀ e ∈ (delFilesFrom names target fs i).fs.ents, e ∈ fs.ents := by
  induction names generalizing fs i with
  | nil => simp [delFilesFrom]
  | cons f rest ih =>
    intro e he
    unfold delFilesFrom at he
    exact osRemoveAll_sub _ _ e (ih _ _ e he)


theorem get_append_new (fs : FS) (p : Path) (n : Node) (h : fs.get p = none) (q : Path) :
    look (fs.ents ++ [(p, n)]) q = if q = p then some n else fs.get q := by
  rw [look_append]
  unfold FS.get at h ⊢
  by_cases hq : q = p
  · subst hq
    simp [h]
  · have hq2 : ¬ p = q := fun h2 => hq h2.symm
    simp only [hq, hq2, if_false]
    cases look fs.ents q <;> rfl

theorem mem_setNode {l : List (Path × Node)} {p : Path} {n : Node} {e : Path × Node}
    (h : e ∈ setNode p n l) : e.1 ∈ l.map Prod.fst := by
  have : e.1 ∈ (setNode p n l).map Prod.fst := List.mem_map_of_mem Prod.fst h
  rw [setNode_keys] at this
  exact this

theorem closed_get_of_key {fs : FS} (hc : fs.Closed) {q : Path} (hq : q ∈ fs.ents.map Prod.fst)
    (hne : q ≠ []) : fs.get q.dropLast = some Node.dir := by
  obtain ⟨e, he, rfl⟩ := List.mem_map.1 hq
  exact hc e he hne

theorem wf_append {fs : FS} (h : fs.WellFormed) {p : Path} {n : Node} (hp : fs.get p = none)
    (hpar : fs.parentIsDir p = true) :
    FS.WellFormed { fs with ents := fs.ents ++ [(p, n)] } := by
  constructor
  · unfold FS.NodupKeys
    simp only [List.map_append, List.map_cons, List.map_nil]
    apply List.Nodup.append h.1 (List.nodup_singleton _)
    intro a ha hb
    simp only [List.mem_singleton] at hb
    subst hb
    exact (look_eq_none _ _).1 hp ha
  · intro e he hne
    simp only [FS.get]
    rw [get_append_new fs p n hp]
    simp only [List.mem_append, List.mem_singleton] at he
    have hparent : fs.get e.1.dropLast = some Node.dir := by
      rcases he with he | he
      · exact h.2 e he hne
      · subst he
        simp only [FS.parentIsDir, Bool.and_eq_true, decide_eq_true_eq] at hpar
        exact hpar.2
    have : ¬ e.1.dropLast = p := by
      intro h2
      rw [h2, hp] at hparent
      cases hparent
    simp only [this, if_false]
    exact hparent

theorem wf_setNode {fs : FS} (h : fs.WellFormed) {p : Path} {d x : List Nat}
    (hp : fs.get p = some (Node.file d)) :
    FS.WellFormed { fs with ents := setNode p (Node.file x) fs.ents } := by
  constructor
  · unfold FS.NodupKeys
    simp only [setNode_keys]
    exact h.1
  · intro e he hne
    have hk := mem_setNode he
    have hparent := closed_get_of_key h.2 hk hne
    simp only [FS.get, look_setNode]
    have : ¬ e.1.dropLast = p := by
      intro h2
      rw [h2, hp] at hparent
      cases hparent
    simp only [this, if_false]
    exact hparent

theorem osMkdir_wf {fs fs1 : FS} {p : Path} (hm : osMkdir fs p = some fs1)
    (h : fs.WellFormed) : fs1.WellFormed := by
  unfold osMkdir at hm
  split at hm
  · rename_i hc
    cases hm
    exact wf_append h hc.2.1 hc.2.2
  · cases hm

theorem osCreate_wf {fs fs1 : FS} {p : Path} (hm : osCreate fs p = some fs1)
    (h : fs.WellFormed) : fs1.WellFormed := by
  unfold osCreate at hm
  split at hm
  · cases hm
  · split at hm
    · rename_i d hg
      cases hm
      exact wf_setNode h hg
    · cases hm
      exact h
    · cases hm
    · rename_i hg
      split at hm
      · rename_i hpar
        cases hm
        exact wf_append h hg hpar
      · cases hm

theorem osWrite_wf {fs fs1 : FS} {p : Path} {bytes : List Nat}
    (hm : osWrite fs p bytes = some fs1) (h : fs.WellFormed) : fs1.WellFormed := by
  unfold osWrite at hm
  split at hm
  · cases hm
  · split at hm
    · rename_i d hg
      cases hm
      exact wf_setNode h hg
    · cases hm
      exact h
    · cases hm

theorem stuck_mono (fs : FS) {p q : Path} (hpq : under p q = true) (h : fs.stuck q = true) :
    fs.stuck p = true := by
  simp only [FS.stuck, List.any_eq_true, Bool.and_eq_true] at h ⊢
  obtain ⟨e, he, hu, hd⟩ := h
  exact ⟨e, he, under_trans hpq hu, hd⟩

theorem under_dropLast (q : Path) : under q.dropLast q = true :=
  (under_iff _ _).2 (List.dropLast_prefix q)

theorem osRemoveAll_get (fs : FS) (p q : Path) :
    (osRemoveAll fs p).2.get q = if (!under p q || fs.stuck q) = true then fs.get q else none := by
  simp only [osRemoveAll, FS.get]
  exact look_filter fs.ents (fun q => !under p q || fs.stuck q) q

theorem osRemoveAll_wf (fs : FS) (p : Path) (h : fs.WellFormed) :
    (osRemoveAll fs p).2.WellFormed := by
  constructor
  · exact h.1.sublist ((List.filter_sublist _).map _)
  · intro e he hne
    have he2 := osRemoveAll_sub fs p e he
    have hpar := h.2 e he2 hne
    rw [osRemoveAll_get]
    have hkeep : (!under p e.1 || fs.stuck e.1) = true := by
      simp only [osRemoveAll, List.mem_filter] at he
      exact he.2
    have : (!under p e.1.dropLast || fs.stuck e.1.dropLast) = true := by
      simp only [Bool.or_eq_true, Bool.not_eq_true'] at hkeep ⊢
      rcases hkeep with h1 | h1
      · left
        cases hu : under p e.1.dropLast with
        | false => rfl
        | true =>
          have := under_trans hu (under_dropLast e.1)
          rw [this] at h1
          cases h1
      · right
        exact stuck_mono fs (under_dropLast e.1) h1
    simp only [this, if_true]
    exact hpar

theorem copyLoop_wf (fuel : Nat) (fs : FS) (sp tp : Path) (off : Nat) (h : fs.WellFormed) :
    (copyLoop fuel fs sp tp off).fs.WellFormed := by
  induction fuel generalizing fs off with
  | zero => exact h
  | succ fuel ih =>
    unfold copyLoop
    cases hr : osRead fs sp off BUFFERSIZE with
    | error => exact h
    | eof => exact h
    | data bytes =>
      dsimp only
      cases hw : osWrite fs tp bytes with
      | none => exact h
      | some fs1 => exact ih fs1 _ (osWrite_wf hw h)

theorem copyFilesFrom_wf (names : List String) (source target : Path) (fs : FS) (i : Nat)
    (h : fs.WellFormed) : (copyFilesFrom names source target fs i).fs.WellFormed := by
  induction names generalizing fs i with
  | nil => exact h
  | cons f rest ih =>
    unfold copyFilesFrom
    dsimp only
    split
    · cases hc : osCreate fs (target ++ [f]) with
      | none => exact h
      | some fs1 => exact ih _ _ (copyLoop_wf _ _ _ _ _ (osCreate_wf hc h))
    · exact h

theorem delFilesFrom_wf (names : List String) (target : Path) (fs : FS) (i : Nat)
    (h : fs.WellFormed) : (delFilesFrom names target fs i).fs.WellFormed := by
  induction names generalizing fs i with
  | nil => exact h
  | cons f rest ih =>
    unfold delFilesFrom
    exact ih _ _ (osRemoveAll_wf fs _ h)

theorem ensureTarget_wf (fs : FS) (target : Path) (h : fs.WellFormed) :
    (ensureTarget fs target).1.WellFormed := by
  unfold ensureTarget
  split
  · exact h
  · cases hm : osMkdir fs target with
    | none => exact h
    | some fs1 => exact osMkdir_wf hm h

theorem forDirs_wf (recur : Path → Path → Int → FS → Option (Out (Nat × Nat)))
    (hrec : ∀ s t l fs r, recur s t l fs = some r → fs.WellFormed → r.fs.WellFormed)
    (source target : Path) (level : Int) (dirs : List FileInfo) (fs : FS) (counts : Nat × Nat)
    (r : Out (Nat × Nat)) (h : forDirs recur source target level dirs fs counts = some r)
    (hwf : fs.WellFormed) : r.fs.WellFormed := by
  induction dirs generalizing fs counts r with
  | nil =>
    simp only [forDirs, Option.some.injEq] at h
    subst h
    exact hwf
  | cons d rest ih =>
    unfold forDirs at h
    split at h
    · cases h
    · rename_i r1 h1
      split at h
      · cases h
      · rename_i r2 h2
        cases h
        exact ih _ _ r2 h2 (hrec _ _ _ _ _ h1 hwf)

theorem sync_wf (fuel : Nat) (ord : Path → Bool → RangeOrder)
    (source target : Path) (level : Int) (fs : FS) (r : Out (Nat × Nat))
    (h : sync fuel ord source target level fs = some r) (hwf : fs.WellFormed) :
    r.fs.WellFormed := by
  induction fuel generalizing source target level fs r with
  | zero => simp [sync] at h
  | succ fuel ih =>
    unfold sync at h
    simp only at h
    split at h
    · split at h
      · cases h
      · rename_i r1 h1
        cases h
        refine forDirs_wf (sync fuel ord) (fun s t l fs r hr hw => ih s t l fs r hr hw)
          _ _ _ _ _ _ r1 h1 ?_
        exact delFilesFrom_wf _ _ _ _ (delFilesFrom_wf _ _ _ _
          (copyFilesFrom_wf _ _ _ _ _ (ensureTarget_wf fs target hwf)))
    · cases h
      exact hwf

/-! ## Trees -/

theorem get_ne_none_of_mem {fs : FS} {e : Path × Node} (he : e ∈ fs.ents) :
    fs.get e.1 ≠ none := by
  intro h
  exact (look_eq_none _ _).1 h (List.mem_map_of_mem Prod.fst he)

theorem closed_parent {fs : FS} (hc : fs.Closed) {p : Path} {a : String}
    (h : fs.get (p ++ [a]) ≠ none) : fs.get p = some Node.dir := by
  cases hg : fs.get (p ++ [a]) with
  | none => exact absurd hg h
  | some node =>
    have := hc _ (mem_of_look hg) (by simp)
    simpa using this

theorem ancestors_dir {fs : FS} (hc : fs.Closed) :
    ∀ (n : Nat) (p : Path), p.length = n → fs.get p ≠ none →
      ∀ q, under q p = true → q ≠ p → fs.get q = some Node.dir := by
  intro n
  induction n with
  | zero =>
    intro p hp _ q hq hne
    have : p = [] := List.length_eq_zero.1 hp
    subst this
    have := under_length hq
    have : q = [] := List.length_eq_zero.1 (by simpa using this)
    exact absurd this hne
  | succ n ih =>
    intro p hp hg q hq hne
    rcases List.eq_nil_or_concat p with h | ⟨p2, a, h⟩
    · subst h
      simp at hp
    · rw [List.concat_eq_append] at h
      subst h
      have hpar := closed_parent hc hg
      rcases under_snoc hq with h1 | h1
      · by_cases h2 : q = p2
        · subst h2
          exact hpar
        · exact ih p2 (by simpa using hp) (by rw [hpar]; simp) q h1 h2
      · exact absurd h1 hne

theorem ancestor_dir {fs : FS} (hc : fs.Closed) {p q : Path} (hg : fs.get p ≠ none)
    (hq : under q p = true) (hne : q ≠ p) : fs.get q = some Node.dir :=
  ancestors_dir hc p.length p rfl hg q hq hne

theorem take_under (p : Path) (k : Nat) : under (p.take k) p = true :=
  (under_iff _ _).2 (List.take_prefix k p)

theorem not_blocked_of_dirs (fs : FS) (p : Path)
    (h : ∀ k, k < p.length → fs.get (p.take k) = some Node.dir ∨ fs.get (p.take k) = none) :
    fs.blocked p = false := by
  unfold FS.blocked
  rw [List.any_eq_false]
  intro k hk
  have hk2 : k < p.length := List.mem_range.1 hk
  rcases h k hk2 with h1 | h1 <;> simp [h1]

theorem not_blocked {fs : FS} (hc : fs.Closed) {p : Path} (hg : fs.get p ≠ none) :
    fs.blocked p = false := by
  apply not_blocked_of_dirs
  intro k hk
  left
  apply ancestor_dir hc hg (take_under p k)
  intro h
  have := congrArg List.length h
  simp at this
  omega

theorem not_blocked_child {fs : FS} (hc : fs.Closed) {p : Path} (hg : fs.get p = some Node.dir)
    (a : String) : fs.blocked (p ++ [a]) = false := by
  apply not_blocked_of_dirs
  intro k hk
  left
  simp only [List.length_append, List.length_singleton] at hk
  have hk2 : k ≤ p.length := by omega
  rw [List.take_append_of_le_length hk2]
  by_cases h : k = p.length
  · subst h
    simpa using hg
  · apply ancestor_dir hc (by rw [hg]; simp) (take_under p k)
    intro h2
    have := congrArg List.length h2
    simp at this
    omega

/-! ## A fault-free environment -/

theorem denied_ff {fs : FS} (h : fs.FaultFree) (c : Sys) (p : Path) : fs.denied c p = false := by
  unfold FS.FaultFree at h
  simp [FS.denied, h]

theorem exists_of_get {fs : FS} {p : Path} (h : fs.get p ≠ none) : «exists» fs p = true := by
  unfold «exists» osStatNotExist
  cases hg : fs.get p with
  | none => exact absurd hg h
  | some n => simp

theorem isFile_iff (fs : FS) (p : Path) : fs.isFile p = true ↔ ∃ d, fs.get p = some (Node.file d) := by
  unfold FS.isFile
  cases fs.get p with
  | none => simp
  | some n => cases n <;> simp

theorem isDir_iff (fs : FS) (p : Path) : fs.isDir p = true ↔ fs.get p = some Node.dir := by
  unfold FS.isDir
  cases fs.get p with
  | none => simp
  | some n => cases n <;> simp

theorem kind_file_iff (n : Node) : n.kind = Kind.file ↔ ∃ d, n = Node.file d := by
  cases n <;> simp [Node.kind]

theorem kind_dir_iff (n : Node) : n.kind = Kind.dir ↔ n = Node.dir := by
  cases n <;> simp [Node.kind]

theorem mem_files_names {fs : FS} (hn : fs.NodupKeys) {p : Path} {n : String}
    (h : n ∈ (getFiles fs p).val.1.map FileInfo.name) :
    fs.isFile (p ++ [n]) = true ∧ n ∉ Skipped := by
  obtain ⟨f, hf, rfl⟩ := List.mem_map.1 h
  obtain ⟨h1, h2, h3⟩ := mem_getFiles_files hf
  refine ⟨?_, h3⟩
  obtain ⟨node, hg, hk⟩ := (mem_children_iff_get fs hn p f).1 h1
  rw [h2] at hk
  obtain ⟨d, rfl⟩ := (kind_file_iff node).1 hk
  exact (isFile_iff _ _).2 ⟨d, hg⟩

theorem mem_dirs_names {fs : FS} (hn : fs.NodupKeys) {p : Path} {n : String}
    (h : n ∈ (getFiles fs p).val.2.map FileInfo.name) : fs.isDir (p ++ [n]) = true := by
  obtain ⟨f, hf, rfl⟩ := List.mem_map.1 h
  obtain ⟨h1, h2⟩ := mem_getFiles_dirs hf
  obtain ⟨node, hg, hk⟩ := (mem_children_iff_get fs hn p f).1 h1
  rw [h2] at hk
  rw [(kind_dir_iff node).1 hk] at hg
  exact (isDir_iff _ _).2 hg

theorem files_names_of_listed {fs : FS} (hn : fs.NodupKeys) {p : Path}
    (hl : (getFiles fs p).val = classify (fs.children p)) {n : String}
    (hf : fs.isFile (p ++ [n]) = true) (hs : n ∉ Skipped) :
    n ∈ (getFiles fs p).val.1.map FileInfo.name := by
  obtain ⟨d, hd⟩ := (isFile_iff _ _).1 hf
  rw [hl, classify_eq]
  refine List.mem_map.2 ⟨⟨n, Kind.file⟩, ?_, rfl⟩
  simp only [List.mem_filter, decide_True, Bool.true_and, Bool.not_eq_true',
    decide_eq_false_iff_not]
  refine ⟨?_, hs⟩
  exact (mem_children_iff_get fs hn p _).2 ⟨Node.file d, hd, rfl⟩

theorem dirs_names_of_listed {fs : FS} (hn : fs.NodupKeys) {p : Path}
    (hl : (getFiles fs p).val = classify (fs.children p)) {n : String}
    (hd : fs.isDir (p ++ [n]) = true) :
    n ∈ (getFiles fs p).val.2.map FileInfo.name := by
  rw [hl, classify_eq]
  refine List.mem_map.2 ⟨⟨n, Kind.dir⟩, ?_, rfl⟩
  simp only [List.mem_filter, decide_True, and_true]
  exact (mem_children_iff_get fs hn p _).2 ⟨Node.dir, (isDir_iff _ _).1 hd, rfl⟩

/-! ## One level of `sync` -/

theorem sync_succ (fuel : Nat) (ord : Path → Bool → RangeOrder) (source target : Path)
    (level : Int) (fs : FS) :
    sync (fuel + 1) ord source target level fs =
      if «exists» fs source then
        match forDirs (sync fuel ord) source target level (getFiles fs source).val.2
            (levelDelDirs ord fs source target).fs
            ((levelCopy ord fs source target).val, (levelDel ord fs source target).val) with
        | none => none
        | some r => some ⟨r.val, r.fs, levelLog ord fs source target ++ r.log⟩
      else some ⟨(0, 0), fs,
        Event.call source target :: ((getFiles fs source).log ++ [Event.stat source false])⟩ := by
  rfl

theorem sync_succ_some {fuel : Nat} {ord : Path → Bool → RangeOrder} {source target : Path}
    {level : Int} {fs : FS} {r : Out (Nat × Nat)}
    (h : sync (fuel + 1) ord source target level fs = some r)
    (hex : «exists» fs source = true) :
    ∃ r1, forDirs (sync fuel ord) source target level (getFiles fs source).val.2
        (levelDelDirs ord fs source target).fs
        ((levelCopy ord fs source target).val, (levelDel ord fs source target).val) = some r1 ∧
      r.val = r1.val ∧ r.fs = r1.fs ∧ r.log = levelLog ord fs source target ++ r1.log := by
  rw [sync_succ, if_pos hex] at h
  split at h
  · cases h
  · rename_i r1 h1
    simp only [Option.some.injEq] at h
    subst h
    exact ⟨r1, h1, rfl, rfl, rfl⟩

theorem forDirs_inv (recur : Path → Path → Int → FS → Option (Out (Nat × Nat)))
    (Inv : FS → Prop) (P : Event → Prop) (source target : Path) (level : Int)
    (dirs : List FileInfo)
    (hrec : ∀ d ∈ dirs, ∀ fs, Inv fs → ∀ r,
      recur (source ++ [d.name]) (target ++ [d.name]) (level + 1) fs = some r →
      (∀ e ∈ r.log, P e) ∧ Inv r.fs)
    (fs : FS) (counts : Nat × Nat) (r : Out (Nat × Nat))
    (h : forDirs recur source target level dirs fs counts = some r) (hi : Inv fs) :
    (∀ e ∈ r.log, P e) ∧ Inv r.fs := by
  induction dirs generalizing fs counts r with
  | nil =>
    simp only [forDirs, Option.some.injEq] at h
    subst h
    exact ⟨fun e he => (by cases he), hi⟩
  | cons d rest ih =>
    unfold forDirs at h
    split at h
    · cases h
    · rename_i r1 h1
      split at h
      · cases h
      · rename_i r2 h2
        cases h
        have a1 := hrec d (List.mem_cons_self _ _) fs hi r1 h1
        have a2 := ih (fun d2 hd2 => hrec d2 (List.mem_cons_of_mem _ hd2)) _ _ r2 h2 a1.2
        refine ⟨?_, a2.2⟩
        intro e he
        rcases List.mem_append.1 he with he | he
        · exact a1.1 e he
        · exact a2.1 e he

theorem under_child_append {t x : Path} {f : String} (h : under (t ++ [f]) (t ++ x) = true) :
    ∃ rest, x = f :: rest := by
  obtain ⟨r, hr⟩ := (under_iff _ _).1 h
  rw [List.append_assoc] at hr
  have := List.append_cancel_left hr
  exact ⟨r, by simpa using this.symm⟩

theorem under_append_left (t : Path) {p q : Path} (h : under p q = true) :
    under (t ++ p) (t ++ q) = true := by
  obtain ⟨r, hr⟩ := (under_iff _ _).1 h
  exact (under_iff _ _).2 ⟨r, by rw [List.append_assoc, hr]⟩

/-- A touched path is one at or beneath an attempted one. -/
theorem not_touched_of_no_attempt {log : List Event} {q : Path}
    (h : ∀ e ∈ log, ∀ p, e.attempts = some p → under p q = false) :
    Untouched (fun q2 => decide (q2 = q)) log := by
  intro e he q2 hq2
  simp only [decide_eq_false_iff_not]
  intro h2
  subst h2
  obtain ⟨p, hp, hu⟩ := touches_attempts hq2
  rw [h e he p hp] at hu
  cases hu

theorem get_of_untouched {fs1 fs2 : FS} {q : Path}
    (h : fs1.restrict (fun q2 => decide (q2 = q)) = fs2.restrict (fun q2 => decide (q2 = q))) :
    fs1.get q = fs2.get q :=
  get_of_restrict h (by simp)

/-- The logs of the three passes of a level attempt only at children of the
target named in the lists. -/
theorem levelLog_attempts (ord : Path → Bool → RangeOrder) (fs : FS) (source target : Path)
    (hex : «exists» fs target = true) :
    ∀ e ∈ levelLog ord fs source target, ∀ p, e.attempts = some p →
      ∃ f, p = target ++ [f] ∧
        (f ∈ (levelFiles ord fs source target).1 ∨ f ∈ (levelFiles ord fs source target).2 ∨
          f ∈ (levelDirs ord fs source target).2) := by
  intro e he p hp
  simp only [levelLog, List.mem_cons, List.mem_append, List.mem_singleton, List.not_mem_nil,
    or_false] at he
  rcases he with he | ((((((he | he) | he) | he) | he) | he) | he)
  · subst he; cases hp
  · obtain ⟨b, h1 | h1⟩ := getFiles_log_cases _ _ e he <;> (subst h1; cases hp)
  · subst he; cases hp
  · simp only [ensureTarget, hex, if_true, List.mem_singleton] at he
    subst he; cases hp
  · obtain ⟨b, h1 | h1⟩ := getFiles_log_cases _ _ e he <;> (subst h1; cases hp)
  · obtain ⟨f, hf, n, b, h1 | h1 | h1 | h1⟩ := copyFilesFrom_log _ _ _ _ _ e he
    · subst h1; cases hp
    · subst h1; cases hp; exact ⟨f, rfl, Or.inl hf⟩
    · subst h1; cases hp
    · subst h1; cases hp; exact ⟨f, rfl, Or.inl hf⟩
  · obtain ⟨f, hf, b, h1⟩ := delFilesFrom_log _ _ _ _ e he
    subst h1; cases hp; exact ⟨f, rfl, Or.inr (Or.inl hf)⟩
  · obtain ⟨f, hf, b, h1⟩ := delFilesFrom_log _ _ _ _ e he
    subst h1; cases hp; exact ⟨f, rfl, Or.inr (Or.inr hf)⟩

theorem levelLog_confined (ord : Path → Bool → RangeOrder) (fs : FS) (source target : Path) :
    ∀ e ∈ levelLog ord fs source target, e.confined source target = true := by
  intro e he
  simp only [levelLog, List.mem_cons, List.mem_append, List.mem_singleton, List.not_mem_nil,
    or_false] at he
  rcases he with he | ((((((he | he) | he) | he) | he) | he) | he)
  · subst he
    simp [Event.confined, under_refl]
  · obtain ⟨b, h1 | h1⟩ := getFiles_log_cases _ _ e he <;>
      (subst h1; simp [Event.confined, under_refl])
  · subst he
    simp [Event.confined, under_refl]
  · obtain ⟨b, h1 | h1⟩ := ensureTarget_log fs target e he <;>
      (subst h1; simp [Event.confined, under_refl])
  · obtain ⟨b, h1 | h1⟩ := getFiles_log_cases _ target e he <;>
      (subst h1; simp [Event.confined, under_refl])
  · obtain ⟨f, _, n, b, h1 | h1 | h1 | h1⟩ := copyFilesFrom_log _ _ _ _ _ e he <;>
      (subst h1; simp [Event.confined, under_append])
  · obtain ⟨f, _, b, h1⟩ := delFilesFrom_log _ _ _ _ e he
    subst h1
    simp [Event.confined, under_append]
  · obtain ⟨f, _, b, h1⟩ := delFilesFrom_log _ _ _ _ e he
    subst h1
    simp [Event.confined, under_append]

/-- The state after the three passes of a level, at the paths the level's
calls leave untouched. -/
theorem level_footprint (ord : Path → Bool → RangeOrder) (fs : FS) (source target : Path)
    (g : Path → Bool) (h : Untouched g (levelLog ord fs source target)) :
    (levelDelDirs ord fs source target).fs.restrict g = fs.restrict g ∧
    (levelDelDirs ord fs source target).fs.deny = fs.deny := by
  simp only [levelLog] at h
  have hu1 := (untouched_cons _ _ _).1 h
  simp only [List.append_assoc] at hu1
  have a1 := (untouched_append _ _ _).1 hu1.2
  have a2 := (untouched_append _ _ _).1 a1.2
  have a3 := (untouched_append _ _ _).1 a2.2
  have a4 := (untouched_append _ _ _).1 a3.2
  have a5 := (untouched_append _ _ _).1 a4.2
  have a6 := (untouched_append _ _ _).1 a5.2
  have e1 := ensureTarget_footprint g fs target a3.1
  have e2 := copyFilesFrom_footprint g _ source target _ 0 a5.1
  have e3 := delFilesFrom_footprint g _ target _ 0 a6.1
  have e4 := delFilesFrom_footprint g _ target _ 0 a6.2
  simp only [levelDelDirs, levelDel, levelCopy, copyFiles, delFiles] at e2 e3 e4 ⊢
  exact ⟨e4.1.trans (e3.1.trans (e2.1.trans e1.1)), e4.2.trans (e3.2.trans (e2.2.trans e1.2))⟩

theorem level_wf (ord : Path → Bool → RangeOrder) (fs : FS) (source target : Path)
    (h : fs.WellFormed) : (levelDelDirs ord fs source target).fs.WellFormed := by
  simp only [levelDelDirs, levelDel, levelCopy, copyFiles, delFiles]
  exact delFilesFrom_wf _ _ _ _ (delFilesFrom_wf _ _ _ _
    (copyFilesFrom_wf _ _ _ _ _ (ensureTarget_wf fs target h)))

/-! ## A file present on both sides -/

theorem ensureTarget_of_exists {fs : FS} {t : Path} (h : «exists» fs t = true) :
    ensureTarget fs t = (fs, [Event.stat t true]) := by
  simp [ensureTarget, h]

theorem untouched_mono {g1 g2 : Path → Bool} (h : ∀ q, g2 q = true → g1 q = true)
    {log : List Event} (hu : Untouched g1 log) : Untouched g2 log := by
  intro e he q hq
  have := hu e he q hq
  cases h2 : g2 q with
  | false => rfl
  | true =>
    rw [h q h2] at this
    cases this

theorem isFile_not_isDir {fs : FS} {p : Path} (h : fs.isFile p = true) : fs.isDir p = false := by
  obtain ⟨d, hd⟩ := (isFile_iff _ _).1 h
  simp [FS.isDir, hd]

theorem get_ne_none_of_isFile {fs : FS} {p : Path} (h : fs.isFile p = true) :
    fs.get p ≠ none := by
  obtain ⟨d, hd⟩ := (isFile_iff _ _).1 h
  rw [hd]
  simp

theorem isDir_of_above {fs : FS} (hc : fs.Closed) {p x : Path} (hx : x ≠ [])
    (h : fs.get (p ++ x) ≠ none) : fs.isDir p = true := by
  apply (isDir_iff _ _).2
  apply ancestor_dir hc h (under_append p x)
  intro h2
  have := congrArg List.length h2
  simp at this
  exact hx this

theorem isFile_congr {fs1 fs2 : FS} {p : Path} (h : fs1.get p = fs2.get p) :
    fs1.isFile p = fs2.isFile p := by
  simp [FS.isFile, h]

/-- A name that is a regular file at the same relative path on both sides is
in none of the three lists of its level, and the first name of a longer such
path is in none of them either. -/
theorem level_lists_same_named (ord : Path → Bool → RangeOrder) {fs : FS} {s t : Path}
    {h : String} {tl : Path} (hwf : fs.WellFormed) (hl : fs.Listable)
    (hs : fs.isFile (s ++ h :: tl) = true) (ht : fs.isFile (t ++ h :: tl) = true) :
    h ∉ (levelFiles ord fs s t).1 ∧ h ∉ (levelFiles ord fs s t).2 ∧
      h ∉ (levelDirs ord fs s t).2 := by
  have hsd : fs.isDir s = true := isDir_of_above hwf.2 (by simp) (get_ne_none_of_isFile hs)
  have htd : fs.isDir t = true := isDir_of_above hwf.2 (by simp) (get_ne_none_of_isFile ht)
  have hex : «exists» fs t = true :=
    exists_of_get (by rw [(isDir_iff _ _).1 htd]; simp)
  have hS := getFiles_val_ok fs s ((isDir_iff _ _).1 hsd) (hl s).1 (hl s).2
  have hT := getFiles_val_ok fs t ((isDir_iff _ _).1 htd) (hl t).1 (hl t).2
  have hTn := getFiles_files_nodup fs hwf.1 t
  have hTdn := getFiles_dirs_nodup fs hwf.1 t
  simp only [levelFiles, levelDirs, ensureTarget_of_exists hex]
  have hf := getDiff_spec (ord s false) (getFiles fs s).val.1 (getFiles fs t).val.1 hTn h
  have hd := getDiff_spec (ord s true) (getFiles fs s).val.2 (getFiles fs t).val.2 hTdn h
  rw [List.append_cons] at hs ht
  by_cases htl : tl = []
  · subst htl
    simp only [List.append_nil] at hs ht
    refine ⟨?_, ?_, ?_⟩
    · intro h1
      obtain ⟨h2, h3⟩ := hf.1.1 h1
      exact h3 (files_names_of_listed hwf.1 hT ht (mem_files_names hwf.1 h2).2)
    · intro h1
      obtain ⟨h2, h3⟩ := hf.2.1 h1
      exact h3 (files_names_of_listed hwf.1 hS hs (mem_files_names hwf.1 h2).2)
    · intro h1
      obtain ⟨h2, _⟩ := hd.2.1 h1
      have := mem_dirs_names hwf.1 h2
      rw [isFile_not_isDir ht] at this
      cases this
  · have hsd2 : fs.isDir (s ++ [h]) = true :=
      isDir_of_above hwf.2 htl (get_ne_none_of_isFile hs)
    have htd2 : fs.isDir (t ++ [h]) = true :=
      isDir_of_above hwf.2 htl (get_ne_none_of_isFile ht)
    refine ⟨?_, ?_, ?_⟩
    · intro h1
      obtain ⟨h2, _⟩ := hf.1.1 h1
      have := (mem_files_names hwf.1 h2).1
      rw [isFile_not_isDir this] at hsd2
      cases hsd2
    · intro h1
      obtain ⟨h2, _⟩ := hf.2.1 h1
      have := (mem_files_names hwf.1 h2).1
      rw [isFile_not_isDir this] at htd2
      cases htd2
    · intro h1
      obtain ⟨_, h3⟩ := hd.2.1 h1
      exact h3 (dirs_names_of_listed hwf.1 hS hsd2)

theorem sync_deny {fuel : Nat} {ord : Path → Bool → RangeOrder} {s t : Path} {lv : Int}
    {fs : FS} {r : Out (Nat × Nat)} (h : sync fuel ord s t lv fs = some r) :
    r.fs.deny = fs.deny :=
  (sync_footprint (fun _ => false) _ _ _ _ _ _ _ h (fun _ _ _ _ => rfl)).2

theorem sync_listable {fuel : Nat} {ord : Path → Bool → RangeOrder} {s t : Path} {lv : Int}
    {fs : FS} {r : Out (Nat × Nat)} (h : sync fuel ord s t lv fs = some r)
    (hl : fs.Listable) : r.fs.Listable := by
  intro p
  unfold FS.denied
  rw [sync_deny h]
  exact hl p

theorem listable_of_faultFree {fs : FS} (h : fs.FaultFree) : fs.Listable :=
  fun _ => ⟨denied_ff h _ _, denied_ff h _ _⟩

/-- A recursive call leaves the source alone. -/
theorem sync_child_source_get {fuel : Nat} {ord : Path → Bool → RangeOrder} {s t : Path}
    {a b : String} {lv : Int} {fs : FS} {r : Out (Nat × Nat)}
    (h : sync fuel ord (s ++ [a]) (t ++ [b]) lv fs = some r)
    (hst : Separate s t) {q : Path} (hq : under s q = true) : r.fs.get q = fs.get q := by
  have hc := sync_confined _ _ _ _ _ _ _ h
  have hu : Untouched (under s) r.log :=
    confined_untouched_source hst
      (fun e he => confined_mono (under_append _ _) (under_append _ _) (hc e he))
  exact get_of_restrict (sync_footprint (under s) _ _ _ _ _ _ _ h hu).1 hq

theorem same_named_core (ord : Path → Bool → RangeOrder) :
    ∀ (k : Nat) (s t : Path) (lv : Int) (fs : FS) (x : Path), x ≠ [] → fs.WellFormed →
      fs.Listable → Separate s t → fs.isFile (s ++ x) = true → fs.isFile (t ++ x) = true →
      ∀ r, sync k ord s t lv fs = some r →
        ∀ e ∈ r.log, ∀ p, e.attempts = some p → under p (t ++ x) = false := by
  intro k
  induction k with
  | zero =>
    intro s t lv fs x _ _ _ _ _ _ r hr
    simp [sync] at hr
  | succ k ih =>
    intro s t lv fs x hx hwf hff hst hs ht r hr
    obtain ⟨h, tl, rfl⟩ : ∃ h tl, x = h :: tl := by
      cases x with
      | nil => exact absurd rfl hx
      | cons h tl => exact ⟨h, tl, rfl⟩
    have hsd : fs.isDir s = true := isDir_of_above hwf.2 hx (get_ne_none_of_isFile hs)
    have htd : fs.isDir t = true := isDir_of_above hwf.2 hx (get_ne_none_of_isFile ht)
    have hexs : «exists» fs s = true :=
      exists_of_get (by rw [(isDir_iff _ _).1 hsd]; simp)
    have hext : «exists» fs t = true :=
      exists_of_get (by rw [(isDir_iff _ _).1 htd]; simp)
    obtain ⟨r1, h1, _, hfs, hlog⟩ := sync_succ_some hr hexs
    have hlists := level_lists_same_named ord hwf hff hs ht
    have hlevel : ∀ e ∈ levelLog ord fs s t, ∀ p, e.attempts = some p →
        under p (t ++ h :: tl) = false := by
      intro e he p hp
      obtain ⟨f, hf, hmem⟩ := levelLog_attempts ord fs s t hext e he p hp
      subst hf
      cases hu : under (t ++ [f]) (t ++ h :: tl) with
      | false => rfl
      | true =>
        obtain ⟨rest, hrest⟩ := under_child_append hu
        simp only [List.cons.injEq] at hrest
        obtain ⟨hfh, _⟩ := hrest
        subst hfh
        rcases hmem with hm | hm | hm
        · exact absurd hm hlists.1
        · exact absurd hm hlists.2.1
        · exact absurd hm hlists.2.2
    have hlc := levelLog_confined ord fs s t
    have hfp1 := level_footprint ord fs s t _ (not_touched_of_no_attempt hlevel)
    have hfp2 := level_footprint ord fs s t (under s) (confined_untouched_source hst hlc)
    have hrec := forDirs_inv (sync k ord)
      (fun fs2 => fs2.WellFormed ∧ fs2.Listable ∧
        fs2.get (s ++ h :: tl) = fs.get (s ++ h :: tl) ∧
        fs2.get (t ++ h :: tl) = fs.get (t ++ h :: tl))
      (fun e => ∀ p, e.attempts = some p → under p (t ++ h :: tl) = false)
      s t lv (getFiles fs s).val.2
      (by
        intro d hd fs2 hinv r2 hr2
        obtain ⟨i1, i2, i3, i4⟩ := hinv
        have hsep := separate_snoc hst d.name d.name
        have hP : ∀ e ∈ r2.log, ∀ p, e.attempts = some p →
            under p (t ++ h :: tl) = false := by
          by_cases hcase : d.name = h ∧ tl ≠ []
          · obtain ⟨hdh, htl⟩ := hcase
            have := ih (s ++ [d.name]) (t ++ [d.name]) (lv + 1) fs2 tl htl i1 i2 hsep
              (by rw [hdh, ← List.append_cons, isFile_congr i3]; exact hs)
              (by rw [hdh, ← List.append_cons, isFile_congr i4]; exact ht) r2 hr2
            intro e he p hp
            have := this e he p hp
            rw [hdh, ← List.append_cons] at this
            exact this
          · intro e he p hp
            cases hu : under p (t ++ h :: tl) with
            | false => rfl
            | true =>
              exfalso
              have hc := sync_confined _ _ _ _ _ _ _ hr2 e he
              have hu2 := under_trans (confined_attempts hc hp) hu
              obtain ⟨rest, hrest⟩ := under_child_append hu2
              simp only [List.cons.injEq] at hrest
              obtain ⟨hdh, hrt⟩ := hrest
              subst hrt
              have htl : tl = [] := by
                by_contra hne
                exact hcase ⟨hdh.symm, hne⟩
              subst htl
              have hdir := mem_dirs_names hwf.1 (List.mem_map_of_mem FileInfo.name hd)
              rw [← hdh, isFile_not_isDir hs] at hdir
              cases hdir
        refine ⟨hP, sync_wf _ _ _ _ _ _ _ hr2 i1, sync_listable hr2 i2, ?_, ?_⟩
        · rw [← i3]
          exact sync_child_source_get hr2 hst (under_append s _)
        · rw [← i4]
          exact get_of_untouched (sync_footprint _ _ _ _ _ _ _ _ hr2
            (not_touched_of_no_attempt hP)).1)
      _ _ r1 h1
      ⟨level_wf ord fs s t hwf, by
          intro p
          unfold FS.denied
          rw [hfp2.2]
          exact hff p,
        get_of_restrict hfp2.1 (under_append s _), get_of_untouched hfp1.1⟩
    intro e he p hp
    rw [hlog] at he
    rcases List.mem_append.1 he with he | he
    · exact hlevel e he p hp
    · exact hrec.1 e he p hp

/-! ## Copying and deleting when nothing is refused -/

theorem isDir_congr {fs1 fs2 : FS} {p : Path} (h : fs1.get p = fs2.get p) :
    fs1.isDir p = fs2.isDir p := by
  simp [FS.isDir, h]

theorem partitionStates_fold_eq (l : GoMap) (acc : List String × List String) :
    l.foldl
      (fun acc kv =>
        if kv.2 = 1 then (acc.1 ++ [kv.1], acc.2)
        else if kv.2 = -1 then (acc.1, acc.2 ++ [kv.1])
        else acc) acc =
    (acc.1 ++ (l.filter fun kv => decide (kv.2 = 1)).map Prod.fst,
     acc.2 ++ (l.filter fun kv => decide (kv.2 = -1)).map Prod.fst) := by
  induction l generalizing acc with
  | nil => simp
  | cons kv rest ih =>
    rw [List.foldl_cons, ih]
    by_cases h1 : kv.2 = 1
    · have h2 : ¬ kv.2 = -1 := by omega
      simp [h1]
    · by_cases h2 : kv.2 = -1
      · simp [h2]
      · simp [h1, h2]

theorem partitionStates_eq (l : GoMap) :
    partitionStates l =
      ((l.filter fun kv => decide (kv.2 = 1)).map Prod.fst,
       (l.filter fun kv => decide (kv.2 = -1)).map Prod.fst) := by
  unfold partitionStates
  rw [partitionStates_fold_eq]
  simp

theorem getDiff_nodup (ord : RangeOrder) (S T : List FileInfo)
    (hT : (T.map FileInfo.name).Nodup) :
    (getDiff ord S T).1.Nodup ∧ (getDiff ord S T).2.Nodup := by
  have h1 := (markSource_fold S [] List.nodup_nil).1
  have h2 := (markTarget_fold T hT (markSource S) h1).1
  have h3 : ((ord.pick (markTarget (markSource S) T)).map Prod.fst).Nodup :=
    ((ord.perm _).map Prod.fst).nodup_iff.2 h2
  unfold getDiff
  rw [partitionStates_eq]
  exact ⟨h3.sublist ((List.filter_sublist _).map _), h3.sublist ((List.filter_sublist _).map _)⟩

theorem mem_mapSet {m : GoMap} {k k' : String} {v v' : Int} (h : (k, v) ∈ mapSet m k' v') :
    (k = k' ∧ v = v') ∨ (k, v) ∈ m := by
  induction m with
  | nil =>
    simp only [mapSet, List.mem_singleton, Prod.mk.injEq] at h
    exact Or.inl h
  | cons e rest ih =>
    obtain ⟨a, b⟩ := e
    unfold mapSet at h
    split at h
    · rcases List.mem_cons.1 h with h | h
      · simp only [Prod.mk.injEq] at h
        exact Or.inl h
      · exact Or.inr (List.mem_cons_of_mem _ h)
    · rcases List.mem_cons.1 h with h | h
      · exact Or.inr (h ▸ List.mem_cons_self _ _)
      · rcases ih h with h | h
        · exact Or.inl h
        · exact Or.inr (List.mem_cons_of_mem _ h)

theorem mem_markSource_fold (S : List FileInfo) (m : GoMap) {k : String} {v : Int}
    (h : (k, v) ∈ S.foldl (fun m f => mapSet m f.name 1) m) :
    (k ∈ S.map FileInfo.name ∧ v = 1) ∨ (k, v) ∈ m := by
  induction S generalizing m with
  | nil => exact Or.inr h
  | cons f rest ih =>
    rw [List.foldl_cons] at h
    rcases ih _ h with h | h
    · exact Or.inl ⟨List.mem_cons_of_mem _ h.1, h.2⟩
    · rcases mem_mapSet h with h | h
      · exact Or.inl ⟨by simp [h.1], h.2⟩
      · exact Or.inr h

theorem mem_markTarget (T : List FileInfo) (m : GoMap) {k : String} {v : Int}
    (h : (k, v) ∈ markTarget m T) :
    (k ∈ T.map FileInfo.name ∧ (v = 0 ∨ v = -1)) ∨ (k, v) ∈ m := by
  induction T generalizing m with
  | nil => exact Or.inr h
  | cons f rest ih =>
    unfold markTarget at h
    rw [List.foldl_cons] at h
    rcases ih _ h with h | h
    · exact Or.inl ⟨List.mem_cons_of_mem _ h.1, h.2⟩
    · split at h
      · rcases mem_mapSet h with h | h
        · exact Or.inl ⟨by simp [h.1], Or.inl h.2⟩
        · exact Or.inr h
      · rcases mem_mapSet h with h | h
        · exact Or.inl ⟨by simp [h.1], Or.inr h.2⟩
        · exact Or.inr h

/-- Whatever the listings, `added` holds source names only and `deleted`
target names only. -/
theorem getDiff_subset (ord : RangeOrder) (S T : List FileInfo) (k : String) :
    (k ∈ (getDiff ord S T).1 → k ∈ S.map FileInfo.name) ∧
    (k ∈ (getDiff ord S T).2 → k ∈ T.map FileInfo.name) := by
  unfold getDiff
  constructor
  · intro h
    rw [mem_partitionStates_fst] at h
    have h := (ord.perm _).mem_iff.1 h
    rcases mem_markTarget T _ h with h | h
    · omega
    · unfold markSource at h
      rcases mem_markSource_fold S [] h with h | h
      · exact h.1
      · cases h
  · intro h
    rw [mem_partitionStates_snd] at h
    have h := (ord.perm _).mem_iff.1 h
    rcases mem_markTarget T _ h with h | h
    · exact h.1
    · unfold markSource at h
      rcases mem_markSource_fold S [] h with h | h
      · omega
      · cases h

/-! ## The loop over the source directories, one directory at a time -/

theorem forDirs_inv_rem (recur : Path → Path → Int → FS → Option (Out (Nat × Nat)))
    (Inv : List FileInfo → FS → Prop) (P : Event → Prop) (source target : Path) (level : Int)
    (hrec : ∀ d rest fs, Inv (d :: rest) fs → ∀ r,
      recur (source ++ [d.name]) (target ++ [d.name]) (level + 1) fs = some r →
      (∀ e ∈ r.log, P e) ∧ Inv rest r.fs)
    (dirs : List FileInfo) (fs : FS) (counts : Nat × Nat) (r : Out (Nat × Nat))
    (h : forDirs recur source target level dirs fs counts = some r) (hi : Inv dirs fs) :
    (∀ e ∈ r.log, P e) ∧ Inv [] r.fs := by
  induction dirs generalizing fs counts r with
  | nil =>
    simp only [forDirs, Option.some.injEq] at h
    subst h
    exact ⟨fun e he => (by cases he), hi⟩
  | cons d rest ih =>
    unfold forDirs at h
    split at h
    · cases h
    · rename_i r1 h1
      split at h
      · cases h
      · rename_i r2 h2
        simp only [Option.some.injEq] at h
        subst h
        obtain ⟨hp1, hi1⟩ := hrec d rest fs hi r1 h1
        obtain ⟨hp2, hi2⟩ := ih r1.fs _ r2 h2 hi1
        refine ⟨?_, hi2⟩
        intro e he
        rcases List.mem_append.1 he with he | he
        · exact hp1 e he
        · exact hp2 e he

/-- The counts a loop over the directories returns, when every recursive call
returns `(0, 0)`. -/
theorem forDirs_val_zero (recur : Path → Path → Int → FS → Option (Out (Nat × Nat)))
    (source target : Path) (level : Int) (dirs : List FileInfo)
    (hrec : ∀ d ∈ dirs, ∀ fs r,
      recur (source ++ [d.name]) (target ++ [d.name]) (level + 1) fs = some r →
      r.val = (0, 0))
    (fs : FS) (counts : Nat × Nat) (r : Out (Nat × Nat))
    (h : forDirs recur source target level dirs fs counts = some r) : r.val = counts := by
  induction dirs generalizing fs counts r with
  | nil =>
    simp only [forDirs, Option.some.injEq] at h
    subst h
    rfl
  | cons d rest ih =>
    unfold forDirs at h
    split at h
    · cases h
    · rename_i r1 h1
      split at h
      · cases h
      · rename_i r2 h2
        simp only [Option.some.injEq] at h
        subst h
        have h0 := hrec d (List.mem_cons_self _ _) fs r1 h1
        have := ih (fun d hd => hrec d (List.mem_cons_of_mem _ hd)) r1.fs _ r2 h2
        rw [this, h0]
        rfl

/-- A call of `sync` leaves every path outside its target as it was. -/
theorem sync_outside_get {fuel : Nat} {ord : Path → Bool → RangeOrder} {s t : Path} {lv : Int}
    {fs : FS} {r : Out (Nat × Nat)} (h : sync fuel ord s t lv fs = some r)
    {q : Path} (hq : under t q = false) : r.fs.get q = fs.get q := by
  have hc := sync_confined _ _ _ _ _ _ _ h
  have hu := confined_untouched_outside hc
  exact get_of_restrict (sync_footprint _ _ _ _ _ _ _ _ h hu).1 (by simp [hq])

/-! ## Removal when the environment refuses no unlinking -/

theorem stuck_of_no_refusal {fs : FS} (h : ∀ p, fs.denied Sys.remove p = false) (p : Path) :
    fs.stuck p = false := by
  unfold FS.stuck
  rw [List.any_eq_false]
  intro e _
  simp [h]

theorem delFilesFrom_clean (names : List String) (t : Path) (fs : FS) (i : Nat)
    (hwf : fs.WellFormed) (hnr : ∀ p, fs.denied Sys.remove p = false)
    (htd : fs.isDir t = true) :
    (delFilesFrom names t fs i).val = i + names.length ∧
    (∀ e ∈ (delFilesFrom names t fs i).log, e.removed = true) ∧
    (∀ q, (delFilesFrom names t fs i).fs.get q =
      if names.any (fun n => under (t ++ [n]) q) = true then none else fs.get q) := by
  induction names generalizing fs i with
  | nil => simp [delFilesFrom]
  | cons n rest ih =>
    have hok : (osRemoveAll fs (t ++ [n])).1 = true := by
      simp [osRemoveAll, stuck_of_no_refusal hnr,
        not_blocked_child hwf.2 ((isDir_iff _ _).1 htd)]
    have hg : ∀ q, (osRemoveAll fs (t ++ [n])).2.get q =
        if under (t ++ [n]) q = true then none else fs.get q := by
      intro q
      rw [osRemoveAll_get, stuck_of_no_refusal hnr]
      cases under (t ++ [n]) q <;> simp
    have hrest := ih (osRemoveAll fs (t ++ [n])).2 (i + 1) (osRemoveAll_wf fs _ hwf)
      (fun p => hnr p)
      (by
        have hgt : (osRemoveAll fs (t ++ [n])).2.get t = fs.get t := by
          rw [hg t, not_under_snoc_self]
          simp
        rw [isDir_congr hgt]
        exact htd)
    unfold delFilesFrom
    simp only [hok, if_true]
    refine ⟨?_, ?_, ?_⟩
    · rw [hrest.1]
      simp only [List.length_cons]
      omega
    · intro e he
      rcases List.mem_cons.1 he with h | h
      · subst h
        rfl
      · exact hrest.2.1 e h
    · intro q
      rw [hrest.2.2 q, hg q]
      simp only [List.any_cons, Bool.or_eq_true]
      by_cases h1 : under (t ++ [n]) q = true
      · simp [h1]
      · by_cases h2 : rest.any (fun n => under (t ++ [n]) q) = true
        · simp [h2]
        · simp [h1, h2]

theorem delFilesFrom_deny (names : List String) (t : Path) (fs : FS) (i : Nat) :
    (delFilesFrom names t fs i).fs.deny = fs.deny := by
  induction names generalizing fs i with
  | nil => rfl
  | cons n rest ih =>
    unfold delFilesFrom
    exact ih _ _

theorem ensureTarget_of_isDir {fs : FS} {t : Path} (h : fs.isDir t = true) :
    ensureTarget fs t = (fs, [Event.stat t true]) :=
  ensureTarget_of_exists (exists_of_get (by rw [(isDir_iff _ _).1 h]; simp))

/-! ## The calls of one level, by kind -/

theorem level_pre_events (fs : FS) (s t : Path) (b : Bool) :
    ∀ e ∈ (getFiles fs s).log ++ [Event.stat s b] ++ (ensureTarget fs t).2 ++
        (getFiles (ensureTarget fs t).1 t).log,
      e.isCall = false ∧ e.copies = false ∧ e.removal = none := by
  intro e he
  simp only [List.mem_append, List.mem_singleton] at he
  rcases he with ((he | he) | he) | he
  · obtain ⟨b, h | h⟩ := getFiles_log_cases _ _ e he <;> subst h <;> exact ⟨rfl, rfl, rfl⟩
  · subst he
    exact ⟨rfl, rfl, rfl⟩
  · obtain ⟨b, h | h⟩ := ensureTarget_log _ _ e he <;> subst h <;> exact ⟨rfl, rfl, rfl⟩
  · obtain ⟨b, h | h⟩ := getFiles_log_cases _ _ e he <;> subst h <;> exact ⟨rfl, rfl, rfl⟩

theorem copy_events (names : List String) (s t : Path) (fs : FS) (i : Nat) :
    ∀ e ∈ (copyFilesFrom names s t fs i).log, e.isCall = false ∧ e.removal = none := by
  intro e he
  obtain ⟨f, _, n, b, h | h | h | h⟩ := copyFilesFrom_log _ _ _ _ _ e he <;> subst h <;>
    exact ⟨rfl, rfl⟩

theorem del_events (names : List String) (t : Path) (fs : FS) (i : Nat) :
    ∀ e ∈ (delFilesFrom names t fs i).log, e.isCall = false ∧ e.copies = false := by
  intro e he
  obtain ⟨f, _, b, h⟩ := delFilesFrom_log _ _ _ _ e he
  subst h
  exact ⟨rfl, rfl⟩

theorem levelLog_split (ord : Path → Bool → RangeOrder) (fs : FS) (s t : Path) :
    levelLog ord fs s t =
      Event.call s t :: ((getFiles fs s).log ++ [Event.stat s true] ++ (ensureTarget fs t).2 ++
        (getFiles (ensureTarget fs t).1 t).log) ++
      ((levelCopy ord fs s t).log ++
        ((levelDel ord fs s t).log ++ (levelDelDirs ord fs s t).log)) := by
  simp [levelLog, List.append_assoc]

/-- One level makes one invocation of `sync`: its own. -/
theorem levelLog_isCall (ord : Path → Bool → RangeOrder) (fs : FS) (s t : Path) :
    (levelLog ord fs s t).filter Event.isCall = [Event.call s t] := by
  rw [levelLog_split, List.filter_append, List.filter_cons]
  have h1 : ((getFiles fs s).log ++ [Event.stat s true] ++ (ensureTarget fs t).2 ++
      (getFiles (ensureTarget fs t).1 t).log).filter Event.isCall = [] := by
    rw [List.filter_eq_nil_iff]
    intro e he
    rw [(level_pre_events fs s t true e he).1]
    simp
  have h2 : ((levelCopy ord fs s t).log ++
      ((levelDel ord fs s t).log ++ (levelDelDirs ord fs s t).log)).filter Event.isCall = [] := by
    rw [List.filter_eq_nil_iff]
    intro e he
    simp only [List.mem_append] at he
    rcases he with he | he | he
    · rw [(copy_events _ _ _ _ _ e he).1]
      simp
    · rw [(del_events _ _ _ _ e he).1]
      simp
    · rw [(del_events _ _ _ _ e he).1]
      simp
  rw [h1, h2]
  simp [Event.isCall]

/-- The removals of one level are those of its two `delFiles`. -/
theorem levelLog_removal (ord : Path → Bool → RangeOrder) (fs : FS) (s t : Path) :
    (levelLog ord fs s t).filterMap Event.removal =
      (levelDel ord fs s t).log.filterMap Event.removal ++
        (levelDelDirs ord fs s t).log.filterMap Event.removal := by
  rw [levelLog_split, List.filterMap_append, List.filterMap_append, List.filterMap_append,
    List.filterMap_cons]
  have h1 : ((getFiles fs s).log ++ [Event.stat s true] ++ (ensureTarget fs t).2 ++
      (getFiles (ensureTarget fs t).1 t).log).filterMap Event.removal = [] := by
    rw [List.filterMap_eq_nil_iff]
    intro e he
    exact (level_pre_events fs s t true e he).2.2
  have h2 : (levelCopy ord fs s t).log.filterMap Event.removal = [] := by
    rw [List.filterMap_eq_nil_iff]
    intro e he
    exact (copy_events _ _ _ _ _ e he).2
  rw [h1, h2]
  simp [Event.removal]

/-- The copying calls of one level are those of its `copyFiles`. -/
theorem levelLog_copies (ord : Path → Bool → RangeOrder) (fs : FS) (s t : Path) :
    ∀ e ∈ levelLog ord fs s t, e.copies = true → e ∈ (levelCopy ord fs s t).log := by
  intro e he hc
  rw [levelLog_split] at he
  rcases List.mem_append.1 he with he | he
  · rcases List.mem_cons.1 he with he | he
    · subst he
      cases hc
    · rw [(level_pre_events fs s t true e he).2.1] at hc
      cases hc
  · rcases List.mem_append.1 he with he | he
    · exact he
    · rcases List.mem_append.1 he with he | he
      · rw [(del_events _ _ _ _ e he).2] at hc
        cases hc
      · rw [(del_events _ _ _ _ e he).2] at hc
        cases hc

theorem countP_removal (log : List Event) :
    (log.filterMap Event.removal).countP (fun x => x.2) = log.countP Event.removed := by
  induction log with
  | nil => rfl
  | cons e rest ih =>
    cases e with
    | removeAll p ok =>
      cases ok <;> simp [Event.removal, Event.removed, List.filterMap_cons, ih]
    | _ => simp [Event.removal, Event.removed, List.filterMap_cons, ih]

/-! ## Names of the ignore set -/

theorem ignoredName_snoc (p : Path) (n : String) :
    ignoredName (p ++ [n]) = decide (n ∈ Skipped) := by
  simp [ignoredName, List.getLast?_concat]

theorem ignoredName_append (t : Path) {x : Path} (hx : x ≠ []) :
    ignoredName (t ++ x) = ignoredName x := by
  rcases List.eq_nil_or_concat x with h | ⟨y, n, h⟩
  · exact absurd h hx
  · rw [List.concat_eq_append] at h
    subst h
    rw [← List.append_assoc, ignoredName_snoc, ignoredName_snoc]

theorem ignoredName_cons (h : String) {tl : Path} (hx : tl ≠ []) :
    ignoredName (h :: tl) = ignoredName tl :=
  ignoredName_append [h] hx

theorem ignoredName_ne_nil {x : Path} (h : ignoredName x = true) : x ≠ [] := by
  intro hx
  subst hx
  cases h

theorem ignoredName_single {h : String} (hx : ignoredName [h] = true) : h ∈ Skipped := by
  have := ignoredName_snoc [] h
  rw [List.nil_append, hx] at this
  exact of_decide_eq_true this.symm

/-- A name of the ignore set is in neither the `added` nor the `deleted` list
of any level. -/
theorem level_lists_skipped (ord : Path → Bool → RangeOrder) (fs : FS) (s t : Path)
    {n : String} (hn : n ∈ Skipped) :
    n ∉ (levelFiles ord fs s t).1 ∧ n ∉ (levelFiles ord fs s t).2 := by
  unfold levelFiles
  constructor
  · intro h
    have h1 := (getDiff_subset _ _ _ n).1 h
    obtain ⟨f, hf, rfl⟩ := List.mem_map.1 h1
    exact (mem_getFiles_files hf).2.2 hn
  · intro h
    have h1 := (getDiff_subset _ _ _ n).2 h
    obtain ⟨f, hf, rfl⟩ := List.mem_map.1 h1
    exact (mem_getFiles_files hf).2.2 hn

/-- A regular file of the target with an ignored name is in none of the three
lists of its level. -/
theorem level_lists_ignored (ord : Path → Bool → RangeOrder) {fs : FS} {s t : Path}
    {n : String} (hwf : fs.WellFormed) (hn : n ∈ Skipped)
    (hf : fs.isFile (t ++ [n]) = true) :
    n ∉ (levelFiles ord fs s t).1 ∧ n ∉ (levelFiles ord fs s t).2 ∧
      n ∉ (levelDirs ord fs s t).2 := by
  obtain ⟨h1, h2⟩ := level_lists_skipped ord fs s t hn
  refine ⟨h1, h2, ?_⟩
  have htd : fs.isDir t = true := isDir_of_above hwf.2 (by simp) (get_ne_none_of_isFile hf)
  unfold levelDirs
  rw [ensureTarget_of_isDir htd]
  intro h
  have h3 := (getDiff_subset _ _ _ n).2 h
  have := mem_dirs_names hwf.1 h3
  rw [isFile_not_isDir hf] at this
  cases this

/-- No `Create`, `Read` or `Write` of a run of `sync` is on a path whose last
name is in the ignore set. -/
theorem sync_copies_not_ignored (ord : Path → Bool → RangeOrder) :
    ∀ (k : Nat) (s t : Path) (lv : Int) (fs : FS) (r : Out (Nat × Nat)),
      sync k ord s t lv fs = some r →
      ∀ e ∈ r.log, e.copies = true → ignoredName e.path = false := by
  intro k
  induction k with
  | zero =>
    intro s t lv fs r hr
    simp [sync] at hr
  | succ k ih =>
    intro s t lv fs r hr
    by_cases hex : «exists» fs s = true
    · obtain ⟨r1, h1, _, _, hlog⟩ := sync_succ_some hr hex
      have hrec := forDirs_inv (sync k ord) (fun _ => True)
        (fun e => e.copies = true → ignoredName e.path = false) s t lv (getFiles fs s).val.2
        (fun d _ fs2 _ r2 hr2 => ⟨ih _ _ _ _ r2 hr2, trivial⟩) _ _ r1 h1 trivial
      intro e he hc
      rw [hlog] at he
      rcases List.mem_append.1 he with he | he
      · have hm := levelLog_copies ord fs s t e he hc
        obtain ⟨f, hf, n, b, h | h | h | h⟩ := copyFilesFrom_log _ _ _ _ _ e hm
        · subst h
          cases hc
        all_goals
          subst h
          simp only [Event.path, ignoredName_snoc, decide_eq_false_iff_not]
          exact fun hs => (level_lists_skipped ord fs s t hs).1 hf
      · exact hrec.1 e he hc
    · rw [sync_succ, if_neg hex] at hr
      simp only [Option.some.injEq] at hr
      subst hr
      intro e he hc
      rcases List.mem_cons.1 he with he | he
      · subst he
        cases hc
      · rcases List.mem_append.1 he with he | he
        · obtain ⟨b, h | h⟩ := getFiles_log_cases _ _ e he <;> subst h <;> cases hc
        · rw [List.mem_singleton] at he
          subst he
          cases hc

/-- A call of `sync` whose target exists changes nothing at the target path
itself. -/
theorem sync_target_untouched {k : Nat} {ord : Path → Bool → RangeOrder} {s t : Path}
    {lv : Int} {fs : FS} {r : Out (Nat × Nat)} (h : sync k ord s t lv fs = some r)
    (hex : «exists» fs t = true) : ∀ e ∈ r.log, e.touches t = false := by
  cases k with
  | zero => simp [sync] at h
  | succ k =>
    by_cases hs : «exists» fs s = true
    · obtain ⟨r1, h1, _, _, hlog⟩ := sync_succ_some h hs
      have hchild : ∀ (d : String) (fs2 : FS) (r2 : Out (Nat × Nat)),
          sync k ord (s ++ [d]) (t ++ [d]) (lv + 1) fs2 = some r2 →
          ∀ e ∈ r2.log, e.touches t = false := by
        intro d fs2 r2 hr2 e he
        cases ht : e.touches t with
        | false => rfl
        | true =>
          have := confined_touches (sync_confined _ _ _ _ _ _ _ hr2 e he) ht
          rw [not_under_snoc_self] at this
          cases this
      have hrec := forDirs_inv (sync k ord) (fun _ => True)
        (fun e => e.touches t = false) s t lv (getFiles fs s).val.2
        (fun d _ fs2 _ r2 hr2 => ⟨hchild d.name fs2 r2 hr2, trivial⟩) _ _ r1 h1 trivial
      intro e he
      rw [hlog] at he
      rcases List.mem_append.1 he with he | he
      · cases ht : e.touches t with
        | false => rfl
        | true =>
          obtain ⟨p, hp, hu⟩ := touches_attempts ht
          obtain ⟨f, hf, _⟩ := levelLog_attempts ord fs s t hex e he p hp
          rw [hf, not_under_snoc_self] at hu
          cases hu
      · exact hrec.1 e he
    · rw [sync_succ, if_neg hs] at h
      simp only [Option.some.injEq] at h
      subst h
      intro e he
      rcases List.mem_cons.1 he with he | he
      · subst he
        rfl
      · rcases List.mem_append.1 he with he | he
        · obtain ⟨b, h | h⟩ := getFiles_log_cases _ _ e he <;> subst h <;> rfl
        · rw [List.mem_singleton] at he
          subst he
          rfl

/-! ## A regular file of the target with an ignored name -/

theorem append_cons_ne_snoc (t : Path) (h : String) {tl : Path} (htl : tl ≠ []) (f : String) :
    t ++ [f] ≠ t ++ h :: tl := by
  intro he
  have := congrArg List.length he
  simp only [List.length_append, List.length_cons, List.length_nil] at this
  have : tl.length = 0 := by omega
  exact htl (List.length_eq_zero.1 this)

/-- The calls of a run that can change a regular file of the target with an
ignored name are removals of a directory above it. -/
theorem ignored_core (ord : Path → Bool → RangeOrder) :
    ∀ (k : Nat) (s t : Path) (lv : Int) (fs : FS) (x : Path), ignoredName x = true →
      fs.WellFormed → fs.isFile (t ++ x) = true →
      ∀ r, sync k ord s t lv fs = some r →
        ∀ e ∈ r.log, e.touches (t ++ x) = true →
          ∃ q ok, e = Event.removeAll q ok ∧ q ≠ t ++ x := by
  intro k
  induction k with
  | zero =>
    intro s t lv fs x _ _ _ r hr
    simp [sync] at hr
  | succ k ih =>
    intro s t lv fs x hx hwf hf r hr
    obtain ⟨h, tl, rfl⟩ : ∃ h tl, x = h :: tl := by
      cases x with
      | nil => cases hx
      | cons h tl => exact ⟨h, tl, rfl⟩
    have htd : fs.isDir t = true :=
      isDir_of_above hwf.2 (List.cons_ne_nil h tl) (get_ne_none_of_isFile hf)
    have hext : «exists» fs t = true :=
      exists_of_get (by rw [(isDir_iff _ _).1 htd]; simp)
    by_cases hexs : «exists» fs s = true
    · obtain ⟨r1, h1, _, _, hlog⟩ := sync_succ_some hr hexs
      have hlevel : ∀ e ∈ levelLog ord fs s t, e.touches (t ++ h :: tl) = true →
          ∃ q ok, e = Event.removeAll q ok ∧ q ≠ t ++ h :: tl := by
        intro e he ht
        obtain ⟨q, hq, hu⟩ := touches_attempts ht
        obtain ⟨f, hf2, hmem⟩ := levelLog_attempts ord fs s t hext e he q hq
        subst hf2
        obtain ⟨rest, hrest⟩ := under_child_append hu
        simp only [List.cons.injEq] at hrest
        obtain ⟨hfh, _⟩ := hrest
        subst hfh
        by_cases htl : tl = []
        · subst htl
          have hl := level_lists_ignored ord (s := s) hwf (ignoredName_single hx) hf
          rcases hmem with hm | hm | hm
          · exact absurd hm hl.1
          · exact absurd hm hl.2.1
          · exact absurd hm hl.2.2
        · have hne := append_cons_ne_snoc t h htl h
          cases e with
          | call a b => cases hq
          | stat a b => cases hq
          | «open» a b => cases hq
          | readdir a b => cases hq
          | read a n b => cases hq
          | mkdir a b =>
            simp only [Event.attempts, Option.some.injEq] at hq
            subst hq
            cases b with
            | false => cases ht
            | true =>
              simp only [Event.touches, decide_eq_true_eq] at ht
              exact absurd ht.symm hne
          | create a b =>
            simp only [Event.attempts, Option.some.injEq] at hq
            subst hq
            cases b with
            | false => cases ht
            | true =>
              simp only [Event.touches, decide_eq_true_eq] at ht
              exact absurd ht.symm hne
          | write a n b =>
            simp only [Event.attempts, Option.some.injEq] at hq
            subst hq
            cases b with
            | false => cases ht
            | true =>
              simp only [Event.touches, decide_eq_true_eq] at ht
              exact absurd ht.symm hne
          | removeAll a b =>
            simp only [Event.attempts, Option.some.injEq] at hq
            subst hq
            exact ⟨_, _, rfl, hne⟩
      have hinit : h ∈ (getFiles fs s).val.2.map FileInfo.name →
          (levelDelDirs ord fs s t).fs.get (t ++ h :: tl) = fs.get (t ++ h :: tl) := by
        intro hS
        have hsd := mem_dirs_names hwf.1 hS
        have hl1 : h ∉ (levelFiles ord fs s t).1 := by
          intro hm
          unfold levelFiles at hm
          have := (mem_files_names hwf.1 ((getDiff_subset _ _ _ h).1 hm)).1
          rw [isFile_not_isDir this] at hsd
          cases hsd
        have hl2 : h ∉ (levelFiles ord fs s t).2 := by
          intro hm
          unfold levelFiles at hm
          rw [ensureTarget_of_isDir htd] at hm
          have hm2 := mem_files_names hwf.1 ((getDiff_subset _ _ _ h).2 hm)
          by_cases htl : tl = []
          · subst htl
            exact hm2.2 (ignoredName_single hx)
          · have : fs.isDir (t ++ [h]) = true :=
              isDir_of_above hwf.2 htl
                (by rw [List.append_assoc]; exact get_ne_none_of_isFile hf)
            rw [isFile_not_isDir hm2.1] at this
            cases this
        have hl3 : h ∉ (levelDirs ord fs s t).2 := by
          intro hm
          unfold levelDirs at hm
          exact ((getDiff_spec _ _ _ (getFiles_dirs_nodup _ (ensureTarget_wf fs t hwf).1 t)
            h).2.1 hm).2 hS
        have hno : ∀ e ∈ levelLog ord fs s t, ∀ p, e.attempts = some p →
            under p (t ++ h :: tl) = false := by
          intro e he p hp
          obtain ⟨f, hf2, hmem⟩ := levelLog_attempts ord fs s t hext e he p hp
          subst hf2
          cases hu : under (t ++ [f]) (t ++ h :: tl) with
          | false => rfl
          | true =>
            obtain ⟨rest, hrest⟩ := under_child_append hu
            simp only [List.cons.injEq] at hrest
            obtain ⟨hfh, _⟩ := hrest
            subst hfh
            rcases hmem with hm | hm | hm
            · exact absurd hm hl1
            · exact absurd hm hl2
            · exact absurd hm hl3
        exact get_of_untouched
          (level_footprint ord fs s t _ (not_touched_of_no_attempt hno)).1
      have hrec := forDirs_inv_rem (sync k ord)
        (fun rem fs2 => fs2.WellFormed ∧ (rem.map FileInfo.name).Nodup ∧
          (h ∈ rem.map FileInfo.name → fs2.get (t ++ h :: tl) = fs.get (t ++ h :: tl)))
        (fun e => e.touches (t ++ h :: tl) = true →
          ∃ q ok, e = Event.removeAll q ok ∧ q ≠ t ++ h :: tl)
        s t lv
        (by
          intro d rest fs2 hinv r2 hr2
          obtain ⟨i1, i2, i3⟩ := hinv
          rw [List.map_cons, List.nodup_cons] at i2
          by_cases hd : d.name = h
          · have hg := i3 (by rw [List.map_cons, hd]; exact List.mem_cons_self _ _)
            have hf2 : fs2.isFile (t ++ h :: tl) = true := by
              rw [isFile_congr hg]
              exact hf
            refine ⟨?_, sync_wf _ _ _ _ _ _ _ hr2 i1, i2.2, ?_⟩
            · by_cases htl : tl = []
              · subst htl
                intro e he ht
                have := sync_target_untouched hr2
                  (exists_of_get (by rw [hd]; exact get_ne_none_of_isFile hf2)) e he
                rw [hd, ht] at this
                cases this
              · have := ih (s ++ [d.name]) (t ++ [d.name]) (lv + 1) fs2 tl
                  (by rw [← ignoredName_cons h htl]; exact hx) i1
                  (by rw [hd, List.append_assoc]; exact hf2) r2 hr2
                rw [hd, List.append_assoc] at this
                exact this
            · intro hmem
              rw [hd] at i2
              exact absurd hmem i2.1
          · refine ⟨?_, sync_wf _ _ _ _ _ _ _ hr2 i1, i2.2, ?_⟩
            · intro e he ht
              have hu := confined_touches (sync_confined _ _ _ _ _ _ _ hr2 e he) ht
              obtain ⟨rest2, hrest⟩ := under_child_append hu
              simp only [List.cons.injEq] at hrest
              exact absurd hrest.1.symm hd
            · intro hmem
              have hout : under (t ++ [d.name]) (t ++ h :: tl) = false := by
                cases hu : under (t ++ [d.name]) (t ++ h :: tl) with
                | false => rfl
                | true =>
                  obtain ⟨rest2, hrest⟩ := under_child_append hu
                  simp only [List.cons.injEq] at hrest
                  exact absurd hrest.1.symm hd
              rw [sync_outside_get hr2 hout]
              exact i3 (by rw [List.map_cons]; exact List.mem_cons_of_mem _ hmem))
        (getFiles fs s).val.2 _ _ r1 h1
        ⟨level_wf ord fs s t hwf, getFiles_dirs_nodup fs hwf.1 s, hinit⟩
      intro e he ht
      rw [hlog] at he
      rcases List.mem_append.1 he with he | he
      · exact hlevel e he ht
      · exact hrec.1 e he ht
    · rw [sync_succ, if_neg hexs] at hr
      simp only [Option.some.injEq] at hr
      subst hr
      intro e he ht
      rcases List.mem_cons.1 he with he | he
      · subst he
        cases ht
      · rcases List.mem_append.1 he with he | he
        · obtain ⟨b, h | h⟩ := getFiles_log_cases _ _ e he <;> subst h <;> cases ht
        · rw [List.mem_singleton] at he
          subst he
          cases ht

/-! ## One level in a fault-free environment -/

theorem get_ne_dir_of_isFile {fs : FS} {p : Path} (h : fs.isFile p = true) :
    fs.get p ≠ some Node.dir := by
  obtain ⟨d, hd⟩ := (isFile_iff _ _).1 h
  rw [hd]
  simp

/-- The frame of `sync` on the file systems of the model, which hold no
symbolic links. When neither of `source` and `target` lies at or beneath the other,
`sync(source, target, level)` returns (any bound on the depth above the
longest path of the file system is enough), every call it makes is one it is
entitled to (`Event.confined`), every `Mkdir`, `Create`, `Write` and
`RemoveAll` it attempts is at a path at or beneath `target` and not beneath
`source`, and the entries at and beneath `source`, like all entries outside
`target`, are the same afterwards, in the same order. -/
theorem sync_leaves_source_unchanged (ord : Path → Bool → RangeOrder) (source target : Path)
    (level : Int) (fs : FS) (fuel : Nat) (hst : Separate source target)
    (hfuel : fs.maxLen < fuel) :
    ∃ r, sync fuel ord source target level fs = some r ∧
      (∀ e ∈ r.log, e.confined source target = true) ∧
      (∀ e ∈ r.log, ∀ p, e.attempts = some p →
        under target p = true ∧ under source p = false) ∧
      r.fs.restrict (under source) = fs.restrict (under source) ∧
      r.fs.restrict (fun q => !under target q) = fs.restrict (fun q => !under target q) ∧
      (∀ q, under source q = true → r.fs.get q = fs.get q) := by
  obtain ⟨k, rfl⟩ : ∃ k, fuel = k + 1 := ⟨fuel - 1, by omega⟩
  obtain ⟨r, hr⟩ := sync_terminates ord k source target level fs hst
    (fun e he _ => by have := le_maxLen fs e he; omega)
  have hc := sync_confined _ _ _ _ _ _ _ hr
  have h1 := (sync_footprint (under source) _ _ _ _ _ _ _ hr
    (confined_untouched_source hst hc)).1
  have h2 := (sync_footprint (fun q => !under target q) _ _ _ _ _ _ _ hr
    (confined_untouched_outside hc)).1
  refine ⟨r, hr, hc, ?_, h1, h2, fun q hq => get_of_restrict h1 hq⟩
  intro e he p hp
  have h3 := confined_attempts (hc e he) hp
  exact ⟨h3, disjoint_under hst.2 hst.1 h3⟩


theorem sync_leaves_source_unchanged_witness :
    Separate ["s"] ["t"] ∧ fsA.maxLen < 4 ∧
    ∃ r, sync 4 (fun _ _ => RangeOrder.insertion) ["s"] ["t"] 0 fsA = some r ∧
      (∀ e ∈ r.log, e.confined ["s"] ["t"] = true) ∧
      (∀ e ∈ r.log, ∀ p, e.attempts = some p →
        under ["t"] p = true ∧ under ["s"] p = false) ∧
      r.fs.restrict (under ["s"]) = fsA.restrict (under ["s"]) ∧
      r.fs.restrict (fun q => !under ["t"] q) = fsA.restrict (fun q => !under ["t"] q) ∧
      (∀ q, under ["s"] q = true → r.fs.get q = fsA.get q) :=
  ⟨by unfold Separate; decide, by decide,
    sync_leaves_source_unchanged (fun _ _ => RangeOrder.insertion) ["s"] ["t"] 0 fsA 4
      (by unfold Separate; decide) (by decide)⟩

/-- The early return of `sync`: when `exists(source)` is false, that is when
`os.Stat` reports that the source does not exist, `sync` returns `(0, 0)`
whatever the recursion bound, leaves the file system as it is, and makes no
call but the failed `os.Open` of `getFiles(source)` and the `os.Stat`: no
`Mkdir` of the target, no copy, no removal, no recursive invocation. -/
theorem sync_source_missing (ord : Path → Bool → RangeOrder) (source target : Path)
    (level : Int) (fs : FS) (fuel : Nat) (h : «exists» fs source = false) :
    ∃ r, sync (fuel + 1) ord source target level fs = some r ∧
      r.val = (0, 0) ∧ r.fs = fs ∧
      r.log = [Event.call source target, Event.open source false, Event.stat source false] := by
  have hg : fs.get source = none := by
    unfold «exists» osStatNotExist at h
    cases hget : fs.get source with
    | none => rfl
    | some n => simp [hget] at h
  have ho : osOpen fs source = false := by simp [osOpen, hg]
  refine ⟨_, by unfold sync; simp only [h]; rfl, rfl, rfl, ?_⟩
  simp [getFiles, ho]

/-! ## The copier and the deleter -/

theorem osRead_data_ne_nil {fs : FS} {p : Path} {off size : Nat} {bytes : List Nat}
    (h : osRead fs p off size = ReadResult.data bytes) : bytes ≠ [] := by
  unfold osRead at h
  split at h
  · cases h
  · split at h
    · split at h
      · cases h
      · rename_i hne
        cases h
        exact hne
    · cases h

theorem copyLoop_events (fuel : Nat) (fs : FS) (sp tp : Path) (off : Nat) :
    (∀ e ∈ (copyLoop fuel fs sp tp off).log, e.refused = false) ∧
    (copyLoop fuel fs sp tp off).log.filterMap Event.opened = [] ∧
    (copyLoop fuel fs sp tp off).log.filterMap Event.created = [] ∧
    (copyLoop fuel fs sp tp off).log.countP Event.endOfInput =
      (if (copyLoop fuel fs sp tp off).val then 1 else 0) := by
  induction fuel generalizing fs off with
  | zero => simp [copyLoop]
  | succ fuel ih =>
    unfold copyLoop
    cases hr : osRead fs sp off BUFFERSIZE with
    | error => simp [Event.refused, Event.opened, Event.created, Event.endOfInput]
    | eof => simp [Event.refused, Event.opened, Event.created, Event.endOfInput]
    | data bytes =>
      have hne := osRead_data_ne_nil hr
      have hlen : bytes.length ≠ 0 := fun h => hne (List.length_eq_zero.1 h)
      obtain ⟨k, hk⟩ : ∃ k, bytes.length = k + 1 := ⟨bytes.length - 1, by omega⟩
      dsimp only
      cases hw : osWrite fs tp bytes with
      | none => simp [Event.refused, Event.opened, Event.created, Event.endOfInput, hk]
      | some fs1 =>
        dsimp only
        have h := ih fs1 (off + bytes.length)
        refine ⟨?_, ?_, ?_, ?_⟩
        · intro e he
          simp only [List.mem_cons] at he
          rcases he with he | he | he
          · subst he; rfl
          · subst he; rfl
          · exact h.1 e he
        · simpa [Event.opened] using h.2.1
        · simpa [Event.created] using h.2.2.1
        · simpa [Event.endOfInput, hk, List.countP_cons] using h.2.2.2

theorem copyFilesFrom_clean (names : List String) (source target : Path) (fs : FS) (i : Nat)
    (h : ∀ e ∈ (copyFilesFrom names source target fs i).log, e.refused = false) :
    (copyFilesFrom names source target fs i).val =
      i + (copyFilesFrom names source target fs i).log.countP Event.endOfInput ∧
    (copyFilesFrom names source target fs i).log.filterMap Event.opened =
      names.map (fun f => source ++ [f]) ∧
    (copyFilesFrom names source target fs i).log.filterMap Event.created =
      names.map (fun f => target ++ [f]) := by
  induction names generalizing fs i with
  | nil => simp [copyFilesFrom]
  | cons f rest ih =>
    unfold copyFilesFrom at h ⊢
    simp only at h ⊢
    split
    · rename_i ho
      simp only [ho, if_true] at h
      split
      · rename_i hc
        simp only [hc] at h
        have := h (Event.create (target ++ [f]) false) (by simp)
        simp [Event.refused] at this
      · rename_i fs1 hc
        simp only [hc] at h
        have hl := copyLoop_events (fs1.size (source ++ [f]) + 1) fs1 (source ++ [f])
          (target ++ [f]) 0
        have hrest := ih _ _ (fun e he => h e
          (List.mem_cons_of_mem _ (List.mem_cons_of_mem _ (List.mem_append_right _ he))))
        refine ⟨?_, ?_, ?_⟩
        · have e1 : Event.endOfInput (Event.open (source ++ [f]) true) = false := rfl
          have e2 : Event.endOfInput (Event.create (target ++ [f]) true) = false := rfl
          simp only [List.countP_cons, List.countP_append, e1, e2, Bool.false_eq_true,
            if_false, add_zero]
          rw [hrest.1, hl.2.2.2]
          split <;> omega
        · simp only [List.filterMap_cons, List.filterMap_append, Event.opened, hl.2.1,
            hrest.2.1, List.nil_append, List.map_cons]
        · simp only [List.filterMap_cons, List.filterMap_append, Event.created, hl.2.2.1,
            hrest.2.2, List.nil_append, List.map_cons]
    · rename_i ho
      simp only [ho] at h
      have := h (Event.open (source ++ [f]) false) (by simp)
      simp [Event.refused] at this

theorem getLast?_cons_ne {α : Type} {a : α} {l : List α} (h : l ≠ []) :
    (a :: l).getLast? = l.getLast? := by
  cases l with
  | nil => exact absurd rfl h
  | cons b l => exact List.getLast?_cons_cons

theorem copyFilesFrom_aborted (names : List String) (source target : Path) (fs : FS) (i : Nat)
    (e : Event) (he : e ∈ (copyFilesFrom names source target fs i).log)
    (hr : e.refused = true) :
    (copyFilesFrom names source target fs i).val = 0 ∧
    (copyFilesFrom names source target fs i).log.getLast? = some e ∧
    ∃ pre f post, names = pre ++ f :: post ∧
      (copyFilesFrom names source target fs i).log.filterMap Event.opened =
        (pre ++ [f]).map (fun f => source ++ [f]) ∧
      (e = Event.open (source ++ [f]) false ∨ e = Event.create (target ++ [f]) false) := by
  induction names generalizing fs i with
  | nil => simp [copyFilesFrom] at he
  | cons f rest ih =>
    unfold copyFilesFrom at he ⊢
    simp only at he ⊢
    split
    · rename_i ho
      simp only [ho, if_true] at he
      split
      · rename_i hc
        simp only [hc, List.mem_cons, List.mem_singleton, List.not_mem_nil, or_false] at he
        rcases he with he | he
        · subst he
          simp [Event.refused] at hr
        · subst he
          exact ⟨rfl, rfl, [], f, rest, rfl, by simp [Event.opened], Or.inr rfl⟩
      · rename_i fs1 hc
        simp only [hc, List.mem_cons, List.mem_append] at he
        have hl := copyLoop_events (fs1.size (source ++ [f]) + 1) fs1 (source ++ [f])
          (target ++ [f]) 0
        rcases he with he | he | he | he
        · subst he
          simp [Event.refused] at hr
        · subst he
          simp [Event.refused] at hr
        · have := hl.1 e he
          rw [hr] at this
          cases this
        · obtain ⟨h1, h2, pre, g, post, h3, h4, h5⟩ := ih _ _ he
          refine ⟨h1, ?_, f :: pre, g, post, by simp [h3], ?_, h5⟩
          · have hne : (copyFilesFrom rest source target
                (copyLoop (fs1.size (source ++ [f]) + 1) fs1 (source ++ [f]) (target ++ [f])
                  0).fs
                (if (copyLoop (fs1.size (source ++ [f]) + 1) fs1 (source ++ [f])
                  (target ++ [f]) 0).val = true then i + 1 else i)).log ≠ [] :=
              List.ne_nil_of_mem he
            rw [getLast?_cons_ne (List.cons_ne_nil _ _),
              getLast?_cons_ne (by simp [hne]), List.getLast?_append_of_ne_nil _ hne]
            exact h2
          · simp only [List.filterMap_cons, List.filterMap_append, Event.opened, hl.2.1, h4,
              List.nil_append, List.cons_append, List.map_cons]
    · rename_i ho
      simp only [ho, List.mem_singleton] at he
      simp only [Bool.false_eq_true, if_false] at he
      simp only [List.mem_singleton] at he
      subst he
      exact ⟨rfl, rfl, [], f, rest, rfl, by simp [Event.opened], Or.inl rfl⟩

/-- C8. For every batch of names: if an `os.Open` or an `os.Create` of the
batch fails, `copyFiles` returns 0, the failed call is its last call, and the
names it opened are those up to and including the failing one, so no later
name is attempted, whatever was copied before. If none fails, `copyFiles`
returns the number of transfers that reached the end of the input (a `Read`
that returned `(0, io.EOF)`), every name of the batch was opened and created
in order, and a failed `Read` or `Write` ended only the transfer of its own
file. -/
theorem copyFiles_batch (added : List String) (source target : Path) (fs : FS) :
    ((∃ e ∈ (copyFiles added source target fs).log, e.refused = true) →
      (copyFiles added source target fs).val = 0 ∧
      ∃ pre f post, added = pre ++ f :: post ∧
        (copyFiles added source target fs).log.filterMap Event.opened =
          (pre ++ [f]).map (fun f => source ++ [f]) ∧
        ((copyFiles added source target fs).log.getLast? =
            some (Event.open (source ++ [f]) false) ∨
          (copyFiles added source target fs).log.getLast? =
            some (Event.create (target ++ [f]) false))) ∧
    ((∀ e ∈ (copyFiles added source target fs).log, e.refused = false) →
      (copyFiles added source target fs).val =
        (copyFiles added source target fs).log.countP Event.endOfInput ∧
      (copyFiles added source target fs).log.filterMap Event.opened =
        added.map (fun f => source ++ [f]) ∧
      (copyFiles added source target fs).log.filterMap Event.created =
        added.map (fun f => target ++ [f])) := by
  constructor
  · rintro ⟨e, he, hr⟩
    obtain ⟨h1, h2, pre, f, post, h3, h4, h5⟩ :=
      copyFilesFrom_aborted added source target fs 0 e he hr
    refine ⟨h1, pre, f, post, h3, h4, ?_⟩
    rcases h5 with h5 | h5
    · left
      rw [← h5]
      exact h2
    · right
      rw [← h5]
      exact h2
  · intro h
    have := copyFilesFrom_clean added source target fs 0 h
    simpa [copyFiles] using this

theorem delFilesFrom_spec (names : List String) (target : Path) (fs : FS) (i : Nat) :
    ((delFilesFrom names target fs i).log.filterMap Event.removal).map Prod.fst =
      names.map (fun f => target ++ [f]) ∧
    (delFilesFrom names target fs i).log.length = names.length ∧
    (delFilesFrom names target fs i).val =
      i + (delFilesFrom names target fs i).log.countP Event.removed ∧
    (∀ p, Event.removeAll p true ∈ (delFilesFrom names target fs i).log →
      ∀ e ∈ (delFilesFrom names target fs i).fs.ents, under p e.1 = false) := by
  induction names generalizing fs i with
  | nil =>
    refine ⟨rfl, rfl, rfl, ?_⟩
    intro p hp
    cases hp
  | cons f rest ih =>
    unfold delFilesFrom
    simp only
    have h := ih (osRemoveAll fs (target ++ [f])).2
      (if (osRemoveAll fs (target ++ [f])).1 = true then i + 1 else i)
    refine ⟨?_, ?_, ?_, ?_⟩
    · simp only [List.filterMap_cons, Event.removal, List.map_cons, h.1]
    · simp only [List.length_cons, h.2.1]
    · rw [h.2.2.1]
      simp only [List.countP_cons]
      cases (osRemoveAll fs (target ++ [f])).1 <;> simp [Event.removed] <;> omega
    · intro p hp e he
      simp only [List.mem_cons, Event.removeAll.injEq] at hp
      rcases hp with ⟨h1, h2⟩ | hp
      · subst h1
        exact osRemoveAll_gone fs _ h2.symm e (delFilesFrom_sub _ _ _ _ e he)
      · exact h.2.2.2 p hp e he

theorem getDiff_symmetric_difference_witness :
    ([⟨"a.txt", Kind.file⟩, ⟨"b.txt", Kind.file⟩].map FileInfo.name).Nodup ∧
    ([⟨"b.txt", Kind.file⟩, ⟨"c.txt", Kind.file⟩].map FileInfo.name).Nodup ∧
    getDiff RangeOrder.reversed [⟨"a.txt", Kind.file⟩, ⟨"b.txt", Kind.file⟩]
      [⟨"b.txt", Kind.file⟩, ⟨"c.txt", Kind.file⟩] = (["a.txt"], ["c.txt"]) ∧
    (∀ k, k ∈ (getDiff RangeOrder.reversed [⟨"a.txt", Kind.file⟩, ⟨"b.txt", Kind.file⟩]
        [⟨"b.txt", Kind.file⟩, ⟨"c.txt", Kind.file⟩]).1 ↔
      k ∈ [⟨"a.txt", Kind.file⟩, ⟨"b.txt", Kind.file⟩].map FileInfo.name ∧
      k ∉ [⟨"b.txt", Kind.file⟩, ⟨"c.txt", Kind.file⟩].map FileInfo.name) :=
  ⟨by decide, by decide, by decide,
    (getDiff_symmetric_difference RangeOrder.reversed
      [⟨"a.txt", Kind.file⟩, ⟨"b.txt", Kind.file⟩] [⟨"b.txt", Kind.file⟩, ⟨"c.txt", Kind.file⟩]
      (by decide) (by decide)).1⟩

theorem sync_source_missing_witness :
    «exists» fsA ["nope"] = false ∧
    ∃ r, sync 1 (fun _ _ => RangeOrder.insertion) ["nope"] ["t"] 0 fsA = some r ∧
      r.val = (0, 0) ∧ r.fs = fsA ∧
      r.log = [Event.call ["nope"] ["t"], Event.open ["nope"] false,
        Event.stat ["nope"] false] :=
  ⟨by decide, sync_source_missing (fun _ _ => RangeOrder.insertion) ["nope"] ["t"] 0 fsA 0
    (by decide)⟩

theorem copyFiles_batch_witness :
    (∃ e ∈ (copyFiles ["a.txt", "zzz"] ["s"] ["t"] fsA).log, e.refused = true) ∧
    (copyFiles ["a.txt", "zzz"] ["s"] ["t"] fsA).log.countP Event.endOfInput = 1 ∧
    (copyFiles ["a.txt", "zzz"] ["s"] ["t"] fsA).val = 0 :=
  ⟨by decide, by decide,
    ((copyFiles_batch ["a.txt", "zzz"] ["s"] ["t"] fsA).1 (by decide)).1⟩

/-- C9. For every list of names and every target directory, `delFiles` calls
`os.RemoveAll` on `target/name` for every name of the list, in order and once
each, whatever failed before; it returns the number of these removals that
succeeded; and after a successful removal nothing at or beneath the removed
path is left in the file system it returns. -/
theorem delFiles_counts_successes (deleted : List String) (target : Path) (fs : FS) :
    ((delFiles deleted target fs).log.filterMap Event.removal).map Prod.fst =
      deleted.map (fun f => target ++ [f]) ∧
    (delFiles deleted target fs).log.length = deleted.length ∧
    (delFiles deleted target fs).val = (delFiles deleted target fs).log.countP Event.removed ∧
    (∀ f, Event.removeAll (target ++ [f]) true ∈ (delFiles deleted target fs).log →
      ∀ e ∈ (delFiles deleted target fs).fs.ents, under (target ++ [f]) e.1 = false) := by
  have h := delFilesFrom_spec deleted target fs 0
  refine ⟨h.1, h.2.1, by simpa [delFiles] using h.2.2.1, fun f hf => h.2.2.2 _ hf⟩

theorem delFiles_counts_successes_example :
    (delFiles ["c.txt", "b.txt", "nothing"] ["t"] fsLocked).log =
      [Event.removeAll ["t", "c.txt"] false, Event.removeAll ["t", "b.txt"] true,
        Event.removeAll ["t", "nothing"] true] ∧
    (delFiles ["c.txt", "b.txt", "nothing"] ["t"] fsLocked).val = 2 := by
  decide

/-- C6 (fails as stated). On `fsRefused` the regular file `sub/f` is on both
sides with different bytes, but `s/sub` cannot be opened: its listing comes
back empty, `f` is in the `deleted` list of the level `(s/sub, t/sub)`, the
target-side file is removed and counted, and `sync` returns `(0, 1)`. On
`fsNested`, where the target `s/t` lies inside the source `s`, the file `t/f`
is on both sides too (`s/t/f` and `s/t/t/f`): the first level removes
`s/t/f`, the next one removes the target-side `s/t/t/f`, and `sync` returns
`(0, 2)`. -/
theorem sync_same_named_file_removed :
    fsRefused.get ["s", "sub", "f"] = some (Node.file [1]) ∧
    fsRefused.get ["t", "sub", "f"] = some (Node.file [2]) ∧
    (run 4 ["s"] ["t"] fsRefused).map (fun r =>
        (r.val, r.fs.get ["t", "sub", "f"],
          decide (Event.open ["s", "sub"] false ∈ r.log),
          decide (Event.removeAll ["t", "sub", "f"] true ∈ r.log))) =
      some ((0, 1), none, true, true) ∧
    fsNested.get (["s"] ++ ["t", "f"]) = some (Node.file [1]) ∧
    fsNested.get (["s", "t"] ++ ["t", "f"]) = some (Node.file [2]) ∧
    (run 5 ["s"] ["s", "t"] fsNested).map (fun r =>
        (r.val, r.fs.get ["s", "t", "t", "f"],
          decide (Event.removeAll ["s", "t", "t", "f"] true ∈ r.log))) =
      some ((0, 2), none, true) := by
  decide

/-- C6 (amended). In a file system that is a tree, in which every directory
can be listed (no `os.Open` and no `Readdir` is refused), with `source` and
`target` two separate trees: when the relative path `x ++ [n]` is a regular
file on both sides (whatever the bytes), `sync` returns, attempts no `Mkdir`,
`Create`, `Write` or `RemoveAll` at the target-side file or above it (so the
file adds to neither count), leaves the node of the target-side file, bytes
included, as it was, and the name `n` is in neither the `added` nor the
`deleted` list (nor in `deletedDirs`) of its level, in any such state in
which the two files are regular files. -/
theorem sync_same_named_file_untouched (ord : Path → Bool → RangeOrder)
    (source target : Path) (level : Int) (fs : FS) (fuel : Nat) (x : Path) (n : String)
    (hwf : fs.WellFormed) (hl : fs.Listable) (hst : Separate source target)
    (hs : fs.isFile (source ++ x ++ [n]) = true) (ht : fs.isFile (target ++ x ++ [n]) = true)
    (hfuel : fs.maxLen < fuel) :
    ∃ r, sync fuel ord source target level fs = some r ∧
      (∀ e ∈ r.log, ∀ p, e.attempts = some p → under p (target ++ x ++ [n]) = false) ∧
      (∀ e ∈ r.log, e.touches (target ++ x ++ [n]) = false) ∧
      r.fs.get (target ++ x ++ [n]) = fs.get (target ++ x ++ [n]) ∧
      (∀ fs2 : FS, fs2.WellFormed → fs2.Listable →
        fs2.isFile (source ++ x ++ [n]) = true → fs2.isFile (target ++ x ++ [n]) = true →
        n ∉ (levelFiles ord fs2 (source ++ x) (target ++ x)).1 ∧
        n ∉ (levelFiles ord fs2 (source ++ x) (target ++ x)).2 ∧
        n ∉ (levelDirs ord fs2 (source ++ x) (target ++ x)).2) := by
  obtain ⟨k, rfl⟩ : ∃ k, fuel = k + 1 := ⟨fuel - 1, by omega⟩
  obtain ⟨r, hr⟩ := sync_terminates ord k source target level fs hst
    (fun e he _ => by have := le_maxLen fs e he; omega)
  have hcore := same_named_core ord (k + 1) source target level fs (x ++ [n]) (by simp)
    hwf hl hst (by rw [← List.append_assoc]; exact hs) (by rw [← List.append_assoc]; exact ht)
    r hr
  rw [← List.append_assoc] at hcore
  have hun := not_touched_of_no_attempt hcore
  refine ⟨r, hr, hcore, ?_, ?_, ?_⟩
  · intro e he
    cases h : e.touches (target ++ x ++ [n]) with
    | false => rfl
    | true =>
      have := hun e he _ h
      simp at this
  · exact get_of_untouched (sync_footprint _ _ _ _ _ _ _ _ hr hun).1
  · intro fs2 hwf2 hl2 hs2 ht2
    exact level_lists_same_named ord hwf2 hl2 hs2 ht2

theorem sync_same_named_file_untouched_witness :
    fsA.WellFormed ∧ fsA.Listable ∧ Separate ["s"] ["t"] ∧
    fsA.get ["s", "b.txt"] = some (Node.file [3]) ∧
    fsA.get ["t", "b.txt"] = some (Node.file [9]) ∧
    ∃ r, sync 4 (fun _ _ => RangeOrder.insertion) ["s"] ["t"] 0 fsA = some r ∧
      r.fs.get ["t", "b.txt"] = some (Node.file [9]) := by
  have hwf : fsA.WellFormed := by
    unfold FS.WellFormed FS.NodupKeys FS.Closed
    decide
  have hff : fsA.FaultFree := rfl
  have hl : fsA.Listable := listable_of_faultFree hff
  have hst : Separate ["s"] ["t"] := by
    unfold Separate
    decide
  obtain ⟨r, hr, _, _, hget, _⟩ :=
    sync_same_named_file_untouched (fun _ _ => RangeOrder.insertion) ["s"] ["t"] 0 fsA 4
      [] "b.txt" hwf hl hst (by decide) (by decide) (by decide)
  exact ⟨hwf, hl, hst, by decide, by decide, r, hr, hget⟩

/-! ## Runs on the example file systems -/

/-- C3 (fails on this input). With the regular file `s/a` facing the directory
`t/a`, the first run of `sync(s, t, 0)` cannot create `t/a`, so `copyFiles`
reports 0; the run then removes the directory, returns `(0, 0)` and leaves
`t/a` free. The second run, started on the file system the first one left,
copies `s/a`: it returns `(1, 0)` and changes the target. -/
theorem sync_second_run_after_clash :
    (run 4 ["s"] ["t"] fsClash).map (fun r =>
        (r.val, r.fs.get ["t", "a"], decide (Event.create ["t", "a"] false ∈ r.log),
          decide (Event.removeAll ["t", "a"] true ∈ r.log))) =
      some ((0, 0), none, true, true) ∧
    ((run 4 ["s"] ["t"] fsClash).bind fun r =>
        (run 4 ["s"] ["t"] r.fs).map fun r2 =>
          (r2.val, r2.fs.get ["t", "a"], decide (r2.fs = r.fs))) =
      some ((1, 0), some (Node.file [1]), false) := by
  decide

/-- C4 (fails as stated). A directory named `.DS_Store` is in the directory
listing of `getFiles`; `sync` goes into such a directory of the source, copies
and counts the file in it, and removes such a directory of the target when
the source has none. -/
theorem getFiles_lists_ignored_directory :
    (getFiles fsDotDir ["s"]).val = ([], [⟨".DS_Store", Kind.dir⟩]) ∧
    (run 4 ["s"] ["t"] fsDotDir).map (fun r => (r.val, r.fs.get ["t", ".DS_Store", "x"])) =
      some ((1, 0), some (Node.file [1])) ∧
    (run 4 ["s"] ["t"] fsDotDirTarget).map (fun r =>
        (r.fs.get ["t", ".DS_Store"], r.fs.get ["t", ".DS_Store", "y"],
          decide (Event.removeAll ["t", ".DS_Store"] true ∈ r.log))) =
      some (none, none, true) := by
  decide

/-- C7 (fails on this input). Nothing is at `s/a.txt/zz`, since `s/a.txt` is
a regular file; `os.Stat` fails there with an error that is not "does not
exist", so `exists` answers `true` and `sync` goes on with two empty source
listings: it removes `t/b.txt` and `t/c.txt` and returns `(0, 2)`. The same
happens for the free path `nope` when the environment refuses `os.Stat` on
it. -/
theorem sync_absent_source_empties_target :
    fsA.get ["s", "a.txt", "zz"] = none ∧
    «exists» fsA ["s", "a.txt", "zz"] = true ∧
    (run 4 ["s", "a.txt", "zz"] ["t"] fsA).map (fun r =>
        (r.val, r.fs.get ["t", "b.txt"], r.fs.get ["t", "c.txt"],
          decide (Event.stat ["s", "a.txt", "zz"] true ∈ r.log))) =
      some ((0, 2), none, none, true) ∧
    fsStatRefused.get ["nope"] = none ∧
    «exists» fsStatRefused ["nope"] = true ∧
    (run 4 ["nope"] ["t"] fsStatRefused).map (fun r =>
        (r.val, r.fs.get ["t", "b.txt"], r.fs.get ["t", "c.txt"])) =
      some ((0, 2), none, none) := by
  decide

/-! ## A source that exists but cannot be listed -/

theorem getDiff_nil_source (ord : RangeOrder) (T : List FileInfo)
    (hT : (T.map FileInfo.name).Nodup) :
    (getDiff ord [] T).1 = [] ∧ (∀ n, n ∈ (getDiff ord [] T).2 ↔ n ∈ T.map FileInfo.name) ∧
      (getDiff ord [] T).2.length = T.length := by
  have hmem : ∀ n, n ∈ (getDiff ord [] T).2 ↔ n ∈ T.map FileInfo.name := by
    intro n
    rw [(getDiff_spec ord [] T hT n).2]
    simp
  refine ⟨?_, hmem, ?_⟩
  · rw [List.eq_nil_iff_forall_not_mem]
    intro k hk
    have := (getDiff_subset ord [] T k).1 hk
    cases this
  · have hp := (List.perm_ext_iff_of_nodup (getDiff_nodup ord [] T hT).2 hT).2 hmem
    rw [hp.length_eq, List.length_map]

/-- C10. In a file system that is a tree, when the source path exists for
`os.Stat` but cannot be opened or cannot be read as a directory, `getFiles`
yields two empty listings for it and `sync` returns whatever the recursion
bound: it makes no further invocation of `sync`, no `Create`, `Read` or
`Write`; the `added` list is empty, the `deleted` list holds exactly the names
of the listed target files and `deletedDirs` exactly the names of the listed
target directories; `RemoveAll` is called on each of these names of the
target, files first; the result is `(0, d)` with `d` the number of removals
of files that succeeded, and after a successful removal nothing is left at or
beneath the removed path. When moreover no unlinking is refused and the
target is a directory, `d` is the number of listed target files, everything
at or beneath a listed file or directory of the target is gone, and every
other path is as before. -/
theorem sync_source_unlistable (ord : Path → Bool → RangeOrder) (source target : Path)
    (level : Int) (fs : FS) (fuel : Nat) (hwf : fs.WellFormed)
    (hex : «exists» fs source = true)
    (hl : osOpen fs source = false ∨ osReaddir fs source = none) :
    (getFiles fs source).val = ([], []) ∧
    ∃ r, sync (fuel + 1) ord source target level fs = some r ∧
      r.log.filter Event.isCall = [Event.call source target] ∧
      (∀ e ∈ r.log, e.copies = false) ∧
      (levelFiles ord fs source target).1 = [] ∧
      (∀ n, n ∈ (levelFiles ord fs source target).2 ↔
        n ∈ (getFiles (ensureTarget fs target).1 target).val.1.map FileInfo.name) ∧
      (∀ n, n ∈ (levelDirs ord fs source target).2 ↔
        n ∈ (getFiles (ensureTarget fs target).1 target).val.2.map FileInfo.name) ∧
      (r.log.filterMap Event.removal).map Prod.fst =
        ((levelFiles ord fs source target).2 ++ (levelDirs ord fs source target).2).map
          (fun n => target ++ [n]) ∧
      r.val = (0, (((r.log.filterMap Event.removal).take
        (levelFiles ord fs source target).2.length).countP fun x => x.2)) ∧
      (∀ p, Event.removeAll p true ∈ r.log → ∀ e ∈ r.fs.ents, under p e.1 = false) ∧
      ((∀ p, fs.denied Sys.remove p = false) → fs.isDir target = true →
        r.val = (0, (getFiles fs target).val.1.length) ∧
        ∀ q, r.fs.get q =
          if ((getFiles fs target).val.1 ++ (getFiles fs target).val.2).any
            (fun f => under (target ++ [f.name]) q) = true then none else fs.get q) := by
  have hS := getFiles_val_failed fs source hl
  refine ⟨hS, ?_⟩
  have hwf1 := ensureTarget_wf fs target hwf
  have hf := getDiff_nil_source (ord source false)
    (getFiles (ensureTarget fs target).1 target).val.1 (getFiles_files_nodup _ hwf1.1 target)
  have hd := getDiff_nil_source (ord source true)
    (getFiles (ensureTarget fs target).1 target).val.2 (getFiles_dirs_nodup _ hwf1.1 target)
  have hadd : (levelFiles ord fs source target).1 = [] := by
    unfold levelFiles
    rw [hS]
    exact hf.1
  have hdel : (levelFiles ord fs source target).2 =
      (getDiff (ord source false) [] (getFiles (ensureTarget fs target).1 target).val.1).2 := by
    unfold levelFiles
    rw [hS]
  have hdd : (levelDirs ord fs source target).2 =
      (getDiff (ord source true) [] (getFiles (ensureTarget fs target).1 target).val.2).2 := by
    unfold levelDirs
    rw [hS]
  have hcopy : levelCopy ord fs source target = ⟨0, (ensureTarget fs target).1, []⟩ := by
    unfold levelCopy
    rw [hadd]
    rfl
  have hrun : sync (fuel + 1) ord source target level fs =
      some ⟨(0, (levelDel ord fs source target).val), (levelDelDirs ord fs source target).fs,
        levelLog ord fs source target ++ []⟩ := by
    rw [sync_succ, if_pos hex, hS, hcopy]
    rfl
  have hspec1 := delFilesFrom_spec (levelFiles ord fs source target).2 target
    (levelCopy ord fs source target).fs 0
  have hspec2 := delFilesFrom_spec (levelDirs ord fs source target).2 target
    (levelDel ord fs source target).fs 0
  have hlen1 : ((levelDel ord fs source target).log.filterMap Event.removal).length =
      (levelFiles ord fs source target).2.length := by
    have := congrArg List.length hspec1.1
    simpa using this
  refine ⟨_, hrun, ?_, ?_, hadd, ?_, ?_, ?_, ?_, ?_, ?_⟩
  · rw [List.append_nil]
    exact levelLog_isCall ord fs source target
  · intro e he
    rw [List.append_nil] at he
    cases hc : e.copies with
    | false => rfl
    | true =>
      have := levelLog_copies ord fs source target e he hc
      rw [hcopy] at this
      cases this
  · intro n
    rw [hdel]
    exact hf.2.1 n
  · intro n
    rw [hdd]
    exact hd.2.1 n
  · rw [List.append_nil, levelLog_removal, List.map_append, List.map_append]
    exact congrArg₂ (· ++ ·) hspec1.1 hspec2.1
  · rw [List.append_nil, levelLog_removal, List.take_left' hlen1, countP_removal]
    have := hspec1.2.2.1
    rw [Nat.zero_add] at this
    exact congrArg (fun x => ((0 : Nat), x)) this
  · intro p hp e he
    rw [List.append_nil, levelLog_split] at hp
    rcases List.mem_append.1 hp with hp | hp
    · rcases List.mem_cons.1 hp with hp | hp
      · cases hp
      · have := (level_pre_events fs source target true _ hp).2.2
        cases this
    · rcases List.mem_append.1 hp with hp | hp
      · rw [hcopy] at hp
        cases hp
      · rcases List.mem_append.1 hp with hp | hp
        · exact hspec1.2.2.2 p hp e (delFilesFrom_sub _ _ _ _ e he)
        · exact hspec2.2.2.2 p hp e he
  · intro hnr htd
    have hmk := ensureTarget_of_isDir htd
    have hc1 := delFilesFrom_clean (levelFiles ord fs source target).2 target fs 0 hwf hnr htd
    have hfs1 : (levelCopy ord fs source target).fs = fs := by
      rw [hcopy, hmk]
    have hdelfs : levelDel ord fs source target =
        delFilesFrom (levelFiles ord fs source target).2 target fs 0 := by
      unfold levelDel delFiles
      rw [hfs1]
    have hgt : (levelDel ord fs source target).fs.get target = fs.get target := by
      rw [hdelfs, hc1.2.2 target]
      have : (levelFiles ord fs source target).2.any (fun n => under (target ++ [n]) target)
          = false := by
        rw [List.any_eq_false]
        intro n _
        simp [not_under_snoc_self]
      simp [this]
    have hc2 := delFilesFrom_clean (levelDirs ord fs source target).2 target
      (levelDel ord fs source target).fs 0
      (by rw [hdelfs]; exact delFilesFrom_wf _ _ _ _ hwf)
      (by
        intro p
        unfold FS.denied
        rw [hdelfs, delFilesFrom_deny]
        exact hnr p)
      (by rw [isDir_congr hgt]; exact htd)
    constructor
    · rw [hdelfs, hc1.1, Nat.zero_add, hdel, hf.2.2, hmk]
    · intro q
      have e1 : (levelDelDirs ord fs source target).fs.get q =
          if (levelDirs ord fs source target).2.any (fun n => under (target ++ [n]) q) = true
          then none else (levelDel ord fs source target).fs.get q := hc2.2.2 q
      have e2 : (levelDel ord fs source target).fs.get q =
          if (levelFiles ord fs source target).2.any (fun n => under (target ++ [n]) q) = true
          then none else fs.get q := by
        rw [hdelfs]
        exact hc1.2.2 q
      show (levelDelDirs ord fs source target).fs.get q = _
      rw [e1, e2]
      have hmk1 : (ensureTarget fs target).1 = fs := by rw [hmk]
      rw [hmk1] at hf hd
      have k1 : (levelFiles ord fs source target).2.any (fun n => under (target ++ [n]) q) =
          (getFiles fs target).val.1.any (fun f => under (target ++ [f.name]) q) := by
        rw [Bool.eq_iff_iff, List.any_eq_true, List.any_eq_true]
        constructor
        · rintro ⟨n, hn, hu⟩
          rw [hdel, hmk1, hf.2.1 n] at hn
          obtain ⟨f, hf1, rfl⟩ := List.mem_map.1 hn
          exact ⟨f, hf1, hu⟩
        · rintro ⟨f, hf1, hu⟩
          refine ⟨f.name, ?_, hu⟩
          rw [hdel, hmk1, hf.2.1]
          exact List.mem_map_of_mem _ hf1
      have k2 : (levelDirs ord fs source target).2.any (fun n => under (target ++ [n]) q) =
          (getFiles fs target).val.2.any (fun f => under (target ++ [f.name]) q) := by
        rw [Bool.eq_iff_iff, List.any_eq_true, List.any_eq_true]
        constructor
        · rintro ⟨n, hn, hu⟩
          rw [hdd, hmk1, hd.2.1 n] at hn
          obtain ⟨f, hf1, rfl⟩ := List.mem_map.1 hn
          exact ⟨f, hf1, hu⟩
        · rintro ⟨f, hf1, hu⟩
          refine ⟨f.name, ?_, hu⟩
          rw [hdd, hmk1, hd.2.1]
          exact List.mem_map_of_mem _ hf1
      rw [k1, k2, List.any_append]
      cases (getFiles fs target).val.1.any (fun f => under (target ++ [f.name]) q) <;>
        cases (getFiles fs target).val.2.any (fun f => under (target ++ [f.name]) q) <;> rfl

theorem sync_source_unlistable_witness :
    fsSourceFile.WellFormed ∧ «exists» fsSourceFile ["s"] = true ∧
    osReaddir fsSourceFile ["s"] = none ∧
    ∃ r, sync 1 (fun _ _ => RangeOrder.insertion) ["s"] ["t"] 0 fsSourceFile = some r ∧
      r.val = (0, 1) ∧ r.fs.get ["t", "a"] = none ∧ r.fs.get ["t", "d", "x"] = none ∧
      r.fs.get ["t"] = some Node.dir := by
  have hwf : fsSourceFile.WellFormed := by
    unfold FS.WellFormed FS.NodupKeys FS.Closed
    decide
  obtain ⟨_, r, hr, _, _, _, _, _, _, _, _, hclean⟩ :=
    sync_source_unlistable (fun _ _ => RangeOrder.insertion) ["s"] ["t"] 0 fsSourceFile 0
      hwf (by decide) (Or.inr (by decide))
  have hff : fsSourceFile.FaultFree := rfl
  obtain ⟨hv, hg⟩ := hclean (fun p => denied_ff hff Sys.remove p) (by decide)
  refine ⟨hwf, by decide, by decide, r, hr, ?_, ?_, ?_, ?_⟩
  · rw [hv]
    decide
  · rw [hg]
    decide
  · rw [hg]
    decide
  · rw [hg]
    decide

/-- C4 (amended). Only regular files are filtered by `Skipped`: every entry of
the file listing of `getFiles` is a regular file whose name is not in
`Skipped`, and the directory listing holds directories whatever their names.
A name of `Skipped` is in neither the `added` nor the `deleted` list of any
level, so no such file adds to a count. In a file system that is a tree, with
`source` and `target` separate, `sync` returns and makes no `Create`, `Read`
or `Write` on a path whose last name is in `Skipped`; a regular file of the
target with such a name can only be changed by a `RemoveAll` of a directory
above it; and the source keeps what it has at every such path. -/
theorem sync_ignores_skipped_files (ord : Path → Bool → RangeOrder) (source target : Path)
    (level : Int) (fs : FS) (fuel : Nat) (hwf : fs.WellFormed)
    (hst : Separate source target) (hfuel : fs.maxLen < fuel) :
    (∀ (fs2 : FS) (p : Path) (f : FileInfo), f ∈ (getFiles fs2 p).val.1 →
      f.kind = Kind.file ∧ f.name ∉ Skipped) ∧
    (∀ (fs2 : FS) (p : Path) (f : FileInfo), f ∈ (getFiles fs2 p).val.2 →
      f.kind = Kind.dir) ∧
    (∀ (fs2 : FS) (s2 t2 : Path) (n : String), n ∈ Skipped →
      n ∉ (levelFiles ord fs2 s2 t2).1 ∧ n ∉ (levelFiles ord fs2 s2 t2).2) ∧
    ∃ r, sync fuel ord source target level fs = some r ∧
      (∀ e ∈ r.log, e.copies = true → ignoredName e.path = false) ∧
      (∀ x, ignoredName x = true → fs.isFile (target ++ x) = true →
        ∀ e ∈ r.log, e.touches (target ++ x) = true →
          ∃ q ok, e = Event.removeAll q ok ∧ q ≠ target ++ x) ∧
      (∀ x, ignoredName x = true → r.fs.get (source ++ x) = fs.get (source ++ x)) := by
  refine ⟨fun fs2 p f h => (mem_getFiles_files h).2, fun fs2 p f h => (mem_getFiles_dirs h).2,
    fun fs2 s2 t2 n hn => level_lists_skipped ord fs2 s2 t2 hn, ?_⟩
  obtain ⟨k, rfl⟩ : ∃ k, fuel = k + 1 := ⟨fuel - 1, by omega⟩
  obtain ⟨r, hr⟩ := sync_terminates ord k source target level fs hst
    (fun e he _ => by have := le_maxLen fs e he; omega)
  refine ⟨r, hr, sync_copies_not_ignored ord _ _ _ _ _ r hr, ?_, ?_⟩
  · intro x hx hf
    exact ignored_core ord _ source target level fs x hx hwf hf r hr
  · intro x _
    have hu := confined_untouched_source hst (sync_confined _ _ _ _ _ _ _ hr)
    exact get_of_restrict (sync_footprint (under source) _ _ _ _ _ _ _ hr hu).1
      (under_append source x)

theorem sync_ignores_skipped_files_witness :
    fsSkipTarget.WellFormed ∧ Separate ["s"] ["t"] ∧ fsSkipTarget.maxLen < 4 ∧
    ignoredName ["old", ".DS_Store"] = true ∧
    fsSkipTarget.isFile ["t", "old", ".DS_Store"] = true ∧
    ∃ r, sync 4 (fun _ _ => RangeOrder.insertion) ["s"] ["t"] 0 fsSkipTarget = some r ∧
      (∀ e ∈ r.log, e.copies = true → ignoredName e.path = false) ∧
      (∀ e ∈ r.log, e.touches ["t", "old", ".DS_Store"] = true →
        ∃ q ok, e = Event.removeAll q ok ∧ q ≠ ["t", "old", ".DS_Store"]) := by
  have hwf : fsSkipTarget.WellFormed := by
    unfold FS.WellFormed FS.NodupKeys FS.Closed
    decide
  have hst : Separate ["s"] ["t"] := by
    unfold Separate
    decide
  obtain ⟨_, _, _, r, hr, hc, ht, _⟩ :=
    sync_ignores_skipped_files (fun _ _ => RangeOrder.insertion) ["s"] ["t"] 0 fsSkipTarget 4
      hwf hst (by decide)
  exact ⟨hwf, hst, by decide, by decide, by decide, r, hr, hc,
    ht ["old", ".DS_Store"] (by decide) (by decide)⟩

/-- The run on `fsSkipTarget`: the ignored file of the target directory stays
with its bytes, the one in `old` goes with `old`, and the result is
`(1, 0)`. -/
theorem sync_skip_target_run :
    (run 4 ["s"] ["t"] fsSkipTarget).map (fun r =>
        (r.val, r.fs.get ["t", ".DS_Store"], r.fs.get ["t", "old", ".DS_Store"],
          decide (Event.removeAll ["t", "old"] true ∈ r.log))) =
      some ((1, 0), some (Node.file [5]), none, true) := by
  decide

end Filesync
